import Mathlib

/-!
# The optimizing compile dispatcher

A shallow embedding of `src/compiler-dispatcher/optimizing-compile-dispatcher.cc`:
the circular input queue, the output queue, the count of outstanding compile
tasks, and the disposal rules of `Flush`, `Stop` and
`InstallOptimizedFunctions`.

The dispatcher is a concurrent program.  Its sequential pieces (one critical
section, or one loop body) are plain functions on the state; the interleaving
of the owner thread with the worker tasks is the function `step`, which runs
one atomic piece for one thread, and `run`, which runs a schedule.
-/

namespace V8

/-! ## Data model -/

/-- Modelled from the spec: the code-kind tag of a job (the enum is declared
outside this file of the repository). -/
abbrev CodeKind := Nat

/-- Modelled from the spec: the identity of a code object. -/
abbrev Code := Nat

/-- The part of `OptimizedCompilationInfo` the dispatcher reads: `closure()`,
`code_kind()` and `is_osr()`.  The closure is the identity of the target
function. -/
structure OptimizedCompilationInfo where
  closure : Nat
  code_kind : CodeKind
  is_osr : Bool
deriving DecidableEq, Repr

/-- An `OptimizedCompilationJob*`: `id` stands for the pointer. -/
structure OptimizedCompilationJob where
  id : Nat
  compilation_info : OptimizedCompilationInfo
deriving DecidableEq, Repr

/-- Modelled from the spec: the optimization marker of a function; the spec
only names the "queued for optimization" marker, `kInOptimizationQueue`. -/
inductive OptimizationMarker where
  | kNone
  | kLogFirstExecution
  | kCompileOptimized
  | kCompileOptimizedConcurrent
  | kInOptimizationQueue
deriving DecidableEq, Repr

/-- Modelled from the spec: the state of a target function that disposal with
reversion touches: its active code, its shared function info and its
optimization marker. -/
structure JSFunction where
  code : Code
  shared : Nat
  optimization_marker : OptimizationMarker
deriving DecidableEq, Repr

/-- Modelled from the spec: the shared function info of a target: the baseline
code `GetCode()` returns and the OSR-pending flag. -/
structure SharedFunctionInfo where
  code : Code
  osr_is_in_optimization_queue : Bool
deriving DecidableEq, Repr

/-- The heap: the functions and the shared function infos, by identity. -/
structure Heap where
  functions : Nat → JSFunction
  shareds : Nat → SharedFunctionInfo

/-- Modelled from the spec: `function->shared().GetCode()`. -/
def Heap.GetCode (h : Heap) (function : Nat) : Code :=
  (h.shareds (h.functions function).shared).code

/-- Modelled from the spec: `function->set_code(code, kReleaseStore)`. -/
def Heap.set_code (h : Heap) (function : Nat) (code : Code) : Heap :=
  { h with
    functions := Function.update h.functions function
                   { h.functions function with code := code } }

/-- Modelled from the spec: `function->IsInOptimizationQueue()`, the function
carries the "queued for optimization" marker. -/
def Heap.IsInOptimizationQueue (h : Heap) (function : Nat) : Bool :=
  decide ((h.functions function).optimization_marker = OptimizationMarker.kInOptimizationQueue)

/-- Modelled from the spec: `function->ClearOptimizationMarker()`. -/
def Heap.ClearOptimizationMarker (h : Heap) (function : Nat) : Heap :=
  { h with
    functions := Function.update h.functions function
                   { h.functions function with optimization_marker := OptimizationMarker.kNone } }

/-- Modelled from the spec:
`function->shared().set_osr_is_in_optimization_queue(value)`. -/
def Heap.set_osr_is_in_optimization_queue (h : Heap) (function : Nat) (value : Bool) : Heap :=
  { h with
    shareds := Function.update h.shareds (h.functions function).shared
                 { h.shareds (h.functions function).shared with
                   osr_is_in_optimization_queue := value } }

/-- What happened to a job at the end of its life: `DisposeCompilationJob`
deleted it (with the flag it was called with), or it was handed to
`Compiler::FinalizeOptimizedCompilationJob`. -/
inductive Event where
  | Dispose (job : OptimizedCompilationJob) (restore_function_code : Bool)
  | Finalize (job : OptimizedCompilationJob)
deriving DecidableEq, Repr

/-- The external collaborators, taken as parameters:
`JSFunction::HasAvailableCodeKind` (a query on the heap) and the heap effect of
`Compiler::FinalizeOptimizedCompilationJob`. -/
structure Collaborators where
  HasAvailableCodeKind : Heap → Nat → CodeKind → Bool
  FinalizeOptimizedCompilationJob : OptimizedCompilationJob → Heap → Heap

/-- The enum `CompilationJob::Status`, the result of `ExecuteJob`. -/
inductive Status where
  | SUCCEEDED
  | FAILED
  | RETRY_ON_MAIN_THREAD
deriving DecidableEq, Repr

/-- The enum `BlockingBehavior`. -/
inductive BlockingBehavior where
  | kBlock
  | kDontBlock
deriving DecidableEq, Repr

/-- The fields of `OptimizingCompileDispatcher`.  `input_queue_` is the array
of `input_queue_capacity_` job pointers (`none` is a null pointer). -/
structure OptimizingCompileDispatcher where
  input_queue_ : List (Option OptimizedCompilationJob)
  input_queue_capacity_ : Int
  input_queue_length_ : Int
  input_queue_shift_ : Int
  output_queue_ : List OptimizedCompilationJob
  ref_count_ : Int
deriving DecidableEq, Repr

/-- The dispatcher together with what its disposal rules act on: the heap and
the record of disposed and finalized jobs. -/
structure World where
  d : OptimizingCompileDispatcher
  heap : Heap
  trace : List Event

/-! ## The sequential pieces -/

/-- Modelled from the spec: the constructor (declared in the header): a
dispatcher of the given capacity with empty queues and no task. -/
def OptimizingCompileDispatcher.create (capacity : Int) : OptimizingCompileDispatcher :=
  { input_queue_ := List.replicate capacity.toNat none
    input_queue_capacity_ := capacity
    input_queue_length_ := 0
    input_queue_shift_ := 0
    output_queue_ := []
    ref_count_ := 0 }

/-- Modelled from the spec: `InputQueueIndex(i)` (declared in the header), the
circular buffer is addressed by `(base + index) mod capacity`; `Int.tmod` is
the remainder of C++. -/
def OptimizingCompileDispatcher.InputQueueIndex (d : OptimizingCompileDispatcher) (i : Int) : Int :=
  Int.tmod (i + d.input_queue_shift_) d.input_queue_capacity_

/-- The array read `input_queue_[i]`. -/
def OptimizingCompileDispatcher.at (d : OptimizingCompileDispatcher) (i : Int) :
    Option OptimizedCompilationJob :=
  d.input_queue_.getD i.toNat none

/-- The two assignments `NextInput` and `FlushInputQueue` remove the front job
with: `input_queue_shift_ = InputQueueIndex(1); input_queue_length_--`. -/
def OptimizingCompileDispatcher.dropFront (d : OptimizingCompileDispatcher) :
    OptimizingCompileDispatcher :=
  { d with input_queue_shift_ := d.InputQueueIndex 1
           input_queue_length_ := d.input_queue_length_ - 1 }

/-- The function `NextInput`: the oldest job of the input queue, or null when
it is empty. -/
def OptimizingCompileDispatcher.NextInput (d : OptimizingCompileDispatcher) :
    Option OptimizedCompilationJob × OptimizingCompileDispatcher :=
  if d.input_queue_length_ = 0 then (none, d)
  else (d.at (d.InputQueueIndex 0), d.dropFront)

/-- The critical section of `QueueForOptimization`: the job is written at the
back of the input queue. -/
def OptimizingCompileDispatcher.enqueue (d : OptimizingCompileDispatcher)
    (job : OptimizedCompilationJob) : OptimizingCompileDispatcher :=
  { d with input_queue_ := d.input_queue_.set (d.InputQueueIndex d.input_queue_length_).toNat (some job)
           input_queue_length_ := d.input_queue_length_ + 1 }

/-- The function `QueueForOptimization`: the job is added to the input queue,
then a `CompileTask` is created, whose constructor increments `ref_count_`. -/
def OptimizingCompileDispatcher.QueueForOptimization (d : OptimizingCompileDispatcher)
    (job : OptimizedCompilationJob) : OptimizingCompileDispatcher :=
  let d1 := d.enqueue job
  { d1 with ref_count_ := d1.ref_count_ + 1 }

/-- Modelled from the spec: `IsQueueAvailable` (declared in the header), the
availability check of the caller, `length < capacity`; `QueueForOptimization`
asserts it again with `DCHECK_LT(input_queue_length_, input_queue_capacity_)`. -/
def OptimizingCompileDispatcher.IsQueueAvailable (d : OptimizingCompileDispatcher) : Bool :=
  decide (d.input_queue_length_ < d.input_queue_capacity_)

/-- The function `CompileNext`: nothing for a null job; otherwise the job is
executed and pushed to the output queue, whatever status `ExecuteJob` returned.
The request to install code that follows is a hint to the owner thread and
changes nothing here. -/
def OptimizingCompileDispatcher.CompileNext (d : OptimizingCompileDispatcher)
    (job : Option OptimizedCompilationJob) (_status : Status) : OptimizingCompileDispatcher :=
  match job with
  | none => d
  | some j => { d with output_queue_ := d.output_queue_ ++ [j] }

/-- The end of `CompileTask::RunInternal`: `--ref_count_`. -/
def OptimizingCompileDispatcher.releaseTask (d : OptimizingCompileDispatcher) :
    OptimizingCompileDispatcher :=
  { d with ref_count_ := d.ref_count_ - 1 }

/-- The function `HasJobs`: the answer, and the dispatcher after the call. -/
def OptimizingCompileDispatcher.HasJobs (d : OptimizingCompileDispatcher) :
    Bool × OptimizingCompileDispatcher :=
  (d.ref_count_ != 0 || !d.output_queue_.isEmpty, d)

/-- The function `DisposeCompilationJob`: with `restore_function_code` the
code of the target is set back to the code of its shared function info, its
"queued for optimization" marker is cleared, and for an OSR job the OSR-pending
flag is cleared; then the job is deleted. -/
def DisposeCompilationJob (job : OptimizedCompilationJob) (restore_function_code : Bool)
    (w : World) : World :=
  let heap1 :=
    if restore_function_code then
      let function := job.compilation_info.closure
      let h1 := w.heap.set_code function (w.heap.GetCode function)
      let h2 := if h1.IsInOptimizationQueue function then h1.ClearOptimizationMarker function else h1
      if job.compilation_info.is_osr then h2.set_osr_is_in_optimization_queue function false else h2
    else w.heap
  { w with heap := heap1, trace := w.trace ++ [Event.Dispose job restore_function_code] }

/-- The loop of `FlushInputQueue`, at most `fuel` iterations: `none` when the
loop is not over by then.  A null slot fails `DCHECK_NOT_NULL` (the job would
be dereferenced): `none` as well. -/
def FlushInputQueue_loop : Nat → World → Option World
  | 0, w => if w.d.input_queue_length_ > 0 then none else some w
  | fuel + 1, w =>
    if w.d.input_queue_length_ > 0 then
      match w.d.at (w.d.InputQueueIndex 0) with
      | none => none
      | some job =>
        FlushInputQueue_loop fuel (DisposeCompilationJob job true { w with d := w.d.dropFront })
    else some w

/-- The function `FlushInputQueue`: every iteration lowers
`input_queue_length_` by one, so `input_queue_length_` iterations are enough. -/
def FlushInputQueue (w : World) : Option World :=
  FlushInputQueue_loop w.d.input_queue_length_.toNat w

/-- One iteration of the loop of `FlushOutputQueue`: `none` when the output
queue is empty and the function returns. -/
def FlushOutputQueue_iter (restore_function_code : Bool) (w : World) : Option World :=
  match w.d.output_queue_ with
  | [] => none
  | job :: rest =>
    some (DisposeCompilationJob job restore_function_code
      { w with d := { w.d with output_queue_ := rest } })

/-- One iteration of the loop of `InstallOptimizedFunctions`: `none` when the
output queue is empty and the function returns. -/
def InstallOptimizedFunctions_iter (X : Collaborators) (w : World) : Option World :=
  match w.d.output_queue_ with
  | [] => none
  | job :: rest =>
    let w1 : World := { w with d := { w.d with output_queue_ := rest } }
    let info := job.compilation_info
    let function := info.closure
    if X.HasAvailableCodeKind w1.heap function info.code_kind && !info.is_osr then
      some (DisposeCompilationJob job false w1)
    else
      some { w1 with heap := X.FinalizeOptimizedCompilationJob job w1.heap
                     trace := w1.trace ++ [Event.Finalize job] }

/-! ## The concurrent system -/

/-- Where a `CompileTask` stands in `RunInternal`: not yet at `NextInput`;
inside `CompileNext`, executing the job it took; or past `CompileNext`, before
it decrements `ref_count_`. -/
inductive TaskPc where
  | scheduled
  | executing (job : OptimizedCompilationJob)
  | finishing
deriving DecidableEq, Repr

/-- Where the owner thread stands: outside the dispatcher; in `FlushQueues`,
waiting for `ref_count_` to reach zero; in the loop of `FlushOutputQueue`; in
the loop of `InstallOptimizedFunctions`; or waiting in `AwaitCompileTasks`. -/
inductive OwnerPc where
  | idle
  | FlushQueues_wait (restore_function_code : Bool)
  | FlushOutputQueue (restore_function_code : Bool)
  | InstallOptimizedFunctions
  | AwaitCompileTasks
deriving DecidableEq, Repr

/-- The dispatcher, its tasks on the worker pool, the owner thread, and the
jobs passed to `QueueForOptimization` so far. -/
structure System where
  world : World
  tasks : List TaskPc
  owner : OwnerPc
  submitted : List OptimizedCompilationJob

/-- One atomic piece of one thread: the owner calls an operation, the owner
continues the operation it is in, or the task at a position of the pool takes
its next step (with the status `ExecuteJob` returns, when it is executing). -/
inductive Action where
  | QueueForOptimization (job : OptimizedCompilationJob)
  | Flush (blocking_behavior : BlockingBehavior)
  | Stop
  | InstallOptimizedFunctions
  | AwaitCompileTasks
  | owner
  | worker (i : Nat) (status : Status)
deriving DecidableEq, Repr

/-- A new system: an empty dispatcher of the given capacity, no task, the owner
outside the dispatcher. -/
def System.create (capacity : Int) (heap : Heap) : System :=
  { world := { d := OptimizingCompileDispatcher.create capacity, heap := heap, trace := [] }
    tasks := []
    owner := OwnerPc.idle
    submitted := [] }

/-- The owner thread enters `FlushQueues`: `FlushInputQueue` runs under the
input queue mutex, then the owner waits (`kBlock`) or goes on to
`FlushOutputQueue`. -/
def System.FlushQueues (s : System) (blocking_behavior : BlockingBehavior)
    (restore_function_code : Bool) : Option System :=
  match FlushInputQueue s.world with
  | none => none
  | some w =>
    some { s with world := w
                  owner := if blocking_behavior = BlockingBehavior.kBlock
                           then OwnerPc.FlushQueues_wait restore_function_code
                           else OwnerPc.FlushOutputQueue restore_function_code }

/-- The owner thread continues the operation it is in. -/
def System.ownerStep (X : Collaborators) (s : System) : Option System :=
  match s.owner with
  | OwnerPc.idle => none
  | OwnerPc.FlushQueues_wait r =>
    if s.world.d.ref_count_ > 0 then none
    else some { s with owner := OwnerPc.FlushOutputQueue r }
  | OwnerPc.FlushOutputQueue r =>
    match FlushOutputQueue_iter r s.world with
    | none => some { s with owner := OwnerPc.idle }
    | some w => some { s with world := w }
  | OwnerPc.InstallOptimizedFunctions =>
    match InstallOptimizedFunctions_iter X s.world with
    | none => some { s with owner := OwnerPc.idle }
    | some w => some { s with world := w }
  | OwnerPc.AwaitCompileTasks =>
    if s.world.d.ref_count_ > 0 then none
    else some { s with owner := OwnerPc.idle }

/-- The task at position `i` of the pool takes its next step of
`CompileTask::RunInternal`. -/
def System.workerStep (s : System) (i : Nat) (status : Status) : Option System :=
  match s.tasks.get? i with
  | none => none
  | some TaskPc.scheduled =>
    let r := s.world.d.NextInput
    some { s with world := { s.world with d := r.2 }
                  tasks := s.tasks.set i
                    (match r.1 with
                     | none => TaskPc.finishing
                     | some job => TaskPc.executing job) }
  | some (TaskPc.executing job) =>
    some { s with world := { s.world with d := s.world.d.CompileNext (some job) status }
                  tasks := s.tasks.set i TaskPc.finishing }
  | some TaskPc.finishing =>
    some { s with world := { s.world with d := s.world.d.releaseTask }
                  tasks := s.tasks.eraseIdx i }

/-- One step of the system; `none` when the action is not enabled: the owner
is inside another operation, the precondition of `QueueForOptimization` fails,
the owner is blocked, or there is no such task.  A step is one critical section
of the source, or a piece that touches no shared state.  `QueueForOptimization`
is one step: its critical section and the creation of the task, which no step
of a task can tell apart (a task reads the input queue, and only decrements
`ref_count_`). -/
def step (X : Collaborators) (s : System) : Action → Option System
  | Action.QueueForOptimization job =>
    if s.owner = OwnerPc.idle ∧ s.world.d.IsQueueAvailable = true then
      some { s with world := { s.world with d := s.world.d.QueueForOptimization job }
                    tasks := s.tasks ++ [TaskPc.scheduled]
                    submitted := s.submitted ++ [job] }
    else none
  | Action.Flush b =>
    if s.owner = OwnerPc.idle then s.FlushQueues b true else none
  | Action.Stop =>
    if s.owner = OwnerPc.idle then s.FlushQueues BlockingBehavior.kBlock false else none
  | Action.InstallOptimizedFunctions =>
    if s.owner = OwnerPc.idle then some { s with owner := OwnerPc.InstallOptimizedFunctions }
    else none
  | Action.AwaitCompileTasks =>
    if s.owner = OwnerPc.idle then some { s with owner := OwnerPc.AwaitCompileTasks }
    else none
  | Action.owner => s.ownerStep X
  | Action.worker i status => s.workerStep i status

/-- A schedule, run from a state. -/
def run (X : Collaborators) : System → List Action → Option System
  | s, [] => some s
  | s, a :: as =>
    match step X s a with
    | none => none
    | some s1 => run X s1 as

/-- The states a system of some capacity `>= 1` reaches. -/
def Reachable (X : Collaborators) (s : System) : Prop :=
  ∃ (capacity : Int) (heap : Heap) (as : List Action),
    1 ≤ capacity ∧ run X (System.create capacity heap) as = some s

/-! ## Views of the state -/

/-- The jobs of the input queue, oldest first: the slots
`InputQueueIndex 0 .. InputQueueIndex (input_queue_length_ - 1)`. -/
def OptimizingCompileDispatcher.inputSlots (d : OptimizingCompileDispatcher) :
    List (Option OptimizedCompilationJob) :=
  (List.range d.input_queue_length_.toNat).map (fun (i : Nat) => d.at (d.InputQueueIndex (i : Int)))

/-- The non-null jobs of the input queue, oldest first. -/
def OptimizingCompileDispatcher.inputJobs (d : OptimizingCompileDispatcher) :
    List OptimizedCompilationJob :=
  d.inputSlots.reduceOption

/-- The jobs the tasks are executing. -/
def executingJobs : List TaskPc → List OptimizedCompilationJob
  | [] => []
  | TaskPc.executing job :: ts => job :: executingJobs ts
  | _ :: ts => executingJobs ts

/-- The jobs a trace disposed of. -/
def disposedJobs : List Event → List OptimizedCompilationJob
  | [] => []
  | Event.Dispose job _ :: es => job :: disposedJobs es
  | _ :: es => disposedJobs es

/-- The jobs a trace handed to finalize. -/
def finalizedJobs : List Event → List OptimizedCompilationJob
  | [] => []
  | Event.Finalize job :: es => job :: finalizedJobs es
  | _ :: es => finalizedJobs es

/-- The input queue is well formed: the array has `input_queue_capacity_`
slots, the shift and the length are within the array, and no slot of the queue
holds a null pointer. -/
structure OptimizingCompileDispatcher.WF (d : OptimizingCompileDispatcher) : Prop where
  capacity_pos : 1 ≤ d.input_queue_capacity_
  size : d.input_queue_.length = d.input_queue_capacity_.toNat
  shift_nonneg : 0 ≤ d.input_queue_shift_
  shift_lt : d.input_queue_shift_ < d.input_queue_capacity_
  length_nonneg : 0 ≤ d.input_queue_length_
  length_le : d.input_queue_length_ ≤ d.input_queue_capacity_
  slots : d.inputSlots = d.inputJobs.map some

/-! ## Calls on the input queue alone -/

/-- A call on the input queue. -/
inductive QueueCall where
  | QueueForOptimization (job : OptimizedCompilationJob)
  | NextInput
deriving DecidableEq, Repr

/-- A dispatcher with the jobs submitted to it so far and the non-null jobs
its `NextInput` calls returned so far, both in call order. -/
structure QueueLog where
  d : OptimizingCompileDispatcher
  submitted : List OptimizedCompilationJob
  returned : List OptimizedCompilationJob
deriving DecidableEq, Repr

/-- One call; `QueueForOptimization` is made only while the queue is available
(`input_queue_length_ < input_queue_capacity_`). -/
def QueueLog.call (r : QueueLog) : QueueCall → Option QueueLog
  | QueueCall.QueueForOptimization job =>
    if r.d.IsQueueAvailable = true then
      some { r with d := r.d.QueueForOptimization job, submitted := r.submitted ++ [job] }
    else none
  | QueueCall.NextInput =>
    some { r with d := r.d.NextInput.2, returned := r.returned ++ r.d.NextInput.1.toList }

/-- A sequence of calls. -/
def QueueLog.calls : QueueLog → List QueueCall → Option QueueLog
  | r, [] => some r
  | r, c :: cs =>
    match r.call c with
    | none => none
    | some r1 => r1.calls cs

/-- The log of a new dispatcher. -/
def QueueLog.create (capacity : Int) : QueueLog :=
  { d := OptimizingCompileDispatcher.create capacity, submitted := [], returned := [] }

/-! ## Example jobs -/

/-- A job for function 10. -/
def job1 : OptimizedCompilationJob := ⟨1, ⟨10, 0, false⟩⟩

/-- A job for function 11. -/
def job2 : OptimizedCompilationJob := ⟨2, ⟨11, 0, false⟩⟩

/-- An OSR job for function 12. -/
def job3 : OptimizedCompilationJob := ⟨3, ⟨12, 0, true⟩⟩

/-- A schedule of calls on a queue of capacity 2 in which the circular index
wraps around. -/
def fifoCalls : List QueueCall :=
  [QueueCall.QueueForOptimization job1, QueueCall.QueueForOptimization job2, QueueCall.NextInput,
   QueueCall.QueueForOptimization job3, QueueCall.NextInput, QueueCall.NextInput,
   QueueCall.NextInput]

/-- The log `fifoCalls` ends in. -/
def fifoLog : QueueLog :=
  { d := { input_queue_ := [some job3, some job2]
           input_queue_capacity_ := 2
           input_queue_length_ := 0
           input_queue_shift_ := 1
           output_queue_ := []
           ref_count_ := 3 }
    submitted := [job1, job2, job3]
    returned := [job1, job2, job3] }

/-! ## Invariants of the system -/

/-- A list of jobs disposed of one after the other. -/
def disposeAll (restore_function_code : Bool) : List OptimizedCompilationJob → World → World
  | [], w => w
  | job :: jobs, w =>
    disposeAll restore_function_code jobs (DisposeCompilationJob job restore_function_code w)

/-- The jobs the dispatcher holds: in the input queue, being executed by a
task, or in the output queue. -/
def System.heldJobs (s : System) : List OptimizedCompilationJob :=
  s.world.d.inputJobs ++ executingJobs s.tasks ++ s.world.d.output_queue_

/-- The invariant of the system: the input queue is well formed, `ref_count_`
is the number of tasks, every submitted job is held by the dispatcher or has
been disposed of or finalized (each as often as it was submitted), and the
input queue is empty while the owner is in `FlushQueues`. -/
structure System.Inv (s : System) : Prop where
  wf : s.world.d.WF
  ref_count : s.world.d.ref_count_ = (s.tasks.length : Int)
  conservation :
    (s.heldJobs ++ disposedJobs s.world.trace ++ finalizedJobs s.world.trace).Perm s.submitted
  flushed : ∀ r, (s.owner = OwnerPc.FlushQueues_wait r ∨ s.owner = OwnerPc.FlushOutputQueue r) →
    s.world.d.input_queue_length_ = 0

/-- The state a schedule leads to from a new system (the new system itself
when the schedule cannot be run). -/
def System.after (X : Collaborators) (capacity : Int) (heap : Heap) (as : List Action) : System :=
  (run X (System.create capacity heap) as).getD (System.create capacity heap)

/-- An example heap: function 10 runs code 1, the other functions code 0;
every function is marked as queued for optimization and has its own shared
function info, with baseline code 0 and the OSR-pending flag set. -/
def heap0 : Heap :=
  { functions := fun f =>
      { code := if f = 10 then 1 else 0, shared := f,
        optimization_marker := OptimizationMarker.kInOptimizationQueue }
    shareds := fun _ => { code := 0, osr_is_in_optimization_queue := true } }

/-- Example collaborators: a function has available code of kind `k` when it
runs code `k + 1`, and finalizing a job installs that code. -/
def X0 : Collaborators :=
  { HasAvailableCodeKind := fun h f k => decide ((h.functions f).code = k + 1)
    FinalizeOptimizedCompilationJob := fun job h =>
      h.set_code job.compilation_info.closure (job.compilation_info.code_kind + 1) }

/-- A schedule: three jobs are queued, the first is taken by a task, the second
and the third are compiled and published (the third first), and the owner
enters `InstallOptimizedFunctions`. -/
def schedule1 : List Action :=
  [Action.QueueForOptimization job1, Action.QueueForOptimization job2,
   Action.worker 0 Status.SUCCEEDED, Action.QueueForOptimization job3,
   Action.worker 1 Status.SUCCEEDED, Action.worker 2 Status.SUCCEEDED,
   Action.worker 2 Status.FAILED, Action.worker 1 Status.SUCCEEDED]


/-- A job for function 10, of code kind 1. -/
def job4 : OptimizedCompilationJob := ⟨4, ⟨10, 1, false⟩⟩

/-- A schedule that leaves a job in each place: the first job is being
executed, the second is in the output queue, the third and the fourth fill the
input queue. -/
def schedule2 : List Action :=
  [Action.QueueForOptimization job1, Action.QueueForOptimization job2,
   Action.worker 0 Status.SUCCEEDED, Action.worker 1 Status.SUCCEEDED,
   Action.worker 1 Status.RETRY_ON_MAIN_THREAD,
   Action.QueueForOptimization job3, Action.QueueForOptimization job4]

/-- An OSR job for function 10, which already runs code of the kind of the job. -/
def job5 : OptimizedCompilationJob := ⟨5, ⟨10, 0, true⟩⟩

/-- A schedule after which the owner is in `InstallOptimizedFunctions` with
`job1` (stale) and `job5` (OSR) in the output queue. -/
def schedule3 : List Action :=
  [Action.QueueForOptimization job1, Action.QueueForOptimization job5,
   Action.worker 0 Status.SUCCEEDED, Action.worker 0 Status.SUCCEEDED,
   Action.worker 0 Status.SUCCEEDED,
   Action.worker 0 Status.SUCCEEDED, Action.worker 0 Status.SUCCEEDED,
   Action.worker 0 Status.SUCCEEDED,
   Action.InstallOptimizedFunctions]

/-- The schedule `schedule3`, then the iteration of `InstallOptimizedFunctions`
that drops `job1`. -/
def schedule4 : List Action := schedule3 ++ [Action.owner]

/-- The actions that continue what is under way: a step of the owner inside
the operation it is in, or a step of a task.  The other actions are calls of
the owner. -/
def Action.isInternal : Action → Bool
  | Action.owner => true
  | Action.worker _ _ => true
  | _ => false

/-- What holds between the state `s0` in which the owner calls `FlushQueues`
with the flag `r` and a later state `s` of that call: the input queue is empty,
the jobs of the input queue of `s0` have been disposed of with reversion, and
the jobs that were being executed or in the output queue are still there or
have been disposed of, in the order `order`, with the flag `r`. -/
structure FlushRel (r : Bool) (s0 s : System) : Prop where
  inv : s.Inv
  submitted : s.submitted = s0.submitted
  empty : s.world.d.input_queue_length_ = 0
  owner : s.owner = OwnerPc.FlushQueues_wait r ∨ s.owner = OwnerPc.FlushOutputQueue r
    ∨ s.owner = OwnerPc.idle
  progress : ∃ order : List OptimizedCompilationJob,
    (order ++ executingJobs s.tasks ++ s.world.d.output_queue_).Perm
        (executingJobs s0.tasks ++ s0.world.d.output_queue_)
      ∧ s.world.trace = s0.world.trace
          ++ s0.world.d.inputJobs.map (fun j => Event.Dispose j true)
          ++ order.map (fun j => Event.Dispose j r)
      ∧ s.world.heap = (disposeAll r order (disposeAll true s0.world.d.inputJobs s0.world)).heap

/-- Where a blocking `FlushQueues` stands: the owner waits, or every task has
finished and the owner drains the output queue, or it has returned. -/
def Blocking (r : Bool) (s : System) : Prop :=
  s.owner = OwnerPc.FlushQueues_wait r
    ∨ (s.tasks = [] ∧ (s.owner = OwnerPc.FlushOutputQueue r
        ∨ (s.owner = OwnerPc.idle ∧ s.world.d.output_queue_ = [])))


/-- The internal steps that bring a blocking `FlushQueues` called after
`schedule2` to its return: the four tasks finish (the first publishes `job1`),
then the owner stops waiting, drains the two jobs of the output queue and
returns. -/
def drain2 : List Action :=
  [Action.worker 0 Status.SUCCEEDED, Action.worker 0 Status.SUCCEEDED,
   Action.worker 0 Status.SUCCEEDED,
   Action.worker 0 Status.SUCCEEDED, Action.worker 0 Status.SUCCEEDED,
   Action.worker 0 Status.SUCCEEDED, Action.worker 0 Status.SUCCEEDED,
   Action.owner, Action.owner, Action.owner, Action.owner]

/-- The job an event is about. -/
def Event.job : Event → OptimizedCompilationJob
  | Event.Dispose job _ => job
  | Event.Finalize job => job

/-- The steps of tasks. -/
def Action.isWorker : Action → Bool
  | Action.worker _ _ => true
  | _ => false

/-- The job a step publishes to the output queue: the step of a task that is
executing a job publishes that job (the push of `CompileNext`). -/
def System.publishes (s : System) : Action → List OptimizedCompilationJob
  | Action.worker i _ =>
    match s.tasks.get? i with
    | some (TaskPc.executing job) => [job]
    | _ => []
  | _ => []

/-- The jobs a schedule publishes, in the order of their publication. -/
def publishedAlong (X : Collaborators) : System → List Action → List OptimizedCompilationJob
  | _, [] => []
  | s, a :: as =>
    s.publishes a ++
      (match step X s a with
       | none => []
       | some s1 => publishedAlong X s1 as)

/-- What holds between the state `s0` in which the owner calls
`AwaitCompileTasks` and a later state `s` of that call: nothing was disposed of
or finalized, the heap is as it was, and the owner waits or has returned with
no task left. -/
structure AwaitRel (s0 s : System) : Prop where
  inv : s.Inv
  submitted : s.submitted = s0.submitted
  trace : s.world.trace = s0.world.trace
  heap : s.world.heap = s0.world.heap
  owner : s.owner = OwnerPc.AwaitCompileTasks ∨ (s.owner = OwnerPc.idle ∧ s.tasks = [])

/-- What holds between the state `s0` in which the owner calls
`InstallOptimizedFunctions` and a later state `s` of that call, `later` being
the jobs published since: the events `evs` added to the trace are about the
jobs popped so far, in order; these and the jobs still in the output queue are
the jobs of the output queue of `s0` followed by `later`; and each event
disposes of its job without reversion or finalizes it. -/
structure InstallRel (s0 : System) (later : List OptimizedCompilationJob) (s : System) :
    Prop where
  inv : s.Inv
  owner : s.owner = OwnerPc.InstallOptimizedFunctions ∨ s.owner = OwnerPc.idle
  progress : ∃ evs : List Event,
    s.world.trace = s0.world.trace ++ evs
      ∧ evs.map Event.job ++ s.world.d.output_queue_ = s0.world.d.output_queue_ ++ later
      ∧ ∀ e ∈ evs, e = Event.Dispose e.job false ∨ e = Event.Finalize e.job


/-- The internal steps that bring `AwaitCompileTasks` called after `schedule2`
to its return: the four tasks finish (the last two take `job3` and `job4` from
the input queue and publish them), then the owner returns. -/
def await2 : List Action :=
  [Action.worker 0 Status.SUCCEEDED, Action.worker 0 Status.SUCCEEDED,
   Action.worker 0 Status.SUCCEEDED,
   Action.worker 0 Status.SUCCEEDED, Action.worker 0 Status.FAILED,
   Action.worker 0 Status.SUCCEEDED,
   Action.worker 0 Status.SUCCEEDED, Action.worker 0 Status.SUCCEEDED,
   Action.worker 0 Status.SUCCEEDED,
   Action.owner]

/-- A schedule after which `job1` and `job2`, submitted in this order, are
each being executed by a task. -/
def schedule5 : List Action :=
  [Action.QueueForOptimization job1, Action.QueueForOptimization job2,
   Action.worker 0 Status.SUCCEEDED, Action.worker 1 Status.SUCCEEDED]

/-- The second task publishes `job2`, then the first publishes `job1`. -/
def publish5 : List Action :=
  [Action.worker 1 Status.SUCCEEDED, Action.worker 0 Status.SUCCEEDED]

/-- An example world: a new dispatcher of capacity 2 over the example heap. -/
def world0 : World :=
  { d := OptimizingCompileDispatcher.create 2, heap := heap0, trace := [] }

/-- The number of tasks that have not yet called `NextInput`. -/
def scheduledCount : List TaskPc → Nat
  | [] => 0
  | TaskPc.scheduled :: ts => scheduledCount ts + 1
  | _ :: ts => scheduledCount ts

/-- What a step adds to `ref_count_`: the constructor of the `CompileTask` that
`QueueForOptimization` creates adds one, the last step of a task
(`--ref_count_` in `RunInternal`) takes one away, nothing else changes it. -/
def System.refCountChange (s : System) : Action → Int
  | Action.QueueForOptimization _ => 1
  | Action.worker i _ =>
    match s.tasks.get? i with
    | some TaskPc.finishing => -1
    | _ => 0
  | _ => 0

/-- The function `CompileTask::RunInternal`, from `NextInput` to the decrement
of `ref_count_`, with the status `ExecuteJob` returns. -/
def OptimizingCompileDispatcher.RunInternal (d : OptimizingCompileDispatcher)
    (status : Status) : OptimizingCompileDispatcher :=
  (d.NextInput.2.CompileNext d.NextInput.1 status).releaseTask

/-- The steps of the task at position `i` that make up one run of
`RunInternal`, when no other step comes in between: `NextInput`, the push of
`CompileNext` when a job was taken, and the decrement of `ref_count_`. -/
def System.taskRun (s : System) (i : Nat) (status : Status) : List Action :=
  match s.world.d.NextInput.1 with
  | none => [Action.worker i status, Action.worker i status]
  | some _ => [Action.worker i status, Action.worker i status, Action.worker i status]

/-- What holds between the state `s0` in which the owner calls `FlushQueues`
with the flag `r` and a later state `s` of that call, `later` being the jobs
published since: the jobs of the input queue of `s0` have been disposed of with
reversion; the jobs `order` disposed of by the output drain, with the flag `r`
and in this order, followed by the jobs still in the output queue, are the jobs
of the output queue of `s0` followed by `later`. -/
structure DrainRel (r : Bool) (s0 : System) (later : List OptimizedCompilationJob)
    (s : System) : Prop where
  inv : s.Inv
  owner : s.owner = OwnerPc.FlushQueues_wait r ∨ s.owner = OwnerPc.FlushOutputQueue r
    ∨ s.owner = OwnerPc.idle
  progress : ∃ order : List OptimizedCompilationJob,
    s.world.trace = s0.world.trace
        ++ s0.world.d.inputJobs.map (fun j => Event.Dispose j true)
        ++ order.map (fun j => Event.Dispose j r)
      ∧ order ++ s.world.d.output_queue_ = s0.world.d.output_queue_ ++ later

/-- The steps after which a non-blocking `Flush` called in the state
`schedule5` reaches has returned: the first task publishes `job1` before the
output drain looks at the output queue, the drain disposes of it and returns. -/
def raceDrain : List Action :=
  [Action.worker 0 Status.SUCCEEDED, Action.owner, Action.owner]

/-! # Theorems -/

/-! ## The circular buffer -/

theorem reduceOption_map_some {α : Type} (l : List α) : (l.map some).reduceOption = l := by
  induction l with
  | nil => rfl
  | cons a l ih => rw [List.map_cons, List.reduceOption_cons_of_some, ih]

theorem ring_index_ne (c sh i n : Nat) (hi : i < n) (hn : n < c) :
    (n + sh) % c ≠ (i + sh) % c := by
  intro h
  have h1 : n ≡ i [MOD c] := Nat.ModEq.add_right_cancel' sh h
  have h2 : n % c = i % c := h1
  rw [Nat.mod_eq_of_lt hn, Nat.mod_eq_of_lt (by omega)] at h2
  omega

theorem ring_push {α : Type} (buf : List (Option α)) (c sh n : Nat) (x : Option α)
    (hc : buf.length = c) (hn : n < c) :
    (List.range (n + 1)).map (fun i => (buf.set ((n + sh) % c) x).getD ((i + sh) % c) none)
      = (List.range n).map (fun i => buf.getD ((i + sh) % c) none) ++ [x] := by
  rw [List.range_succ, List.map_append]
  congr 1
  · apply List.map_congr_left
    intro i hi
    rw [List.mem_range] at hi
    simp only [List.getD_eq_getElem?_getD]
    rw [List.getElem?_set_ne (ring_index_ne c sh i n hi hn)]
  · have hlt : (n + sh) % c < buf.length := by
      rw [hc]; exact Nat.mod_lt _ (by omega)
    simp [List.getD_eq_getElem?_getD, List.getElem?_set, hlt]

theorem ring_pop {α : Type} (buf : List (Option α)) (c sh n : Nat) :
    (List.range (n + 1)).map (fun i => buf.getD ((i + sh) % c) none)
      = buf.getD ((0 + sh) % c) none
          :: (List.range n).map (fun i => buf.getD ((i + (1 + sh) % c) % c) none) := by
  rw [List.range_succ_eq_map, List.map_cons, List.map_map]
  congr 1
  apply List.map_congr_left
  intro i _
  simp only [Function.comp, Nat.succ_eq_add_one]
  congr 1
  rw [Nat.add_mod i ((1 + sh) % c), Nat.mod_mod, ← Nat.add_mod]
  congr 1
  omega

theorem OptimizingCompileDispatcher.index_toNat (d : OptimizingCompileDispatcher)
    (hc : 0 ≤ d.input_queue_capacity_) (hs : 0 ≤ d.input_queue_shift_) (i : Nat) :
    (d.InputQueueIndex (i : Int)).toNat
      = (i + d.input_queue_shift_.toNat) % d.input_queue_capacity_.toNat := by
  obtain ⟨c, hc1⟩ : ∃ c : Nat, d.input_queue_capacity_ = c :=
    ⟨d.input_queue_capacity_.toNat, by omega⟩
  obtain ⟨sh, hsh⟩ : ∃ sh : Nat, d.input_queue_shift_ = sh :=
    ⟨d.input_queue_shift_.toNat, by omega⟩
  unfold OptimizingCompileDispatcher.InputQueueIndex
  rw [hc1, hsh, Int.tmod_eq_emod (by omega) (by omega)]
  simp only [Int.toNat_ofNat]
  norm_cast

theorem OptimizingCompileDispatcher.index_eq (d : OptimizingCompileDispatcher)
    (hc : 0 ≤ d.input_queue_capacity_) (hs : 0 ≤ d.input_queue_shift_) (i : Nat) :
    d.InputQueueIndex (i : Int)
      = (((i + d.input_queue_shift_.toNat) % d.input_queue_capacity_.toNat : Nat) : Int) := by
  rw [← d.index_toNat hc hs i]
  have h0 : 0 ≤ d.InputQueueIndex (i : Int) := by
    unfold OptimizingCompileDispatcher.InputQueueIndex
    exact Int.tmod_nonneg _ (by omega)
  omega

theorem OptimizingCompileDispatcher.inputSlots_eq (d : OptimizingCompileDispatcher)
    (hc : 0 ≤ d.input_queue_capacity_) (hs : 0 ≤ d.input_queue_shift_) :
    d.inputSlots = (List.range d.input_queue_length_.toNat).map
      (fun i => d.input_queue_.getD
        ((i + d.input_queue_shift_.toNat) % d.input_queue_capacity_.toNat) none) := by
  unfold OptimizingCompileDispatcher.inputSlots OptimizingCompileDispatcher.at
  apply List.map_congr_left
  intro i _
  rw [d.index_toNat hc hs i]

theorem OptimizingCompileDispatcher.WF.enqueue_inputSlots {d : OptimizingCompileDispatcher}
    (h : d.WF) (hlt : d.input_queue_length_ < d.input_queue_capacity_)
    (job : OptimizedCompilationJob) :
    (d.enqueue job).inputSlots = d.inputSlots ++ [some job] := by
  have hc := h.capacity_pos
  have hs := h.shift_nonneg
  have hl := h.length_nonneg
  rw [OptimizingCompileDispatcher.inputSlots_eq _ (by simpa [enqueue] using (by omega))
        (by simpa [enqueue] using hs),
      d.inputSlots_eq (by omega) hs]
  have e1 : d.input_queue_length_ = (d.input_queue_length_.toNat : Int) := by omega
  have e2 : (d.InputQueueIndex d.input_queue_length_).toNat
      = (d.input_queue_length_.toNat + d.input_queue_shift_.toNat)
          % d.input_queue_capacity_.toNat := by
    conv_lhs => rw [e1]
    exact d.index_toNat (by omega) hs _
  have e3 : (d.input_queue_length_ + 1).toNat = d.input_queue_length_.toNat + 1 := by omega
  simp only [enqueue, e2, e3]
  exact ring_push d.input_queue_ _ _ _ (some job) h.size (by omega)

theorem OptimizingCompileDispatcher.WF.enqueue_inputJobs {d : OptimizingCompileDispatcher}
    (h : d.WF) (hlt : d.input_queue_length_ < d.input_queue_capacity_)
    (job : OptimizedCompilationJob) :
    (d.enqueue job).inputJobs = d.inputJobs ++ [job] := by
  unfold OptimizingCompileDispatcher.inputJobs
  rw [h.enqueue_inputSlots hlt job, List.reduceOption_append]
  simp

theorem OptimizingCompileDispatcher.WF.enqueue {d : OptimizingCompileDispatcher}
    (h : d.WF) (hlt : d.input_queue_length_ < d.input_queue_capacity_)
    (job : OptimizedCompilationJob) : (d.enqueue job).WF := by
  have hs := h.enqueue_inputSlots hlt job
  refine ⟨h.capacity_pos, ?_, h.shift_nonneg, h.shift_lt, ?_, ?_, ?_⟩
  · simpa [OptimizingCompileDispatcher.enqueue] using h.size
  · have := h.length_nonneg
    simp only [OptimizingCompileDispatcher.enqueue]; omega
  · simp only [OptimizingCompileDispatcher.enqueue]; omega
  · rw [h.enqueue_inputJobs hlt job, hs, h.slots]
    simp

theorem OptimizingCompileDispatcher.WF.dropFront_inputSlots {d : OptimizingCompileDispatcher}
    (h : d.WF) (hpos : 0 < d.input_queue_length_) :
    d.inputSlots = d.at (d.InputQueueIndex 0) :: d.dropFront.inputSlots := by
  have hc := h.capacity_pos
  have hs := h.shift_nonneg
  have hs1 : 0 ≤ d.InputQueueIndex 1 := by
    unfold OptimizingCompileDispatcher.InputQueueIndex
    exact Int.tmod_nonneg _ (by omega)
  rw [d.inputSlots_eq (by omega) hs,
      OptimizingCompileDispatcher.inputSlots_eq _ (by simpa [dropFront] using (by omega))
        (by simpa [dropFront] using hs1)]
  have e1 : d.input_queue_length_.toNat = (d.input_queue_length_ - 1).toNat + 1 := by omega
  have e2 : (d.InputQueueIndex 1).toNat
      = (1 + d.input_queue_shift_.toNat) % d.input_queue_capacity_.toNat :=
    d.index_toNat (by omega) hs 1
  have e3 : (d.InputQueueIndex 0).toNat
      = (0 + d.input_queue_shift_.toNat) % d.input_queue_capacity_.toNat :=
    d.index_toNat (by omega) hs 0
  simp only [dropFront, e2, OptimizingCompileDispatcher.at, e3]
  rw [e1]
  exact ring_pop d.input_queue_ _ _ _

theorem OptimizingCompileDispatcher.WF.front {d : OptimizingCompileDispatcher}
    (h : d.WF) (hpos : 0 < d.input_queue_length_) :
    ∃ job, d.at (d.InputQueueIndex 0) = some job ∧ d.dropFront.inputSlots = d.dropFront.inputJobs.map some
      ∧ d.inputJobs = job :: d.dropFront.inputJobs := by
  have e := h.dropFront_inputSlots hpos
  have hsl := h.slots
  rw [e] at hsl
  cases hj : d.inputJobs with
  | nil => rw [hj] at hsl; simp at hsl
  | cons job rest =>
    rw [hj, List.map_cons, List.cons.injEq] at hsl
    have hrest : d.dropFront.inputJobs = rest := by
      unfold OptimizingCompileDispatcher.inputJobs
      rw [hsl.2]
      exact reduceOption_map_some rest
    refine ⟨job, hsl.1, ?_, ?_⟩
    · rw [hrest]; exact hsl.2
    · rw [hrest]

theorem OptimizingCompileDispatcher.WF.dropFront {d : OptimizingCompileDispatcher}
    (h : d.WF) (hpos : 0 < d.input_queue_length_) : d.dropFront.WF := by
  obtain ⟨job, _, hsl, _⟩ := h.front hpos
  have hc := h.capacity_pos
  have hs := h.shift_nonneg
  have hl := h.length_le
  refine ⟨hc, h.size, ?_, ?_, ?_, ?_, hsl⟩
  · unfold OptimizingCompileDispatcher.dropFront OptimizingCompileDispatcher.InputQueueIndex
    exact Int.tmod_nonneg _ (by omega)
  · unfold OptimizingCompileDispatcher.dropFront OptimizingCompileDispatcher.InputQueueIndex
    simp only
    rw [Int.tmod_eq_emod (by omega) (by omega)]
    exact Int.emod_lt_of_pos _ (by omega)
  · simp only [OptimizingCompileDispatcher.dropFront]; omega
  · simp only [OptimizingCompileDispatcher.dropFront]; omega

theorem OptimizingCompileDispatcher.WF.inputJobs_length {d : OptimizingCompileDispatcher}
    (h : d.WF) : (d.inputJobs.length : Int) = d.input_queue_length_ := by
  have e : d.inputJobs.length = d.inputSlots.length := by rw [h.slots, List.length_map]
  have hl := h.length_nonneg
  rw [e]
  simp only [OptimizingCompileDispatcher.inputSlots, List.length_map, List.length_range]
  omega

theorem OptimizingCompileDispatcher.inputSlots_congr {d1 d2 : OptimizingCompileDispatcher}
    (h1 : d2.input_queue_ = d1.input_queue_)
    (h2 : d2.input_queue_capacity_ = d1.input_queue_capacity_)
    (h3 : d2.input_queue_length_ = d1.input_queue_length_)
    (h4 : d2.input_queue_shift_ = d1.input_queue_shift_) :
    d2.inputSlots = d1.inputSlots := by
  unfold OptimizingCompileDispatcher.inputSlots OptimizingCompileDispatcher.at
    OptimizingCompileDispatcher.InputQueueIndex
  rw [h1, h2, h3, h4]

theorem OptimizingCompileDispatcher.inputJobs_congr {d1 d2 : OptimizingCompileDispatcher}
    (h1 : d2.input_queue_ = d1.input_queue_)
    (h2 : d2.input_queue_capacity_ = d1.input_queue_capacity_)
    (h3 : d2.input_queue_length_ = d1.input_queue_length_)
    (h4 : d2.input_queue_shift_ = d1.input_queue_shift_) :
    d2.inputJobs = d1.inputJobs := by
  unfold OptimizingCompileDispatcher.inputJobs
  rw [OptimizingCompileDispatcher.inputSlots_congr h1 h2 h3 h4]

theorem OptimizingCompileDispatcher.WF.congr {d1 d2 : OptimizingCompileDispatcher}
    (h : d1.WF)
    (h1 : d2.input_queue_ = d1.input_queue_)
    (h2 : d2.input_queue_capacity_ = d1.input_queue_capacity_)
    (h3 : d2.input_queue_length_ = d1.input_queue_length_)
    (h4 : d2.input_queue_shift_ = d1.input_queue_shift_) : d2.WF := by
  refine ⟨?_, ?_, ?_, ?_, ?_, ?_, ?_⟩
  · rw [h2]; exact h.capacity_pos
  · rw [h1, h2]; exact h.size
  · rw [h4]; exact h.shift_nonneg
  · rw [h4, h2]; exact h.shift_lt
  · rw [h3]; exact h.length_nonneg
  · rw [h3, h2]; exact h.length_le
  · rw [OptimizingCompileDispatcher.inputSlots_congr h1 h2 h3 h4,
      OptimizingCompileDispatcher.inputJobs_congr h1 h2 h3 h4]
    exact h.slots

theorem OptimizingCompileDispatcher.create_WF (capacity : Int) (hcap : 1 ≤ capacity) :
    (OptimizingCompileDispatcher.create capacity).WF := by
  refine ⟨hcap, ?_, ?_, ?_, ?_, ?_, ?_⟩ <;>
    simp [OptimizingCompileDispatcher.create, OptimizingCompileDispatcher.inputSlots,
      OptimizingCompileDispatcher.inputJobs] <;> omega

theorem OptimizingCompileDispatcher.create_inputJobs (capacity : Int) :
    (OptimizingCompileDispatcher.create capacity).inputJobs = [] := by
  simp [OptimizingCompileDispatcher.create, OptimizingCompileDispatcher.inputSlots,
    OptimizingCompileDispatcher.inputJobs]

theorem OptimizingCompileDispatcher.WF.QueueForOptimization {d : OptimizingCompileDispatcher}
    (h : d.WF) (hlt : d.input_queue_length_ < d.input_queue_capacity_)
    (job : OptimizedCompilationJob) :
    (d.QueueForOptimization job).WF ∧ (d.QueueForOptimization job).inputJobs = d.inputJobs ++ [job] :=
  ⟨(h.enqueue hlt job).congr rfl rfl rfl rfl,
   (OptimizingCompileDispatcher.inputJobs_congr rfl rfl rfl rfl).trans (h.enqueue_inputJobs hlt job)⟩

theorem OptimizingCompileDispatcher.WF.inputJobs_nil {d : OptimizingCompileDispatcher}
    (h : d.WF) (h0 : d.input_queue_length_ = 0) : d.inputJobs = [] := by
  have := h.inputJobs_length
  rw [h0] at this
  exact List.length_eq_zero.mp (by exact_mod_cast this)

theorem OptimizingCompileDispatcher.WF.NextInput {d : OptimizingCompileDispatcher} (h : d.WF) :
    d.NextInput.2.WF ∧ d.inputJobs = d.NextInput.1.toList ++ d.NextInput.2.inputJobs := by
  unfold OptimizingCompileDispatcher.NextInput
  by_cases h0 : d.input_queue_length_ = 0
  · rw [if_pos h0]
    exact ⟨h, by simp⟩
  · rw [if_neg h0]
    have hpos : 0 < d.input_queue_length_ := by have := h.length_nonneg; omega
    obtain ⟨job, hj, _, hjobs⟩ := h.front hpos
    exact ⟨h.dropFront hpos, by simp [hj, hjobs]⟩

theorem QueueLog.call_inv {r r1 : QueueLog} {c : QueueCall} (hc : r.call c = some r1)
    (h : r.d.WF ∧ r.submitted = r.returned ++ r.d.inputJobs) :
    r1.d.WF ∧ r1.submitted = r1.returned ++ r1.d.inputJobs := by
  obtain ⟨hwf, hsub⟩ := h
  cases c with
  | QueueForOptimization job =>
    simp only [QueueLog.call] at hc
    split at hc
    · rename_i hav
      have hlt : r.d.input_queue_length_ < r.d.input_queue_capacity_ := by
        simpa [OptimizingCompileDispatcher.IsQueueAvailable] using hav
      obtain ⟨h1, h2⟩ := hwf.QueueForOptimization hlt job
      cases hc
      exact ⟨h1, by simp [h2, hsub]⟩
    · cases hc
  | NextInput =>
    simp only [QueueLog.call, Option.some.injEq] at hc
    obtain ⟨h1, h2⟩ := hwf.NextInput
    subst hc
    exact ⟨h1, by simp [hsub, h2]⟩

theorem QueueLog.calls_inv (cs : List QueueCall) :
    ∀ {r r1 : QueueLog}, r.calls cs = some r1 →
      (r.d.WF ∧ r.submitted = r.returned ++ r.d.inputJobs) →
      r1.d.WF ∧ r1.submitted = r1.returned ++ r1.d.inputJobs := by
  induction cs with
  | nil =>
    intro r r1 hc h
    simp only [QueueLog.calls, Option.some.injEq] at hc
    subst hc
    exact h
  | cons c cs ih =>
    intro r r1 hc h
    simp only [QueueLog.calls] at hc
    cases hcall : r.call c with
    | none => rw [hcall] at hc; cases hc
    | some r2 =>
      rw [hcall] at hc
      exact ih hc (QueueLog.call_inv hcall h)

/-! ## Disposal -/

theorem DisposeCompilationJob_d (job : OptimizedCompilationJob) (r : Bool) (w : World) :
    (DisposeCompilationJob job r w).d = w.d := rfl

theorem DisposeCompilationJob_trace (job : OptimizedCompilationJob) (r : Bool) (w : World) :
    (DisposeCompilationJob job r w).trace = w.trace ++ [Event.Dispose job r] := rfl

theorem DisposeCompilationJob_heap_false (job : OptimizedCompilationJob) (w : World) :
    (DisposeCompilationJob job false w).heap = w.heap := rfl

theorem disposeAll_d (r : Bool) (jobs : List OptimizedCompilationJob) :
    ∀ w : World, (disposeAll r jobs w).d = w.d := by
  induction jobs with
  | nil => intro w; rfl
  | cons job jobs ih => intro w; rw [disposeAll, ih, DisposeCompilationJob_d]

theorem disposeAll_trace (r : Bool) (jobs : List OptimizedCompilationJob) :
    ∀ w : World, (disposeAll r jobs w).trace = w.trace ++ jobs.map (fun j => Event.Dispose j r) := by
  induction jobs with
  | nil => intro w; simp [disposeAll]
  | cons job jobs ih => intro w; rw [disposeAll, ih, DisposeCompilationJob_trace]; simp

theorem disposeAll_heap_congr (r : Bool) (jobs : List OptimizedCompilationJob) :
    ∀ w1 w2 : World, w1.heap = w2.heap → (disposeAll r jobs w1).heap = (disposeAll r jobs w2).heap := by
  induction jobs with
  | nil => intro w1 w2 h; exact h
  | cons job jobs ih =>
    intro w1 w2 h
    rw [disposeAll, disposeAll]
    apply ih
    simp only [DisposeCompilationJob, h]

theorem FlushInputQueue_loop_spec : ∀ (n : Nat) (w : World), w.d.WF →
    w.d.input_queue_length_ = (n : Int) →
    ∃ w1, FlushInputQueue_loop n w = some w1 ∧ w1.d.WF ∧ w1.d.input_queue_length_ = 0
      ∧ w1.d.output_queue_ = w.d.output_queue_ ∧ w1.d.ref_count_ = w.d.ref_count_
      ∧ w1.d.input_queue_capacity_ = w.d.input_queue_capacity_
      ∧ w1.heap = (disposeAll true w.d.inputJobs w).heap
      ∧ w1.trace = w.trace ++ w.d.inputJobs.map (fun j => Event.Dispose j true) := by
  intro n
  induction n with
  | zero =>
    intro w hwf hlen
    have hnil := hwf.inputJobs_nil (by simpa using hlen)
    have h0 : w.d.input_queue_length_ = 0 := by simpa using hlen
    exact ⟨w, by simp [FlushInputQueue_loop, h0], hwf, h0, rfl, rfl, rfl,
      by simp [hnil, disposeAll], by simp [hnil]⟩
  | succ n ih =>
    intro w hwf hlen
    have hpos : 0 < w.d.input_queue_length_ := by omega
    obtain ⟨job, hj, _, hjobs⟩ := hwf.front hpos
    have hlen2 : w.d.dropFront.input_queue_length_ = (n : Int) := by
      simp only [OptimizingCompileDispatcher.dropFront]; omega
    obtain ⟨w1, h1, h2, h3, h4, h5, h6, h7, h8⟩ :=
      ih (DisposeCompilationJob job true { w with d := w.d.dropFront }) (hwf.dropFront hpos) hlen2
    refine ⟨w1, ?_, h2, h3, h4, h5, h6, ?_, ?_⟩
    · simp only [FlushInputQueue_loop, gt_iff_lt, hpos, if_true, hj]
      exact h1
    · rw [h7, hjobs, disposeAll, DisposeCompilationJob_d]
      apply disposeAll_heap_congr
      rfl
    · rw [h8, hjobs, DisposeCompilationJob_trace, DisposeCompilationJob_d]
      simp

theorem FlushInputQueue_spec (w : World) (hwf : w.d.WF) :
    ∃ w1, FlushInputQueue w = some w1 ∧ w1.d.WF ∧ w1.d.input_queue_length_ = 0
      ∧ w1.d.output_queue_ = w.d.output_queue_ ∧ w1.d.ref_count_ = w.d.ref_count_
      ∧ w1.d.input_queue_capacity_ = w.d.input_queue_capacity_
      ∧ w1.heap = (disposeAll true w.d.inputJobs w).heap
      ∧ w1.trace = w.trace ++ w.d.inputJobs.map (fun j => Event.Dispose j true) :=
  FlushInputQueue_loop_spec _ w hwf (by have := hwf.length_nonneg; omega)

/-! ## Tasks and traces -/

theorem executingJobs_append (l1 l2 : List TaskPc) :
    executingJobs (l1 ++ l2) = executingJobs l1 ++ executingJobs l2 := by
  induction l1 with
  | nil => rfl
  | cons t l1 ih => cases t <;> simp [executingJobs, ih]

theorem disposedJobs_append (l1 l2 : List Event) :
    disposedJobs (l1 ++ l2) = disposedJobs l1 ++ disposedJobs l2 := by
  induction l1 with
  | nil => rfl
  | cons e l1 ih => cases e <;> simp [disposedJobs, ih]

theorem finalizedJobs_append (l1 l2 : List Event) :
    finalizedJobs (l1 ++ l2) = finalizedJobs l1 ++ finalizedJobs l2 := by
  induction l1 with
  | nil => rfl
  | cons e l1 ih => cases e <;> simp [finalizedJobs, ih]

theorem disposedJobs_map_Dispose (r : Bool) (jobs : List OptimizedCompilationJob) :
    disposedJobs (jobs.map (fun j => Event.Dispose j r)) = jobs := by
  induction jobs with
  | nil => rfl
  | cons j jobs ih => simp [disposedJobs, ih]

theorem finalizedJobs_map_Dispose (r : Bool) (jobs : List OptimizedCompilationJob) :
    finalizedJobs (jobs.map (fun j => Event.Dispose j r)) = [] := by
  induction jobs with
  | nil => rfl
  | cons j jobs ih => simp [finalizedJobs, ih]

theorem tasks_split : ∀ {ts : List TaskPc} {i : Nat} {t : TaskPc}, ts.get? i = some t →
    ∃ l1 l2, ts = l1 ++ t :: l2 ∧ (∀ t1, ts.set i t1 = l1 ++ t1 :: l2)
      ∧ ts.eraseIdx i = l1 ++ l2 := by
  intro ts
  induction ts with
  | nil => intro i t h; simp at h
  | cons a ts ih =>
    intro i t h
    cases i with
    | zero =>
      simp only [List.get?_cons_zero, Option.some.injEq] at h
      subst h
      exact ⟨[], ts, rfl, fun _ => rfl, rfl⟩
    | succ i =>
      simp only [List.get?_cons_succ] at h
      obtain ⟨l1, l2, h1, h2, h3⟩ := ih h
      refine ⟨a :: l1, l2, by rw [h1]; rfl, fun t1 => ?_, ?_⟩
      · rw [List.set_cons_succ, h2 t1]; rfl
      · rw [List.eraseIdx_cons_succ, h3]; rfl

/-! ## The invariant is kept by every step -/

theorem OptimizingCompileDispatcher.NextInput_other (d : OptimizingCompileDispatcher) :
    d.NextInput.2.ref_count_ = d.ref_count_ ∧ d.NextInput.2.output_queue_ = d.output_queue_
      ∧ d.NextInput.2.input_queue_capacity_ = d.input_queue_capacity_ := by
  unfold OptimizingCompileDispatcher.NextInput
  split <;> exact ⟨rfl, rfl, rfl⟩

theorem OptimizingCompileDispatcher.NextInput_empty (d : OptimizingCompileDispatcher)
    (h : d.input_queue_length_ = 0) : d.NextInput = (none, d) := by
  unfold OptimizingCompileDispatcher.NextInput
  rw [if_pos h]

theorem System.Inv.create (capacity : Int) (hcap : 1 ≤ capacity) (heap : Heap) :
    (System.create capacity heap).Inv := by
  refine ⟨OptimizingCompileDispatcher.create_WF capacity hcap, rfl, ?_, ?_⟩
  · simp [System.create, System.heldJobs, OptimizingCompileDispatcher.create_inputJobs,
      executingJobs, disposedJobs, finalizedJobs]
    rfl
  · intro r h
    rfl

theorem System.Inv.FlushQueues {s s1 : System} (hi : s.Inv) (b : BlockingBehavior) (r : Bool)
    (h : s.FlushQueues b r = some s1) : s1.Inv := by
  obtain ⟨w1, h1, h2, h3, h4, h5, h6, h7, h8⟩ := FlushInputQueue_spec s.world hi.wf
  simp only [System.FlushQueues, h1, Option.some.injEq] at h
  subst h
  refine ⟨h2, ?_, ?_, ?_⟩
  · simp only [h5]; exact hi.ref_count
  · have hc := hi.conservation
    have hnil := h2.inputJobs_nil h3
    simp only [System.heldJobs, hnil, h4, h8, disposedJobs_append, finalizedJobs_append,
      disposedJobs_map_Dispose, finalizedJobs_map_Dispose] at hc ⊢
    rw [List.perm_iff_count] at hc ⊢
    intro j
    have := hc j
    simp only [List.count_append, List.count_nil] at this ⊢
    omega
  · intro _ _
    exact h3

theorem FlushOutputQueue_iter_none {r : Bool} {w : World}
    (h : FlushOutputQueue_iter r w = none) : w.d.output_queue_ = [] := by
  unfold FlushOutputQueue_iter at h
  split at h
  · assumption
  · cases h

theorem FlushOutputQueue_iter_some {r : Bool} {w w1 : World}
    (h : FlushOutputQueue_iter r w = some w1) :
    ∃ job, w.d.output_queue_ = job :: w1.d.output_queue_
      ∧ w1.d.input_queue_ = w.d.input_queue_
      ∧ w1.d.input_queue_capacity_ = w.d.input_queue_capacity_
      ∧ w1.d.input_queue_length_ = w.d.input_queue_length_
      ∧ w1.d.input_queue_shift_ = w.d.input_queue_shift_
      ∧ w1.d.ref_count_ = w.d.ref_count_
      ∧ w1.trace = w.trace ++ [Event.Dispose job r]
      ∧ w1.heap = (DisposeCompilationJob job r w).heap := by
  unfold FlushOutputQueue_iter at h
  split at h
  · cases h
  · rename_i job rest hq
    simp only [Option.some.injEq] at h
    subst h
    exact ⟨job, hq, rfl, rfl, rfl, rfl, rfl, rfl, rfl⟩

theorem InstallOptimizedFunctions_iter_none {X : Collaborators} {w : World}
    (h : InstallOptimizedFunctions_iter X w = none) : w.d.output_queue_ = [] := by
  unfold InstallOptimizedFunctions_iter at h
  split at h
  · assumption
  · simp only at h
    split at h <;> cases h

theorem InstallOptimizedFunctions_iter_some {X : Collaborators} {w w1 : World}
    (h : InstallOptimizedFunctions_iter X w = some w1) :
    ∃ job, w.d.output_queue_ = job :: w1.d.output_queue_
      ∧ w1.d.input_queue_ = w.d.input_queue_
      ∧ w1.d.input_queue_capacity_ = w.d.input_queue_capacity_
      ∧ w1.d.input_queue_length_ = w.d.input_queue_length_
      ∧ w1.d.input_queue_shift_ = w.d.input_queue_shift_
      ∧ w1.d.ref_count_ = w.d.ref_count_
      ∧ (((X.HasAvailableCodeKind w.heap job.compilation_info.closure
              job.compilation_info.code_kind && !job.compilation_info.is_osr) = true
            ∧ w1.trace = w.trace ++ [Event.Dispose job false] ∧ w1.heap = w.heap)
          ∨ ((X.HasAvailableCodeKind w.heap job.compilation_info.closure
              job.compilation_info.code_kind && !job.compilation_info.is_osr) = false
            ∧ w1.trace = w.trace ++ [Event.Finalize job]
            ∧ w1.heap = X.FinalizeOptimizedCompilationJob job w.heap)) := by
  unfold InstallOptimizedFunctions_iter at h
  split at h
  · cases h
  · rename_i job rest hq
    simp only at h
    split at h
    · rename_i hst
      simp only [Option.some.injEq] at h
      subst h
      exact ⟨job, hq, rfl, rfl, rfl, rfl, rfl, Or.inl ⟨hst, rfl, rfl⟩⟩
    · rename_i hst
      simp only [Option.some.injEq] at h
      subst h
      exact ⟨job, hq, rfl, rfl, rfl, rfl, rfl,
        Or.inr ⟨by simpa using hst, rfl, rfl⟩⟩

theorem System.Inv.inv_ownerStep (X : Collaborators) {s s1 : System} (hi : s.Inv)
    (h : s.ownerStep X = some s1) : s1.Inv := by
  unfold System.ownerStep at h
  split at h
  · cases h
  · rename_i r hr
    split at h
    · cases h
    · simp only [Option.some.injEq] at h
      subst h
      exact ⟨hi.wf, hi.ref_count, hi.conservation, fun _ _ => hi.flushed r (Or.inl hr)⟩
  · rename_i r hr
    cases hw : FlushOutputQueue_iter r s.world with
    | none =>
      simp only [hw, Option.some.injEq] at h
      subst h
      refine ⟨hi.wf, hi.ref_count, hi.conservation, ?_⟩
      intro r1 h1
      simp at h1
    | some w =>
      simp only [hw, Option.some.injEq] at h
      subst h
      obtain ⟨job, h1, h2, h3, h4, h5, h6, h7, _⟩ := FlushOutputQueue_iter_some hw
      refine ⟨hi.wf.congr h2 h3 h4 h5, h6.trans hi.ref_count, ?_, ?_⟩
      · have hc := hi.conservation
        simp only [System.heldJobs, h1, h7, disposedJobs_append, finalizedJobs_append,
          OptimizingCompileDispatcher.inputJobs_congr h2 h3 h4 h5] at hc ⊢
        rw [List.perm_iff_count] at hc ⊢
        intro j
        have := hc j
        simp only [List.count_append, List.count_cons, List.count_nil, disposedJobs,
          finalizedJobs] at this ⊢
        omega
      · intro r1 _
        exact h4.trans (hi.flushed r (Or.inr hr))
  · rename_i hr
    cases hw : InstallOptimizedFunctions_iter X s.world with
    | none =>
      simp only [hw, Option.some.injEq] at h
      subst h
      refine ⟨hi.wf, hi.ref_count, hi.conservation, ?_⟩
      intro r1 h1
      simp at h1
    | some w =>
      simp only [hw, Option.some.injEq] at h
      subst h
      obtain ⟨job, h1, h2, h3, h4, h5, h6, h7⟩ := InstallOptimizedFunctions_iter_some hw
      refine ⟨hi.wf.congr h2 h3 h4 h5, h6.trans hi.ref_count, ?_, ?_⟩
      · have hc := hi.conservation
        rcases h7 with ⟨_, h7, _⟩ | ⟨_, h7, _⟩ <;>
        · simp only [System.heldJobs, h1, h7, disposedJobs_append, finalizedJobs_append,
            OptimizingCompileDispatcher.inputJobs_congr h2 h3 h4 h5] at hc ⊢
          rw [List.perm_iff_count] at hc ⊢
          intro j
          have := hc j
          simp only [List.count_append, List.count_cons, List.count_nil, disposedJobs,
            finalizedJobs] at this ⊢
          omega
      · intro r1 h1
        simp only [hr] at h1
        simp at h1
  · split at h
    · cases h
    · simp only [Option.some.injEq] at h
      subst h
      refine ⟨hi.wf, hi.ref_count, hi.conservation, ?_⟩
      intro r1 h1
      simp at h1

theorem OptimizingCompileDispatcher.CompileNext_inputJobs (d : OptimizingCompileDispatcher)
    (job : Option OptimizedCompilationJob) (status : Status) :
    (d.CompileNext job status).inputJobs = d.inputJobs := by
  cases job with
  | none => rfl
  | some j => exact OptimizingCompileDispatcher.inputJobs_congr rfl rfl rfl rfl

theorem OptimizingCompileDispatcher.releaseTask_inputJobs (d : OptimizingCompileDispatcher) :
    d.releaseTask.inputJobs = d.inputJobs :=
  OptimizingCompileDispatcher.inputJobs_congr rfl rfl rfl rfl

theorem System.Inv.inv_workerStep {s s1 : System} (hi : s.Inv) (i : Nat) (status : Status)
    (h : s.workerStep i status = some s1) : s1.Inv := by
  unfold System.workerStep at h
  split at h
  · cases h
  · rename_i hget
    obtain ⟨l1, l2, e1, e2, _⟩ := tasks_split hget
    simp only [Option.some.injEq] at h
    subst h
    obtain ⟨hwf, hjobs⟩ := hi.wf.NextInput
    obtain ⟨hrc, hout, _⟩ := s.world.d.NextInput_other
    refine ⟨hwf, ?_, ?_, ?_⟩
    · simp only [hrc, List.length_set]
      exact hi.ref_count
    · have hc := hi.conservation
      simp only [System.heldJobs, hout, hjobs, e2] at hc ⊢
      rw [e1] at hc
      rw [List.perm_iff_count] at hc ⊢
      intro j
      have := hc j
      cases hn : s.world.d.NextInput.1 <;>
      · simp only [hn, executingJobs_append, executingJobs, List.count_append, List.count_cons,
          List.count_nil, Option.toList] at this ⊢
        omega
    · intro r hr
      have h0 := hi.flushed r hr
      simp only [s.world.d.NextInput_empty h0]
      exact h0
  · rename_i job hget
    obtain ⟨l1, l2, e1, e2, _⟩ := tasks_split hget
    simp only [Option.some.injEq] at h
    subst h
    refine ⟨hi.wf.congr rfl rfl rfl rfl, ?_, ?_, ?_⟩
    · simp only [List.length_set]
      exact hi.ref_count
    · have hc := hi.conservation
      simp only [System.heldJobs, e2,
        OptimizingCompileDispatcher.CompileNext_inputJobs] at hc ⊢
      rw [e1] at hc
      rw [List.perm_iff_count] at hc ⊢
      intro j
      have := hc j
      simp only [executingJobs_append, executingJobs, List.count_append, List.count_cons,
        List.count_nil, OptimizingCompileDispatcher.CompileNext] at this ⊢
      omega
    · intro r hr
      exact hi.flushed r hr
  · rename_i hget
    obtain ⟨l1, l2, e1, _, e3⟩ := tasks_split hget
    simp only [Option.some.injEq] at h
    subst h
    refine ⟨hi.wf.congr rfl rfl rfl rfl, ?_, ?_, ?_⟩
    · have := hi.ref_count
      rw [e1] at this
      simp only [OptimizingCompileDispatcher.releaseTask, e3, List.length_append] at this ⊢
      simp only [List.length_append, List.length_cons] at this
      omega
    · have hc := hi.conservation
      simp only [System.heldJobs, e3,
        OptimizingCompileDispatcher.releaseTask_inputJobs] at hc ⊢
      rw [e1] at hc
      simpa [executingJobs_append, executingJobs, OptimizingCompileDispatcher.releaseTask]
        using hc
    · intro r hr
      exact hi.flushed r hr

theorem System.Inv.inv_step (X : Collaborators) {s s1 : System} {a : Action} (hi : s.Inv)
    (h : step X s a = some s1) : s1.Inv := by
  cases a with
  | QueueForOptimization job =>
    simp only [V8.step] at h
    split at h
    · rename_i hg
      simp only [Option.some.injEq] at h
      subst h
      have hlt : s.world.d.input_queue_length_ < s.world.d.input_queue_capacity_ := by
        simpa [OptimizingCompileDispatcher.IsQueueAvailable] using hg.2
      obtain ⟨h1, h2⟩ := hi.wf.QueueForOptimization hlt job
      refine ⟨h1, ?_, ?_, ?_⟩
      · have := hi.ref_count
        simp only [OptimizingCompileDispatcher.QueueForOptimization,
          OptimizingCompileDispatcher.enqueue, List.length_append, List.length_singleton]
        push_cast
        omega
      · have hc := hi.conservation
        simp only [System.heldJobs, h2, executingJobs_append, executingJobs] at hc ⊢
        rw [List.perm_iff_count] at hc ⊢
        intro j
        have := hc j
        simp only [OptimizingCompileDispatcher.QueueForOptimization,
          OptimizingCompileDispatcher.enqueue, List.count_append, List.count_cons,
          List.count_nil] at this ⊢
        omega
      · intro r hr
        rw [hg.1] at hr
        simp at hr
    · cases h
  | Flush b =>
    simp only [V8.step] at h
    split at h
    · exact hi.FlushQueues b true h
    · cases h
  | Stop =>
    simp only [V8.step] at h
    split at h
    · exact hi.FlushQueues _ false h
    · cases h
  | InstallOptimizedFunctions =>
    simp only [V8.step] at h
    split at h
    · simp only [Option.some.injEq] at h
      subst h
      exact ⟨hi.wf, hi.ref_count, hi.conservation, fun r hr => by simp at hr⟩
    · cases h
  | AwaitCompileTasks =>
    simp only [V8.step] at h
    split at h
    · simp only [Option.some.injEq] at h
      subst h
      exact ⟨hi.wf, hi.ref_count, hi.conservation, fun r hr => by simp at hr⟩
    · cases h
  | owner => exact hi.inv_ownerStep X h
  | worker i status => exact hi.inv_workerStep i status h

theorem System.Inv.inv_run (X : Collaborators) (as : List Action) :
    ∀ {s s1 : System}, s.Inv → run X s as = some s1 → s1.Inv := by
  induction as with
  | nil =>
    intro s s1 hi h
    simp only [V8.run, Option.some.injEq] at h
    subst h
    exact hi
  | cons a as ih =>
    intro s s1 hi h
    simp only [V8.run] at h
    cases hs : V8.step X s a with
    | none => rw [hs] at h; cases h
    | some s2 =>
      rw [hs] at h
      exact ih (hi.inv_step X hs) h

theorem Reachable.inv {X : Collaborators} {s : System} (h : Reachable X s) : s.Inv := by
  obtain ⟨capacity, heap, as, hcap, hrun⟩ := h
  exact System.Inv.inv_run X as (System.Inv.create capacity hcap heap) hrun

/-! ## C1 -/

/-- C1: the input queue is strict FIFO.  For every capacity `>= 1` and every
sequence of `QueueForOptimization` calls (each made while the queue is
available) and `NextInput` calls on a new dispatcher, the non-null jobs the
`NextInput` calls returned are, in order, an initial segment of the jobs
submitted, and the rest of the submitted jobs is the input queue, in order. -/
theorem input_queue_is_fifo (capacity : Int) (hcap : 1 ≤ capacity) (cs : List QueueCall)
    (r : QueueLog) (hr : (QueueLog.create capacity).calls cs = some r) :
    r.returned <+: r.submitted ∧ r.submitted = r.returned ++ r.d.inputJobs := by
  have h := QueueLog.calls_inv cs hr
    ⟨OptimizingCompileDispatcher.create_WF capacity hcap, by
      simp [QueueLog.create, OptimizingCompileDispatcher.create_inputJobs]⟩
  exact ⟨⟨r.d.inputJobs, h.2.symm⟩, h.2⟩

/-- C1, at a schedule in which the index wraps around. -/
theorem input_queue_is_fifo_witness :
    (QueueLog.create 2).calls fifoCalls = some fifoLog ∧
      fifoLog.returned <+: fifoLog.submitted ∧
      fifoLog.submitted = fifoLog.returned ++ fifoLog.d.inputJobs :=
  ⟨by decide, input_queue_is_fifo 2 (by decide) fifoCalls fifoLog (by decide)⟩

theorem reachable_after (X : Collaborators) (capacity : Int) (heap : Heap) (as : List Action)
    (hcap : 1 ≤ capacity) (s : System) (h : run X (System.create capacity heap) as = some s) :
    Reachable X (System.after X capacity heap as) := by
  refine ⟨capacity, heap, as, hcap, ?_⟩
  rw [System.after, h]
  rfl

/-! ## C2 -/

/-- C2: capacity invariant.  In every state a system of capacity `>= 1` reaches
by any schedule of `QueueForOptimization` (enabled only while the queue is
available), task steps, `Flush`, `Stop`, `InstallOptimizedFunctions` and
`AwaitCompileTasks`, `0 <= input_queue_length_ <= input_queue_capacity_`. -/
theorem capacity_invariant (X : Collaborators) (s : System) (h : Reachable X s) :
    0 ≤ s.world.d.input_queue_length_
      ∧ s.world.d.input_queue_length_ ≤ s.world.d.input_queue_capacity_ :=
  ⟨h.inv.wf.length_nonneg, h.inv.wf.length_le⟩

/-- C2, at the state `schedule2` reaches, where the queue is full. -/
theorem capacity_invariant_witness :
    Reachable X0 (System.after X0 2 heap0 schedule2)
      ∧ (System.after X0 2 heap0 schedule2).world.d.input_queue_length_ = 2
      ∧ 0 ≤ (System.after X0 2 heap0 schedule2).world.d.input_queue_length_
      ∧ (System.after X0 2 heap0 schedule2).world.d.input_queue_length_
          ≤ (System.after X0 2 heap0 schedule2).world.d.input_queue_capacity_ :=
  ⟨reachable_after X0 2 heap0 schedule2 (by decide) _ rfl, by decide,
   capacity_invariant X0 _ (reachable_after X0 2 heap0 schedule2 (by decide) _ rfl)⟩

/-! ## C7 -/

/-- C7: in every reachable state `HasJobs` answers true if and only if
`ref_count_ > 0` or the output queue is not empty, and it leaves the
dispatcher (its `ref_count_` and both queues) as it was. -/
theorem HasJobs_iff (X : Collaborators) (s : System) (h : Reachable X s) :
    (s.world.d.HasJobs.1 = true
        ↔ (s.world.d.ref_count_ > 0 ∨ s.world.d.output_queue_ ≠ []))
      ∧ s.world.d.HasJobs.2 = s.world.d := by
  have hrc := h.inv.ref_count
  refine ⟨?_, rfl⟩
  simp only [OptimizingCompileDispatcher.HasJobs, Bool.or_eq_true, bne_iff_ne, ne_eq,
    Bool.not_eq_true', List.isEmpty_eq_false, gt_iff_lt]
  constructor
  · rintro (h1 | h1)
    · left; omega
    · right; simpa using h1
  · rintro (h1 | h1)
    · left; omega
    · right; simpa using h1

/-- C7, at a state in which a task is outstanding and the output queue holds
two jobs. -/
theorem HasJobs_iff_witness :
    Reachable X0 (System.after X0 2 heap0 schedule1)
      ∧ (System.after X0 2 heap0 schedule1).world.d.HasJobs.1 = true
      ∧ (((System.after X0 2 heap0 schedule1).world.d.HasJobs.1 = true
            ↔ ((System.after X0 2 heap0 schedule1).world.d.ref_count_ > 0
                ∨ (System.after X0 2 heap0 schedule1).world.d.output_queue_ ≠ []))
          ∧ (System.after X0 2 heap0 schedule1).world.d.HasJobs.2
              = (System.after X0 2 heap0 schedule1).world.d) :=
  ⟨reachable_after X0 2 heap0 schedule1 (by decide) _ rfl, by decide,
   HasJobs_iff X0 _ (reachable_after X0 2 heap0 schedule1 (by decide) _ rfl)⟩

/-! ## C10 -/

/-- C10: ownership exclusivity.  When no job was passed to
`QueueForOptimization` twice, then in every reachable state the jobs of the
input queue, the jobs the tasks are executing and the jobs of the output queue
are all distinct: no job occurs twice within one of the three, and no job is in
two of them. -/
theorem ownership_exclusive (X : Collaborators) (s : System) (h : Reachable X s)
    (hn : s.submitted.Nodup) :
    (s.world.d.inputJobs ++ executingJobs s.tasks ++ s.world.d.output_queue_).Nodup
      ∧ s.world.d.inputJobs.Nodup ∧ (executingJobs s.tasks).Nodup
      ∧ s.world.d.output_queue_.Nodup
      ∧ List.Disjoint s.world.d.inputJobs (executingJobs s.tasks)
      ∧ List.Disjoint s.world.d.inputJobs s.world.d.output_queue_
      ∧ List.Disjoint (executingJobs s.tasks) s.world.d.output_queue_ := by
  have hc := h.inv.conservation
  have hnd : (s.heldJobs ++ disposedJobs s.world.trace ++ finalizedJobs s.world.trace).Nodup :=
    hc.nodup_iff.mpr hn
  have h1 : s.heldJobs.Nodup := (List.nodup_append.mp (List.nodup_append.mp hnd).1).1
  refine ⟨h1, ?_⟩
  unfold System.heldJobs at h1
  rw [List.nodup_append] at h1
  obtain ⟨h2, h3, h4⟩ := h1
  rw [List.nodup_append] at h2
  obtain ⟨h5, h6, h7⟩ := h2
  refine ⟨h5, h6, h3, h7, ?_, ?_⟩
  · intro a ha
    exact h4 (List.mem_append_left _ ha)
  · intro a ha
    exact h4 (List.mem_append_right _ ha)

/-- C10, at a state with a job in each of the three places. -/
theorem ownership_exclusive_witness :
    Reachable X0 (System.after X0 2 heap0 schedule2)
      ∧ (System.after X0 2 heap0 schedule2).submitted.Nodup
      ∧ (System.after X0 2 heap0 schedule2).world.d.inputJobs = [job3, job4]
      ∧ executingJobs (System.after X0 2 heap0 schedule2).tasks = [job1]
      ∧ (System.after X0 2 heap0 schedule2).world.d.output_queue_ = [job2]
      ∧ ((System.after X0 2 heap0 schedule2).world.d.inputJobs
          ++ executingJobs (System.after X0 2 heap0 schedule2).tasks
          ++ (System.after X0 2 heap0 schedule2).world.d.output_queue_).Nodup :=
  ⟨reachable_after X0 2 heap0 schedule2 (by decide) _ rfl, by decide, by decide, by decide,
   by decide,
   (ownership_exclusive X0 _ (reachable_after X0 2 heap0 schedule2 (by decide) _ rfl)
     (by decide)).1⟩

/-! ## C4 and C5 -/

/-- C4: staleness drop.  When `InstallOptimizedFunctions` pops a job whose
target has available code of the kind of the job and which is not an OSR job,
it disposes of the job with `restore_function_code = false`: the job is not
handed to finalize, and the heap (so the code, the optimization marker and the
OSR-pending flag of the target) is left as it was. -/
theorem stale_job_is_dropped (X : Collaborators) (s : System) (job : OptimizedCompilationJob)
    (rest : List OptimizedCompilationJob)
    (howner : s.owner = OwnerPc.InstallOptimizedFunctions)
    (hq : s.world.d.output_queue_ = job :: rest)
    (hcode : X.HasAvailableCodeKind s.world.heap job.compilation_info.closure
      job.compilation_info.code_kind = true)
    (hosr : job.compilation_info.is_osr = false) :
    ∃ s1, step X s Action.owner = some s1
      ∧ s1.world.d.output_queue_ = rest
      ∧ s1.world.trace = s.world.trace ++ [Event.Dispose job false]
      ∧ finalizedJobs s1.world.trace = finalizedJobs s.world.trace
      ∧ s1.world.heap = s.world.heap
      ∧ (s1.world.heap.functions job.compilation_info.closure).code
          = (s.world.heap.functions job.compilation_info.closure).code
      ∧ (s1.world.heap.functions job.compilation_info.closure).optimization_marker
          = (s.world.heap.functions job.compilation_info.closure).optimization_marker
      ∧ (s1.world.heap.shareds
            (s1.world.heap.functions job.compilation_info.closure).shared).osr_is_in_optimization_queue
          = (s.world.heap.shareds
            (s.world.heap.functions job.compilation_info.closure).shared).osr_is_in_optimization_queue := by
  have hst : (X.HasAvailableCodeKind s.world.heap job.compilation_info.closure
      job.compilation_info.code_kind && !job.compilation_info.is_osr) = true := by
    rw [hcode, hosr]; rfl
  have hiter : InstallOptimizedFunctions_iter X s.world
      = some (DisposeCompilationJob job false
          { s.world with d := { s.world.d with output_queue_ := rest } }) := by
    unfold InstallOptimizedFunctions_iter
    rw [hq]
    simp only [hst, if_true]
  refine ⟨{ s with
      world := (DisposeCompilationJob job false
        { s.world with d := { s.world.d with output_queue_ := rest } }) },
    ?_, rfl, rfl, ?_, rfl, rfl, rfl, rfl⟩
  · simp only [step, System.ownerStep, howner, hiter]
  · simp [DisposeCompilationJob_trace, finalizedJobs_append, finalizedJobs]

/-- C4, at `job1`, whose target (function 10) already runs code of its kind. -/
theorem stale_job_is_dropped_witness :
    ∃ s1, step X0 (System.after X0 2 heap0 schedule3) Action.owner = some s1
      ∧ s1.world.d.output_queue_ = [job5]
      ∧ s1.world.trace = (System.after X0 2 heap0 schedule3).world.trace ++ [Event.Dispose job1 false]
      ∧ finalizedJobs s1.world.trace = finalizedJobs (System.after X0 2 heap0 schedule3).world.trace
      ∧ s1.world.heap = (System.after X0 2 heap0 schedule3).world.heap
      ∧ (s1.world.heap.functions job1.compilation_info.closure).code
          = ((System.after X0 2 heap0 schedule3).world.heap.functions
              job1.compilation_info.closure).code
      ∧ (s1.world.heap.functions job1.compilation_info.closure).optimization_marker
          = ((System.after X0 2 heap0 schedule3).world.heap.functions
              job1.compilation_info.closure).optimization_marker
      ∧ (s1.world.heap.shareds
            (s1.world.heap.functions job1.compilation_info.closure).shared).osr_is_in_optimization_queue
          = ((System.after X0 2 heap0 schedule3).world.heap.shareds
            ((System.after X0 2 heap0 schedule3).world.heap.functions
              job1.compilation_info.closure).shared).osr_is_in_optimization_queue :=
  stale_job_is_dropped X0 (System.after X0 2 heap0 schedule3) job1 [job5] rfl rfl rfl rfl

/-- C5: when `InstallOptimizedFunctions` pops a job that is not stale (its
target has no available code of the kind of the job, or the job is an OSR job),
the job is handed to finalize, once, and is not disposed of; so the popped job
is finalized if and only if not (`HasAvailableCodeKind` and not `is_osr`), and
disposed of otherwise. -/
theorem fresh_job_is_finalized (X : Collaborators) (s : System) (job : OptimizedCompilationJob)
    (rest : List OptimizedCompilationJob)
    (howner : s.owner = OwnerPc.InstallOptimizedFunctions)
    (hq : s.world.d.output_queue_ = job :: rest) :
    ∃ s1, step X s Action.owner = some s1
      ∧ s1.world.d.output_queue_ = rest
      ∧ ((X.HasAvailableCodeKind s.world.heap job.compilation_info.closure
              job.compilation_info.code_kind = false ∨ job.compilation_info.is_osr = true) →
          s1.world.trace = s.world.trace ++ [Event.Finalize job]
            ∧ disposedJobs s1.world.trace = disposedJobs s.world.trace
            ∧ s1.world.heap = X.FinalizeOptimizedCompilationJob job s.world.heap)
      ∧ (s1.world.trace = s.world.trace ++ [Event.Finalize job]
          ↔ ¬ (X.HasAvailableCodeKind s.world.heap job.compilation_info.closure
                job.compilation_info.code_kind = true ∧ job.compilation_info.is_osr = false))
      ∧ (s1.world.trace = s.world.trace ++ [Event.Dispose job false]
          ↔ (X.HasAvailableCodeKind s.world.heap job.compilation_info.closure
                job.compilation_info.code_kind = true ∧ job.compilation_info.is_osr = false)) := by
  cases hiter : InstallOptimizedFunctions_iter X s.world with
  | none =>
    have := InstallOptimizedFunctions_iter_none hiter
    rw [hq] at this
    cases this
  | some w =>
    obtain ⟨job1, h1, _, _, _, _, _, h7⟩ := InstallOptimizedFunctions_iter_some hiter
    rw [hq] at h1
    simp only [List.cons.injEq] at h1
    obtain ⟨hj, hrest⟩ := h1
    subst hj
    refine ⟨{ s with world := w }, ?_, hrest.symm, ?_, ?_, ?_⟩
    · simp only [step, System.ownerStep, howner, hiter]
    · intro hfresh
      rcases h7 with ⟨hst, _, _⟩ | ⟨_, ht, hh⟩
      · simp only [Bool.and_eq_true, Bool.not_eq_true'] at hst
        rcases hfresh with hf | hf
        · rw [hst.1] at hf; cases hf
        · rw [hst.2] at hf; cases hf
      · refine ⟨ht, ?_, hh⟩
        simp only [ht, disposedJobs_append, disposedJobs, List.append_nil]
    · rcases h7 with ⟨hst, ht, _⟩ | ⟨hst, ht, _⟩
      · simp only [Bool.and_eq_true, Bool.not_eq_true'] at hst
        simp only [ht, List.append_cancel_left_eq, List.cons.injEq, and_true, reduceCtorEq,
          false_iff, not_not]
        exact hst
      · simp only [Bool.and_eq_false_iff, Bool.not_eq_false'] at hst
        simp only [ht, true_iff, not_and, Bool.not_eq_false]
        intro h1
        rcases hst with h2 | h2
        · rw [h1] at h2; cases h2
        · exact h2
    · rcases h7 with ⟨hst, ht, _⟩ | ⟨hst, ht, _⟩
      · simp only [Bool.and_eq_true, Bool.not_eq_true'] at hst
        simp only [ht, true_iff]
        exact hst
      · simp only [Bool.and_eq_false_iff, Bool.not_eq_false'] at hst
        simp only [ht, List.append_cancel_left_eq, List.cons.injEq, and_true, reduceCtorEq,
          false_iff, not_and, Bool.not_eq_false]
        intro h1
        rcases hst with h2 | h2
        · rw [h1] at h2; cases h2
        · exact h2

/-- C5, at the OSR job `job5`: its target already runs code of its kind, and
the job is finalized all the same. -/
theorem fresh_job_is_finalized_witness :
    job5.compilation_info.is_osr = true
      ∧ X0.HasAvailableCodeKind (System.after X0 2 heap0 schedule4).world.heap
          job5.compilation_info.closure job5.compilation_info.code_kind = true
      ∧ ∃ s1, step X0 (System.after X0 2 heap0 schedule4) Action.owner = some s1
        ∧ s1.world.d.output_queue_ = []
        ∧ ((X0.HasAvailableCodeKind (System.after X0 2 heap0 schedule4).world.heap
                job5.compilation_info.closure job5.compilation_info.code_kind = false
              ∨ job5.compilation_info.is_osr = true) →
            s1.world.trace
                = (System.after X0 2 heap0 schedule4).world.trace ++ [Event.Finalize job5]
              ∧ disposedJobs s1.world.trace
                  = disposedJobs (System.after X0 2 heap0 schedule4).world.trace
              ∧ s1.world.heap = X0.FinalizeOptimizedCompilationJob job5
                  (System.after X0 2 heap0 schedule4).world.heap)
        ∧ (s1.world.trace
              = (System.after X0 2 heap0 schedule4).world.trace ++ [Event.Finalize job5]
            ↔ ¬ (X0.HasAvailableCodeKind (System.after X0 2 heap0 schedule4).world.heap
                  job5.compilation_info.closure job5.compilation_info.code_kind = true
                ∧ job5.compilation_info.is_osr = false))
        ∧ (s1.world.trace
              = (System.after X0 2 heap0 schedule4).world.trace ++ [Event.Dispose job5 false]
            ↔ (X0.HasAvailableCodeKind (System.after X0 2 heap0 schedule4).world.heap
                  job5.compilation_info.closure job5.compilation_info.code_kind = true
                ∧ job5.compilation_info.is_osr = false)) :=
  ⟨rfl, rfl, fresh_job_is_finalized X0 (System.after X0 2 heap0 schedule4) job5 [] rfl rfl⟩

/-! ## The drain of `FlushQueues` -/

theorem DisposeCompilationJob_heap_congr (job : OptimizedCompilationJob) (r : Bool)
    {w1 w2 : World} (h : w1.heap = w2.heap) :
    (DisposeCompilationJob job r w1).heap = (DisposeCompilationJob job r w2).heap := by
  simp only [DisposeCompilationJob, h]

theorem disposeAll_append (r : Bool) (l1 l2 : List OptimizedCompilationJob) :
    ∀ w : World, disposeAll r (l1 ++ l2) w = disposeAll r l2 (disposeAll r l1 w) := by
  induction l1 with
  | nil => intro w; rfl
  | cons j l1 ih => intro w; exact ih (DisposeCompilationJob j r w)

theorem disposeAll_false_heap (jobs : List OptimizedCompilationJob) :
    ∀ w : World, (disposeAll false jobs w).heap = w.heap := by
  induction jobs with
  | nil => intro w; rfl
  | cons j jobs ih => intro w; rw [disposeAll, ih, DisposeCompilationJob_heap_false]

theorem FlushRel.start {s s1 : System} (hi : s.Inv) (b : BlockingBehavior) (r : Bool)
    (h : s.FlushQueues b r = some s1) :
    FlushRel r s s1 ∧ s1.tasks = s.tasks
      ∧ s1.owner = (if b = BlockingBehavior.kBlock then OwnerPc.FlushQueues_wait r
                    else OwnerPc.FlushOutputQueue r) := by
  have hinv := hi.FlushQueues b r h
  obtain ⟨w1, h1, h2, h3, h4, h5, h6, h7, h8⟩ := FlushInputQueue_spec s.world hi.wf
  simp only [System.FlushQueues, h1, Option.some.injEq] at h
  subst h
  refine ⟨⟨hinv, rfl, h3, ?_, [], ?_, ?_, ?_⟩, rfl, rfl⟩
  · simp only
    split
    · exact Or.inl rfl
    · exact Or.inr (Or.inl rfl)
  · simp only [h4, List.nil_append]
    exact List.Perm.refl _
  · simp only [h8, List.map_nil, List.append_nil]
  · simp only [h7, disposeAll]

theorem FlushRel.flush_ownerStep (X : Collaborators) {r : Bool} {s0 s s1 : System}
    (hr : FlushRel r s0 s) (h : s.ownerStep X = some s1) :
    FlushRel r s0 s1 ∧ (Blocking r s → Blocking r s1) := by
  have hinv := hr.inv.inv_ownerStep X h
  obtain ⟨order, hp, ht, hh⟩ := hr.progress
  unfold System.ownerStep at h
  rcases hr.owner with ho | ho | ho
  · simp only [ho] at h
    split at h
    · cases h
    · rename_i hrc
      simp only [Option.some.injEq] at h
      subst h
      refine ⟨⟨hinv, hr.submitted, hr.empty, Or.inr (Or.inl rfl), order, hp, ht, hh⟩, ?_⟩
      intro _
      have hlen := hr.inv.ref_count
      have : s.tasks.length = 0 := by omega
      exact Or.inr ⟨List.length_eq_zero.mp this, Or.inl rfl⟩
  · simp only [ho] at h
    cases hw : FlushOutputQueue_iter r s.world with
    | none =>
      simp only [hw, Option.some.injEq] at h
      subst h
      refine ⟨⟨hinv, hr.submitted, hr.empty, Or.inr (Or.inr rfl), order, hp, ht, hh⟩, ?_⟩
      rintro (hb | ⟨hb, _⟩)
      · rw [ho] at hb; cases hb
      · exact Or.inr ⟨hb, Or.inr ⟨rfl, FlushOutputQueue_iter_none hw⟩⟩
    | some w =>
      simp only [hw, Option.some.injEq] at h
      subst h
      obtain ⟨job, h1, _, _, h4, _, _, h7, h8⟩ := FlushOutputQueue_iter_some hw
      refine ⟨⟨hinv, hr.submitted, h4.trans hr.empty, Or.inr (Or.inl rfl),
        order ++ [job], ?_, ?_, ?_⟩, ?_⟩
      · rw [h1] at hp
        refine List.Perm.trans ?_ hp
        rw [List.perm_iff_count]
        intro j
        simp only [List.count_append, List.count_cons, List.count_nil]
        omega
      · simp only [h7, ht, List.map_append, List.map_cons, List.map_nil, List.append_assoc]
      · simp only [h8, disposeAll_append, disposeAll]
        exact DisposeCompilationJob_heap_congr job r hh
      · rintro (hb | ⟨hb, _⟩)
        · rw [ho] at hb; cases hb
        · exact Or.inr ⟨hb, Or.inl rfl⟩
  · simp only [ho] at h
    cases h

theorem FlushRel.flush_workerStep {r : Bool} {s0 s s1 : System} (hr : FlushRel r s0 s)
    (i : Nat) (status : Status) (h : s.workerStep i status = some s1) :
    FlushRel r s0 s1 ∧ (Blocking r s → Blocking r s1) := by
  have hinv := hr.inv.inv_workerStep i status h
  obtain ⟨order, hp, ht, hh⟩ := hr.progress
  have hblock : ∀ t, s.tasks.get? i = some t → s1.owner = s.owner →
      (Blocking r s → Blocking r s1) := by
    intro t hget ho
    rintro (hb | ⟨hb, _⟩)
    · exact Or.inl (ho.trans hb)
    · rw [hb] at hget
      simp at hget
  unfold System.workerStep at h
  split at h
  · cases h
  · rename_i hget
    obtain ⟨l1, l2, e1, e2, _⟩ := tasks_split hget
    simp only [s.world.d.NextInput_empty hr.empty, Option.some.injEq] at h
    subst h
    refine ⟨⟨hinv, hr.submitted, hr.empty, hr.owner, order, ?_, ht, hh⟩,
      hblock _ hget rfl⟩
    rw [e1] at hp
    simp only [e2]
    simpa [executingJobs_append, executingJobs] using hp
  · rename_i job hget
    obtain ⟨l1, l2, e1, e2, _⟩ := tasks_split hget
    simp only [Option.some.injEq] at h
    subst h
    refine ⟨⟨hinv, hr.submitted, hr.empty, hr.owner, order, ?_, ht, hh⟩,
      hblock _ hget rfl⟩
    rw [e1] at hp
    refine List.Perm.trans ?_ hp
    simp only [e2, OptimizingCompileDispatcher.CompileNext]
    rw [List.perm_iff_count]
    intro j
    simp only [executingJobs_append, executingJobs, List.count_append, List.count_cons,
      List.count_nil]
    omega
  · rename_i hget
    obtain ⟨l1, l2, e1, _, e3⟩ := tasks_split hget
    simp only [Option.some.injEq] at h
    subst h
    refine ⟨⟨hinv, hr.submitted, hr.empty, hr.owner, order, ?_, ht, hh⟩,
      hblock _ hget rfl⟩
    rw [e1] at hp
    simp only [e3]
    simpa [executingJobs_append, executingJobs, OptimizingCompileDispatcher.releaseTask]
      using hp

theorem FlushRel.flush_run (X : Collaborators) {r : Bool} {s0 : System} (as : List Action) :
    ∀ {s s1 : System}, (∀ a ∈ as, a.isInternal = true) → FlushRel r s0 s →
      run X s as = some s1 →
      FlushRel r s0 s1 ∧ (Blocking r s → Blocking r s1) := by
  induction as with
  | nil =>
    intro s s1 _ hr h
    simp only [V8.run, Option.some.injEq] at h
    subst h
    exact ⟨hr, id⟩
  | cons a as ih =>
    intro s s1 hint hr h
    simp only [V8.run] at h
    cases hs : V8.step X s a with
    | none => rw [hs] at h; cases h
    | some s2 =>
      rw [hs] at h
      have ha := hint a (List.mem_cons_self _ _)
      have hrest : ∀ b ∈ as, b.isInternal = true :=
        fun b hb => hint b (List.mem_cons_of_mem _ hb)
      have h2 : FlushRel r s0 s2 ∧ (Blocking r s → Blocking r s2) := by
        cases a with
        | owner => exact hr.flush_ownerStep X hs
        | worker i status => exact hr.flush_workerStep i status hs
        | QueueForOptimization job => cases ha
        | Flush b => cases ha
        | Stop => cases ha
        | InstallOptimizedFunctions => cases ha
        | AwaitCompileTasks => cases ha
      obtain ⟨h3, h4⟩ := ih hrest h2.1 h
      exact ⟨h3, fun hb => h4 (h2.2 hb)⟩


/-! ## Every operation can be run to its return -/

theorem run_append (X : Collaborators) (as1 as2 : List Action) :
    ∀ {s s1 s2 : System}, run X s as1 = some s1 → run X s1 as2 = some s2 →
      run X s (as1 ++ as2) = some s2 := by
  induction as1 with
  | nil =>
    intro s s1 s2 h1 h2
    simp only [V8.run, Option.some.injEq] at h1
    subst h1
    exact h2
  | cons a as1 ih =>
    intro s s1 s2 h1 h2
    simp only [V8.run, List.cons_append] at h1 ⊢
    cases hs : V8.step X s a with
    | none => rw [hs] at h1; cases h1
    | some s3 =>
      rw [hs] at h1
      simp only
      exact ih h1 h2

theorem internal_append {as1 as2 : List Action} (h1 : ∀ a ∈ as1, a.isInternal = true)
    (h2 : ∀ a ∈ as2, a.isInternal = true) : ∀ a ∈ as1 ++ as2, a.isInternal = true := by
  intro a ha
  rcases List.mem_append.mp ha with h | h
  · exact h1 a h
  · exact h2 a h

theorem finish_task_finishing (X : Collaborators) (s : System) (ts : List TaskPc)
    (h : s.tasks = TaskPc.finishing :: ts) :
    ∃ as s1, (∀ a ∈ as, a.isInternal = true) ∧ run X s as = some s1 ∧ s1.tasks = ts
      ∧ s1.owner = s.owner :=
  ⟨[Action.worker 0 Status.SUCCEEDED],
    { s with world := { s.world with d := s.world.d.releaseTask }, tasks := ts },
    by simp [Action.isInternal],
    by simp [V8.run, V8.step, System.workerStep, h], rfl, rfl⟩

theorem finish_task_executing (X : Collaborators) (s : System) (job : OptimizedCompilationJob)
    (ts : List TaskPc) (h : s.tasks = TaskPc.executing job :: ts) :
    ∃ as s1, (∀ a ∈ as, a.isInternal = true) ∧ run X s as = some s1 ∧ s1.tasks = ts
      ∧ s1.owner = s.owner := by
  obtain ⟨s2, hstep, ht, ho⟩ : ∃ s2, V8.step X s (Action.worker 0 Status.SUCCEEDED) = some s2
      ∧ s2.tasks = TaskPc.finishing :: ts ∧ s2.owner = s.owner := by
    simp only [V8.step, System.workerStep, h, List.get?_cons_zero]
    exact ⟨_, rfl, rfl, rfl⟩
  obtain ⟨as, s1, h1, h2, h3, h4⟩ := finish_task_finishing X s2 ts ht
  exact ⟨[Action.worker 0 Status.SUCCEEDED] ++ as, s1,
    internal_append (by simp [Action.isInternal]) h1,
    run_append X _ _ (by simp only [V8.run, hstep]) h2, h3, h4.trans ho⟩

theorem finish_task (X : Collaborators) (s : System) (t : TaskPc) (ts : List TaskPc)
    (h : s.tasks = t :: ts) :
    ∃ as s1, (∀ a ∈ as, a.isInternal = true) ∧ run X s as = some s1 ∧ s1.tasks = ts
      ∧ s1.owner = s.owner := by
  cases t with
  | finishing => exact finish_task_finishing X s ts h
  | executing job => exact finish_task_executing X s job ts h
  | scheduled =>
    obtain ⟨s2, hstep, ht, ho⟩ : ∃ s2, V8.step X s (Action.worker 0 Status.SUCCEEDED) = some s2
        ∧ s2.tasks = (match s.world.d.NextInput.1 with
                      | none => TaskPc.finishing
                      | some job => TaskPc.executing job) :: ts ∧ s2.owner = s.owner := by
      simp only [V8.step, System.workerStep, h, List.get?_cons_zero]
      exact ⟨_, rfl, rfl, rfl⟩
    cases hn : s.world.d.NextInput.1 with
    | none =>
      rw [hn] at ht
      obtain ⟨as, s1, h1, h2, h3, h4⟩ := finish_task_finishing X s2 ts ht
      exact ⟨[Action.worker 0 Status.SUCCEEDED] ++ as, s1,
        internal_append (by simp [Action.isInternal]) h1,
        run_append X _ _ (by simp only [V8.run, hstep]) h2, h3, h4.trans ho⟩
    | some job =>
      rw [hn] at ht
      obtain ⟨as, s1, h1, h2, h3, h4⟩ := finish_task_executing X s2 job ts ht
      exact ⟨[Action.worker 0 Status.SUCCEEDED] ++ as, s1,
        internal_append (by simp [Action.isInternal]) h1,
        run_append X _ _ (by simp only [V8.run, hstep]) h2, h3, h4.trans ho⟩

theorem finish_all_tasks (X : Collaborators) :
    ∀ (ts : List TaskPc) (s : System), s.tasks = ts →
      ∃ as s1, (∀ a ∈ as, a.isInternal = true) ∧ run X s as = some s1 ∧ s1.tasks = []
        ∧ s1.owner = s.owner := by
  intro ts
  induction ts with
  | nil => intro s h; exact ⟨[], s, by simp, rfl, h, rfl⟩
  | cons t ts ih =>
    intro s h
    obtain ⟨as1, s1, h1, h2, h3, h4⟩ := finish_task X s t ts h
    obtain ⟨as2, s2, h5, h6, h7, h8⟩ := ih s1 h3
    exact ⟨as1 ++ as2, s2, internal_append h1 h5, run_append X _ _ h2 h6, h7, h8.trans h4⟩

theorem drain_output (X : Collaborators) (r : Bool) :
    ∀ (q : List OptimizedCompilationJob) (s : System), s.world.d.output_queue_ = q →
      s.owner = OwnerPc.FlushOutputQueue r →
      ∃ as s1, (∀ a ∈ as, a.isInternal = true) ∧ run X s as = some s1
        ∧ s1.owner = OwnerPc.idle := by
  intro q
  induction q with
  | nil =>
    intro s hq ho
    refine ⟨[Action.owner], { s with owner := OwnerPc.idle }, by simp [Action.isInternal], ?_, rfl⟩
    simp [V8.run, V8.step, System.ownerStep, ho, FlushOutputQueue_iter, hq]
  | cons job rest ih =>
    intro s hq ho
    obtain ⟨s2, hstep, hq2, ho2⟩ : ∃ s2, V8.step X s Action.owner = some s2
        ∧ s2.world.d.output_queue_ = rest ∧ s2.owner = OwnerPc.FlushOutputQueue r := by
      simp only [V8.step, System.ownerStep, ho, FlushOutputQueue_iter, hq]
      exact ⟨_, rfl, rfl, rfl⟩
    obtain ⟨as, s1, h1, h2, h3⟩ := ih s2 hq2 ho2
    exact ⟨[Action.owner] ++ as, s1, internal_append (by simp [Action.isInternal]) h1,
      run_append X _ _ (by simp only [V8.run, hstep]) h2, h3⟩

theorem drain_install (X : Collaborators) :
    ∀ (q : List OptimizedCompilationJob) (s : System), s.world.d.output_queue_ = q →
      s.owner = OwnerPc.InstallOptimizedFunctions →
      ∃ as s1, (∀ a ∈ as, a = Action.owner) ∧ run X s as = some s1
        ∧ s1.owner = OwnerPc.idle := by
  intro q
  induction q with
  | nil =>
    intro s hq ho
    refine ⟨[Action.owner], { s with owner := OwnerPc.idle }, by simp, ?_, rfl⟩
    simp [V8.run, V8.step, System.ownerStep, ho, InstallOptimizedFunctions_iter, hq]
  | cons job rest ih =>
    intro s hq ho
    cases hw : InstallOptimizedFunctions_iter X s.world with
    | none =>
      have := InstallOptimizedFunctions_iter_none hw
      rw [hq] at this
      cases this
    | some w =>
      obtain ⟨job1, h1, _⟩ := InstallOptimizedFunctions_iter_some hw
      rw [hq] at h1
      simp only [List.cons.injEq] at h1
      have hstep : V8.step X s Action.owner = some { s with world := w } := by
        simp [V8.step, System.ownerStep, ho, hw]
      obtain ⟨as, s1, h2, h3, h4⟩ := ih { s with world := w } h1.2.symm ho
      refine ⟨[Action.owner] ++ as, s1, ?_, run_append X _ _ (by simp only [V8.run, hstep]) h3, h4⟩
      intro a ha
      rcases List.mem_append.mp ha with h | h
      · simpa using h
      · exact h2 a h

theorem FlushQueues_returns (X : Collaborators) {s s1 : System} (hi : s.Inv)
    (b : BlockingBehavior) (r : Bool) (h : s.FlushQueues b r = some s1) :
    ∃ as s2, (∀ a ∈ as, a.isInternal = true) ∧ run X s1 as = some s2
      ∧ s2.owner = OwnerPc.idle := by
  obtain ⟨hrel, _, ho⟩ := FlushRel.start hi b r h
  by_cases hb : b = BlockingBehavior.kBlock
  · rw [if_pos hb] at ho
    obtain ⟨as1, s2, h1, h2, h3, h4⟩ := finish_all_tasks X s1.tasks s1 rfl
    have hinv2 := System.Inv.inv_run X as1 hrel.inv h2
    have hrc : s2.world.d.ref_count_ = 0 := by
      have := hinv2.ref_count
      rw [h3] at this
      simpa using this
    have hstep : V8.step X s2 Action.owner = some { s2 with owner := OwnerPc.FlushOutputQueue r } := by
      simp [V8.step, System.ownerStep, h4, ho, hrc]
    obtain ⟨as3, s3, h5, h6, h7⟩ := drain_output X r _ { s2 with owner := OwnerPc.FlushOutputQueue r } rfl rfl
    exact ⟨as1 ++ ([Action.owner] ++ as3), s3,
      internal_append h1 (internal_append (by simp [Action.isInternal]) h5),
      run_append X _ _ h2 (run_append X _ _ (by simp only [V8.run, hstep]) h6), h7⟩
  · rw [if_neg hb] at ho
    exact drain_output X r _ s1 rfl ho


theorem run_cons_some {X : Collaborators} {s s1 : System} {a : Action} {as : List Action}
    (h : run X s (a :: as) = some s1) :
    ∃ s2, step X s a = some s2 ∧ run X s2 as = some s1 := by
  simp only [V8.run] at h
  cases hs : V8.step X s a with
  | none => rw [hs] at h; cases h
  | some s2 => rw [hs] at h; exact ⟨s2, rfl, h⟩

theorem FlushQueues_enabled {s : System} (hi : s.Inv) (b : BlockingBehavior) (r : Bool) :
    ∃ s1, s.FlushQueues b r = some s1 := by
  obtain ⟨w1, h1, _⟩ := FlushInputQueue_spec s.world hi.wf
  simp only [System.FlushQueues, h1]
  exact ⟨_, rfl⟩

theorem FlushQueues_block_post (X : Collaborators) {s s2 s1 : System} {r : Bool}
    {as : List Action} (hi : s.Inv) (hcall : s.FlushQueues BlockingBehavior.kBlock r = some s2)
    (hint : ∀ a ∈ as, a.isInternal = true) (hrun : run X s2 as = some s1)
    (hret : s1.owner = OwnerPc.idle) :
    s1.Inv ∧ s1.submitted = s.submitted
      ∧ s1.world.d.input_queue_length_ = 0 ∧ s1.world.d.inputJobs = []
      ∧ s1.world.d.output_queue_ = [] ∧ s1.world.d.ref_count_ = 0 ∧ s1.tasks = []
      ∧ ∃ order : List OptimizedCompilationJob,
          order.Perm (executingJobs s.tasks ++ s.world.d.output_queue_)
          ∧ s1.world.trace = s.world.trace
              ++ s.world.d.inputJobs.map (fun j => Event.Dispose j true)
              ++ order.map (fun j => Event.Dispose j r)
          ∧ s1.world.heap
              = (disposeAll r order (disposeAll true s.world.d.inputJobs s.world)).heap := by
  obtain ⟨hrel, _, ho⟩ := FlushRel.start hi BlockingBehavior.kBlock r hcall
  rw [if_pos rfl] at ho
  obtain ⟨hrel1, hb⟩ := FlushRel.flush_run X as hint hrel hrun
  have hb1 := hb (Or.inl ho)
  have htasks : s1.tasks = [] ∧ s1.world.d.output_queue_ = [] := by
    rcases hb1 with h | ⟨h1, h2 | ⟨_, h2⟩⟩
    · rw [hret] at h; cases h
    · rw [hret] at h2; cases h2
    · exact ⟨h1, h2⟩
  obtain ⟨order, hp, ht, hh⟩ := hrel1.progress
  refine ⟨hrel1.inv, hrel1.submitted, hrel1.empty, hrel1.inv.wf.inputJobs_nil hrel1.empty,
    htasks.2, ?_, htasks.1, order, ?_, ht, hh⟩
  · have := hrel1.inv.ref_count
    rw [htasks.1] at this
    simpa using this
  · rw [htasks.1, htasks.2] at hp
    simpa [executingJobs] using hp

/-! ## C3 -/

/-- C3: flush completeness.  From every reachable state in which the owner is
outside the dispatcher, `Flush(kBlock)` can be run to its return; and whenever
it has returned, whatever the tasks did meanwhile, the input queue and the
output queue are empty, `ref_count_` is 0, and the jobs that were in the input
queue, being executed or in the output queue at the call are exactly the jobs
disposed of since, each with `restore_function_code = true` (the trace grew by
one `Dispose job true` per such job, the heap is the heap of the call after
these disposals).  When no job was submitted twice, no job was ever disposed
of twice. -/
theorem flush_block_complete (X : Collaborators) (s : System) (hreach : Reachable X s)
    (hidle : s.owner = OwnerPc.idle) :
    (∃ as s1, (∀ a ∈ as, a.isInternal = true)
        ∧ run X s (Action.Flush BlockingBehavior.kBlock :: as) = some s1
        ∧ s1.owner = OwnerPc.idle)
      ∧ ∀ as s1, (∀ a ∈ as, a.isInternal = true) →
          run X s (Action.Flush BlockingBehavior.kBlock :: as) = some s1 →
          s1.owner = OwnerPc.idle →
          s1.world.d.input_queue_length_ = 0 ∧ s1.world.d.inputJobs = []
            ∧ s1.world.d.output_queue_ = [] ∧ s1.world.d.ref_count_ = 0 ∧ s1.tasks = []
            ∧ (∃ order : List OptimizedCompilationJob,
                order.Perm (s.world.d.inputJobs ++ executingJobs s.tasks
                  ++ s.world.d.output_queue_)
                ∧ s1.world.trace = s.world.trace ++ order.map (fun j => Event.Dispose j true)
                ∧ s1.world.heap = (disposeAll true order s.world).heap)
            ∧ (s.submitted.Nodup → (disposedJobs s1.world.trace).Nodup) := by
  have hi := hreach.inv
  constructor
  · obtain ⟨s2, hcall⟩ := FlushQueues_enabled hi BlockingBehavior.kBlock true
    obtain ⟨as, s1, h1, h2, h3⟩ := FlushQueues_returns X hi _ _ hcall
    refine ⟨as, s1, h1, ?_, h3⟩
    simp only [V8.run, V8.step, hidle, if_true, hcall]
    exact h2
  · intro as s1 hint hrun hret
    obtain ⟨s2, hstep, hrun2⟩ := run_cons_some hrun
    simp only [V8.step, hidle, if_true] at hstep
    obtain ⟨hinv1, hsub, h1, h2, h3, h4, h5, order, hp, ht, hh⟩ :=
      FlushQueues_block_post X hi hstep hint hrun2 hret
    refine ⟨h1, h2, h3, h4, h5, ⟨s.world.d.inputJobs ++ order, ?_, ?_, ?_⟩, ?_⟩
    · rw [List.append_assoc]
      exact List.Perm.append_left _ hp
    · rw [ht, List.map_append, List.append_assoc]
    · rw [hh, disposeAll_append]
    · intro hn
      have hc := hinv1.conservation
      rw [hsub] at hc
      have hnd := hc.nodup_iff.mpr hn
      simp only [System.heldJobs, h2, h5, h3, executingJobs, List.nil_append] at hnd
      exact (List.nodup_append.mp hnd).1

/-- C3, at the state `schedule2` reaches (a job being executed, a job in the
output queue, two in the input queue), for the drain `drain2`. -/
theorem flush_block_complete_witness :
    (System.after X0 2 heap0 (schedule2 ++ Action.Flush BlockingBehavior.kBlock :: drain2)).owner
        = OwnerPc.idle
      ∧ (System.after X0 2 heap0
          (schedule2 ++ Action.Flush BlockingBehavior.kBlock :: drain2)).world.trace
        = [Event.Dispose job3 true, Event.Dispose job4 true, Event.Dispose job2 true,
           Event.Dispose job1 true]
      ∧ (System.after X0 2 heap0
          (schedule2 ++ Action.Flush BlockingBehavior.kBlock :: drain2)).world.d.output_queue_
        = []
      ∧ (System.after X0 2 heap0
          (schedule2 ++ Action.Flush BlockingBehavior.kBlock :: drain2)).world.d.ref_count_ = 0
      ∧ (System.after X0 2 heap0 schedule2).submitted.Nodup
      ∧ (disposedJobs (System.after X0 2 heap0
          (schedule2 ++ Action.Flush BlockingBehavior.kBlock :: drain2)).world.trace).Nodup :=
  ⟨rfl, by decide,
   ((flush_block_complete X0 (System.after X0 2 heap0 schedule2)
      (reachable_after X0 2 heap0 schedule2 (by decide) _ rfl) rfl).2 drain2
      (System.after X0 2 heap0 (schedule2 ++ Action.Flush BlockingBehavior.kBlock :: drain2))
      (by decide) rfl rfl).2.2.1,
   ((flush_block_complete X0 (System.after X0 2 heap0 schedule2)
      (reachable_after X0 2 heap0 schedule2 (by decide) _ rfl) rfl).2 drain2
      (System.after X0 2 heap0 (schedule2 ++ Action.Flush BlockingBehavior.kBlock :: drain2))
      (by decide) rfl rfl).2.2.2.1,
   by decide,
   ((flush_block_complete X0 (System.after X0 2 heap0 schedule2)
      (reachable_after X0 2 heap0 schedule2 (by decide) _ rfl) rfl).2 drain2
      (System.after X0 2 heap0 (schedule2 ++ Action.Flush BlockingBehavior.kBlock :: drain2))
      (by decide) rfl rfl).2.2.2.2.2.2 (by decide)⟩


/-! ## C6 -/

/-- C6: `Stop` discards results without reversion.  From every reachable state
in which the owner is outside the dispatcher, `Stop` can be run to its return;
and whenever it has returned, the input queue length is 0, the output queue is
empty, `ref_count_` is 0, and the jobs that were being executed or in the
output queue at the call are exactly the jobs disposed of by the output drain,
each with `restore_function_code = false`.  Such a disposal leaves the heap as
it was (the code and the optimization marker of the target, the OSR-pending
flag of its shared function info): the heap at the return is the heap the
drain of the input queue left. -/
theorem stop_discards_without_reversion (X : Collaborators) (s : System)
    (hreach : Reachable X s) (hidle : s.owner = OwnerPc.idle) :
    (∃ as s1, (∀ a ∈ as, a.isInternal = true)
        ∧ run X s (Action.Stop :: as) = some s1 ∧ s1.owner = OwnerPc.idle)
      ∧ ∀ as s1, (∀ a ∈ as, a.isInternal = true) →
          run X s (Action.Stop :: as) = some s1 → s1.owner = OwnerPc.idle →
          s1.world.d.input_queue_length_ = 0
            ∧ s1.world.d.output_queue_ = [] ∧ s1.world.d.ref_count_ = 0
            ∧ ∃ order : List OptimizedCompilationJob,
                order.Perm (executingJobs s.tasks ++ s.world.d.output_queue_)
                ∧ s1.world.trace = s.world.trace
                    ++ s.world.d.inputJobs.map (fun j => Event.Dispose j true)
                    ++ order.map (fun j => Event.Dispose j false)
                ∧ s1.world.heap = (disposeAll true s.world.d.inputJobs s.world).heap
                ∧ ∀ job ∈ order, ∀ w : World,
                    (DisposeCompilationJob job false w).heap = w.heap
                    ∧ ((DisposeCompilationJob job false w).heap.functions
                          job.compilation_info.closure).code
                        = (w.heap.functions job.compilation_info.closure).code
                    ∧ ((DisposeCompilationJob job false w).heap.functions
                          job.compilation_info.closure).optimization_marker
                        = (w.heap.functions job.compilation_info.closure).optimization_marker
                    ∧ ((DisposeCompilationJob job false w).heap.shareds
                          (w.heap.functions job.compilation_info.closure).shared
                        ).osr_is_in_optimization_queue
                        = (w.heap.shareds
                            (w.heap.functions job.compilation_info.closure).shared
                          ).osr_is_in_optimization_queue := by
  have hi := hreach.inv
  constructor
  · obtain ⟨s2, hcall⟩ := FlushQueues_enabled hi BlockingBehavior.kBlock false
    obtain ⟨as, s1, h1, h2, h3⟩ := FlushQueues_returns X hi _ _ hcall
    refine ⟨as, s1, h1, ?_, h3⟩
    simp only [V8.run, V8.step, hidle, if_true, hcall]
    exact h2
  · intro as s1 hint hrun hret
    obtain ⟨s2, hstep, hrun2⟩ := run_cons_some hrun
    simp only [V8.step, hidle, if_true] at hstep
    obtain ⟨_, _, h1, _, h3, h4, _, order, hp, ht, hh⟩ :=
      FlushQueues_block_post X hi hstep hint hrun2 hret
    refine ⟨h1, h3, h4, order, hp, ht, ?_, ?_⟩
    · rw [hh, disposeAll_false_heap]
    · intro job _ w
      exact ⟨rfl, rfl, rfl, rfl⟩

/-- C6, at the state `schedule2` reaches: `job3` and `job4` of the input queue
are disposed of with reversion, `job2` (output queue) and `job1` (in flight)
without, and the heap at the return is the heap after the first two. -/
theorem stop_discards_without_reversion_witness :
    (System.after X0 2 heap0 (schedule2 ++ Action.Stop :: drain2)).owner = OwnerPc.idle
      ∧ (System.after X0 2 heap0 (schedule2 ++ Action.Stop :: drain2)).world.trace
        = [Event.Dispose job3 true, Event.Dispose job4 true, Event.Dispose job2 false,
           Event.Dispose job1 false]
      ∧ ((System.after X0 2 heap0 (schedule2 ++ Action.Stop :: drain2)).world.heap.functions
          11).optimization_marker = OptimizationMarker.kInOptimizationQueue
      ∧ ((System.after X0 2 heap0 (schedule2 ++ Action.Stop :: drain2)).world.heap.functions
          12).optimization_marker = OptimizationMarker.kNone
      ∧ (System.after X0 2 heap0 (schedule2 ++ Action.Stop :: drain2)).world.d.input_queue_length_
          = 0
      ∧ (System.after X0 2 heap0 (schedule2 ++ Action.Stop :: drain2)).world.d.output_queue_ = []
      ∧ (System.after X0 2 heap0 (schedule2 ++ Action.Stop :: drain2)).world.d.ref_count_ = 0 :=
  ⟨rfl, by decide, by decide, by decide,
   (stop_discards_without_reversion X0 (System.after X0 2 heap0 schedule2)
      (reachable_after X0 2 heap0 schedule2 (by decide) _ rfl) rfl).2 drain2
      (System.after X0 2 heap0 (schedule2 ++ Action.Stop :: drain2))
      (by decide) rfl rfl |>.1,
   (stop_discards_without_reversion X0 (System.after X0 2 heap0 schedule2)
      (reachable_after X0 2 heap0 schedule2 (by decide) _ rfl) rfl).2 drain2
      (System.after X0 2 heap0 (schedule2 ++ Action.Stop :: drain2))
      (by decide) rfl rfl |>.2.1,
   (stop_discards_without_reversion X0 (System.after X0 2 heap0 schedule2)
      (reachable_after X0 2 heap0 schedule2 (by decide) _ rfl) rfl).2 drain2
      (System.after X0 2 heap0 (schedule2 ++ Action.Stop :: drain2))
      (by decide) rfl rfl |>.2.2.1⟩

/-! ## What a task step leaves alone -/

theorem workerStep_frame {s s1 : System} {i : Nat} {status : Status}
    (h : s.workerStep i status = some s1) :
    s1.world.trace = s.world.trace ∧ s1.world.heap = s.world.heap
      ∧ s1.submitted = s.submitted ∧ s1.owner = s.owner
      ∧ s1.world.d.output_queue_
          = s.world.d.output_queue_ ++ s.publishes (Action.worker i status)
      ∧ s.tasks ≠ [] := by
  unfold System.workerStep at h
  split at h
  · cases h
  · rename_i hget
    simp only [Option.some.injEq] at h
    subst h
    refine ⟨rfl, rfl, rfl, rfl, ?_, ?_⟩
    · simp only [System.publishes, hget, (s.world.d.NextInput_other).2.1, List.append_nil]
    · intro hn; rw [hn] at hget; simp at hget
  · rename_i job hget
    simp only [Option.some.injEq] at h
    subst h
    refine ⟨rfl, rfl, rfl, rfl, ?_, ?_⟩
    · simp only [System.publishes, hget, OptimizingCompileDispatcher.CompileNext]
    · intro hn; rw [hn] at hget; simp at hget
  · rename_i hget
    simp only [Option.some.injEq] at h
    subst h
    refine ⟨rfl, rfl, rfl, rfl, ?_, ?_⟩
    · simp only [System.publishes, hget, OptimizingCompileDispatcher.releaseTask,
        List.append_nil]
    · intro hn; rw [hn] at hget; simp at hget

/-! ## The wait of `AwaitCompileTasks` -/

theorem AwaitRel.await_step (X : Collaborators) {s0 s s1 : System} {a : Action}
    (hr : AwaitRel s0 s) (ha : a.isInternal = true) (h : step X s a = some s1) :
    AwaitRel s0 s1 := by
  have hinv := hr.inv.inv_step X h
  cases a with
  | owner =>
    simp only [V8.step, System.ownerStep] at h
    rcases hr.owner with ho | ⟨ho, _⟩
    · simp only [ho] at h
      split at h
      · cases h
      · rename_i hrc
        simp only [Option.some.injEq] at h
        subst h
        refine ⟨hinv, hr.submitted, hr.trace, hr.heap, Or.inr ⟨rfl, ?_⟩⟩
        have := hr.inv.ref_count
        have : s.tasks.length = 0 := by omega
        exact List.length_eq_zero.mp this
    · simp only [ho] at h
      cases h
  | worker i status =>
    simp only [V8.step] at h
    obtain ⟨h1, h2, h3, h4, _, h6⟩ := workerStep_frame h
    refine ⟨hinv, h3.trans hr.submitted, h1.trans hr.trace, h2.trans hr.heap, ?_⟩
    rcases hr.owner with ho | ⟨_, ht⟩
    · exact Or.inl (h4.trans ho)
    · exact absurd ht h6
  | QueueForOptimization job => cases ha
  | Flush b => cases ha
  | Stop => cases ha
  | InstallOptimizedFunctions => cases ha
  | AwaitCompileTasks => cases ha

theorem AwaitRel.await_run (X : Collaborators) {s0 : System} (as : List Action) :
    ∀ {s s1 : System}, (∀ a ∈ as, a.isInternal = true) → AwaitRel s0 s →
      run X s as = some s1 → AwaitRel s0 s1 := by
  induction as with
  | nil =>
    intro s s1 _ hr h
    simp only [V8.run, Option.some.injEq] at h
    subst h
    exact hr
  | cons a as ih =>
    intro s s1 hint hr h
    obtain ⟨s2, hs, h2⟩ := run_cons_some h
    exact ih (fun b hb => hint b (List.mem_cons_of_mem _ hb))
      (hr.await_step X (hint a (List.mem_cons_self _ _)) hs) h2

/-! ## C8 -/

/-- C8: quiescence.  From every reachable state in which the owner is outside
the dispatcher, `AwaitCompileTasks` can be run to its return.  The call changes
nothing but the place of the owner; the owner is blocked while
`ref_count_ > 0`; its return changes nothing but the place of the owner and
happens in a state with `ref_count_ = 0`.  Whenever the call has returned,
`ref_count_` is 0, nothing was disposed of or finalized meanwhile, the heap is
as it was, and the jobs held (input queue, being executed, output queue) are
the jobs held at the call: the tasks moved them, none was removed. -/
theorem await_quiescence (X : Collaborators) (s : System) (hreach : Reachable X s)
    (hidle : s.owner = OwnerPc.idle) :
    (∃ as s1, (∀ a ∈ as, a.isInternal = true)
        ∧ run X s (Action.AwaitCompileTasks :: as) = some s1 ∧ s1.owner = OwnerPc.idle)
      ∧ step X s Action.AwaitCompileTasks
          = some { s with owner := OwnerPc.AwaitCompileTasks }
      ∧ (∀ as s2, (∀ a ∈ as, a.isInternal = true) →
          run X s (Action.AwaitCompileTasks :: as) = some s2 →
          s2.owner = OwnerPc.AwaitCompileTasks →
          (s2.world.d.ref_count_ > 0 → step X s2 Action.owner = none)
            ∧ ∀ s3, step X s2 Action.owner = some s3 →
                s2.world.d.ref_count_ = 0 ∧ s3 = { s2 with owner := OwnerPc.idle })
      ∧ ∀ as s1, (∀ a ∈ as, a.isInternal = true) →
          run X s (Action.AwaitCompileTasks :: as) = some s1 → s1.owner = OwnerPc.idle →
          s1.world.d.ref_count_ = 0
            ∧ s1.world.trace = s.world.trace ∧ s1.world.heap = s.world.heap
            ∧ (s1.world.d.inputJobs ++ executingJobs s1.tasks ++ s1.world.d.output_queue_).Perm
                (s.world.d.inputJobs ++ executingJobs s.tasks ++ s.world.d.output_queue_) := by
  have hi := hreach.inv
  have hcall : step X s Action.AwaitCompileTasks
      = some { s with owner := OwnerPc.AwaitCompileTasks } := by
    simp only [V8.step, hidle, if_true]
  have hrel0 : AwaitRel s { s with owner := OwnerPc.AwaitCompileTasks } :=
    ⟨hi.inv_step X hcall, rfl, rfl, rfl, Or.inl rfl⟩
  have hrel : ∀ as s1, (∀ a ∈ as, a.isInternal = true) →
      run X s (Action.AwaitCompileTasks :: as) = some s1 → AwaitRel s s1 := by
    intro as s1 hint hrun
    obtain ⟨s2, hs, h2⟩ := run_cons_some hrun
    rw [hcall, Option.some.injEq] at hs
    subst hs
    exact AwaitRel.await_run X as hint hrel0 h2
  refine ⟨?_, hcall, ?_, ?_⟩
  · obtain ⟨as1, s2, h1, h2, h3, h4⟩ :=
      finish_all_tasks X s.tasks { s with owner := OwnerPc.AwaitCompileTasks } rfl
    have hr2 := AwaitRel.await_run X as1 h1 hrel0 h2
    have hrc : s2.world.d.ref_count_ = 0 := by
      have := hr2.inv.ref_count
      rw [h3] at this
      simpa using this
    have hstep : V8.step X s2 Action.owner = some { s2 with owner := OwnerPc.idle } := by
      have ho : s2.owner = OwnerPc.AwaitCompileTasks := h4
      simp [V8.step, System.ownerStep, ho, hrc]
    refine ⟨as1 ++ [Action.owner], { s2 with owner := OwnerPc.idle },
      internal_append h1 (by simp [Action.isInternal]), ?_, rfl⟩
    simp only [V8.run, hcall]
    exact run_append X _ _ h2 (by simp only [V8.run, hstep])
  · intro as s2 hint hrun ho
    have hr2 := hrel as s2 hint hrun
    constructor
    · intro hrc
      simp [V8.step, System.ownerStep, ho, hrc]
    · intro s3 hs
      simp only [V8.step, System.ownerStep, ho] at hs
      split at hs
      · cases hs
      · rename_i hrc
        simp only [Option.some.injEq] at hs
        have := hr2.inv.ref_count
        exact ⟨by omega, hs.symm⟩
  · intro as s1 hint hrun hret
    have hr1 := hrel as s1 hint hrun
    have htasks : s1.tasks = [] := by
      rcases hr1.owner with ho | ⟨_, ht⟩
      · rw [hret] at ho; cases ho
      · exact ht
    refine ⟨?_, hr1.trace, hr1.heap, ?_⟩
    · have := hr1.inv.ref_count
      rw [htasks] at this
      simpa using this
    · have hc1 := hr1.inv.conservation
      have hc0 := hi.conservation
      rw [hr1.submitted, hr1.trace] at hc1
      exact (List.perm_append_right_iff _).mp
        ((List.perm_append_right_iff _).mp (hc1.trans hc0.symm))


/-- C8, at the state `schedule2` reaches, where three jobs are not yet
published: the wait returns with `ref_count_ = 0`, nothing disposed of, and the
four jobs in the output queue. -/
theorem await_quiescence_witness :
    (System.after X0 2 heap0 (schedule2 ++ Action.AwaitCompileTasks :: await2)).owner
        = OwnerPc.idle
      ∧ (System.after X0 2 heap0
          (schedule2 ++ Action.AwaitCompileTasks :: await2)).world.d.output_queue_
        = [job2, job1, job3, job4]
      ∧ (System.after X0 2 heap0
          (schedule2 ++ Action.AwaitCompileTasks :: await2)).world.d.ref_count_ = 0
      ∧ (System.after X0 2 heap0
          (schedule2 ++ Action.AwaitCompileTasks :: await2)).world.trace
        = (System.after X0 2 heap0 schedule2).world.trace :=
  ⟨rfl, by decide,
   ((await_quiescence X0 (System.after X0 2 heap0 schedule2)
      (reachable_after X0 2 heap0 schedule2 (by decide) _ rfl) rfl).2.2.2 await2
      (System.after X0 2 heap0 (schedule2 ++ Action.AwaitCompileTasks :: await2))
      (by decide) rfl rfl).1,
   ((await_quiescence X0 (System.after X0 2 heap0 schedule2)
      (reachable_after X0 2 heap0 schedule2 (by decide) _ rfl) rfl).2.2.2 await2
      (System.after X0 2 heap0 (schedule2 ++ Action.AwaitCompileTasks :: await2))
      (by decide) rfl rfl).2.1⟩

/-! ## The loop of `InstallOptimizedFunctions` -/

theorem InstallRel.install_step (X : Collaborators) {s0 s s1 : System} {a : Action}
    {later : List OptimizedCompilationJob}
    (hr : InstallRel s0 later s) (ha : a.isInternal = true) (h : step X s a = some s1) :
    InstallRel s0 (later ++ s.publishes a) s1 := by
  have hinv := hr.inv.inv_step X h
  obtain ⟨evs, ht, hq, hev⟩ := hr.progress
  cases a with
  | owner =>
    simp only [V8.step, System.ownerStep] at h
    simp only [System.publishes, List.append_nil]
    rcases hr.owner with ho | ho
    · simp only [ho] at h
      cases hw : InstallOptimizedFunctions_iter X s.world with
      | none =>
        simp only [hw, Option.some.injEq] at h
        subst h
        exact ⟨hinv, Or.inr rfl, evs, ht, hq, hev⟩
      | some w =>
        simp only [hw, Option.some.injEq] at h
        subst h
        obtain ⟨job, h1, _, _, _, _, _, h7⟩ := InstallOptimizedFunctions_iter_some hw
        rw [h1] at hq
        rcases h7 with ⟨_, h7, _⟩ | ⟨_, h7, _⟩
        · refine ⟨hinv, Or.inl rfl, evs ++ [Event.Dispose job false], ?_, ?_, ?_⟩
          · simp only [h7, ht, List.append_assoc]
          · rw [← hq]
            simp [Event.job]
          · intro e he
            rcases List.mem_append.mp he with h | h
            · exact hev e h
            · simp only [List.mem_singleton] at h
              subst h
              exact Or.inl rfl
        · refine ⟨hinv, Or.inl rfl, evs ++ [Event.Finalize job], ?_, ?_, ?_⟩
          · simp only [h7, ht, List.append_assoc]
          · rw [← hq]
            simp [Event.job]
          · intro e he
            rcases List.mem_append.mp he with h | h
            · exact hev e h
            · simp only [List.mem_singleton] at h
              subst h
              exact Or.inr rfl
    · simp only [ho] at h
      cases h
  | worker i status =>
    simp only [V8.step] at h
    obtain ⟨h1, _, _, h4, h5, _⟩ := workerStep_frame h
    refine ⟨hinv, ?_, evs, h1.trans ht, ?_, hev⟩
    · rw [h4]; exact hr.owner
    · rw [h5, ← List.append_assoc, hq, List.append_assoc]
  | QueueForOptimization job => cases ha
  | Flush b => cases ha
  | Stop => cases ha
  | InstallOptimizedFunctions => cases ha
  | AwaitCompileTasks => cases ha

theorem InstallRel.install_run (X : Collaborators) {s0 : System} (as : List Action) :
    ∀ {s s1 : System} {later : List OptimizedCompilationJob},
      (∀ a ∈ as, a.isInternal = true) → InstallRel s0 later s →
      run X s as = some s1 → InstallRel s0 (later ++ publishedAlong X s as) s1 := by
  induction as with
  | nil =>
    intro s s1 later _ hr h
    simp only [V8.run, Option.some.injEq] at h
    subst h
    simpa [publishedAlong] using hr
  | cons a as ih =>
    intro s s1 later hint hr h
    obtain ⟨s2, hs, h2⟩ := run_cons_some h
    have := ih (fun b hb => hint b (List.mem_cons_of_mem _ hb))
      (hr.install_step X (hint a (List.mem_cons_self _ _)) hs) h2
    simpa only [publishedAlong, hs, List.append_assoc] using this

theorem run_append_some (X : Collaborators) (as1 as2 : List Action) :
    ∀ {s s1 : System}, run X s (as1 ++ as2) = some s1 →
      ∃ s2, run X s as1 = some s2 ∧ run X s2 as2 = some s1 := by
  induction as1 with
  | nil => intro s s1 h; exact ⟨s, rfl, h⟩
  | cons a as1 ih =>
    intro s s1 h
    obtain ⟨s3, hs, h3⟩ := run_cons_some (by simpa using h)
    obtain ⟨s2, h4, h5⟩ := ih h3
    exact ⟨s2, by simp only [V8.run, hs, h4], h5⟩

theorem published_by_tasks (X : Collaborators) (ws : List Action) :
    ∀ {s0 s : System}, (∀ a ∈ ws, a.isWorker = true) → run X s0 ws = some s →
      s.world.d.output_queue_ = s0.world.d.output_queue_ ++ publishedAlong X s0 ws
        ∧ s.owner = s0.owner := by
  induction ws with
  | nil =>
    intro s0 s _ h
    simp only [V8.run, Option.some.injEq] at h
    subst h
    simp [publishedAlong]
  | cons a ws ih =>
    intro s0 s hw h
    obtain ⟨s2, hs, h2⟩ := run_cons_some h
    obtain ⟨h3, h4⟩ := ih (fun b hb => hw b (List.mem_cons_of_mem _ hb)) h2
    have ha := hw a (List.mem_cons_self _ _)
    cases a with
    | worker i status =>
      have hs1 := hs
      simp only [V8.step] at hs1
      obtain ⟨_, _, _, h8, h9, _⟩ := workerStep_frame hs1
      refine ⟨?_, h4.trans h8⟩
      rw [h3, h9]
      simp only [publishedAlong, hs, List.append_assoc]
    | owner => cases ha
    | QueueForOptimization job => cases ha
    | Flush b => cases ha
    | Stop => cases ha
    | InstallOptimizedFunctions => cases ha
    | AwaitCompileTasks => cases ha

/-! ## C9 -/

/-- C9: the output queue is in completion order and installation follows it.
Let the tasks run any schedule `ws` from a reachable state `s0` to a state `s`:
the output queue of `s` is the output queue of `s0` followed by the jobs
published along `ws`, in the order of their publication (whatever the order of
their submission).  From `s`, `InstallOptimizedFunctions` can be run to its
return; and whenever it has returned, the output queue is empty and the events
added to the trace are about the jobs of the output queue of `s`, in queue
order, one event for each, followed by the jobs published during the call; each
event disposes of its job without reversion or finalizes it. -/
theorem install_follows_completion_order (X : Collaborators) (s0 : System)
    (hreach : Reachable X s0) (ws : List Action) (hws : ∀ a ∈ ws, a.isWorker = true)
    (s : System) (hrun0 : run X s0 ws = some s) (hidle : s.owner = OwnerPc.idle) :
    s.world.d.output_queue_ = s0.world.d.output_queue_ ++ publishedAlong X s0 ws
      ∧ (∃ as s1, (∀ a ∈ as, a = Action.owner)
          ∧ run X s (Action.InstallOptimizedFunctions :: as ++ [Action.owner]) = some s1
          ∧ s1.owner = OwnerPc.idle)
      ∧ ∀ as s1, (∀ a ∈ as, a.isInternal = true) →
          run X s (Action.InstallOptimizedFunctions :: as ++ [Action.owner]) = some s1 →
          s1.owner = OwnerPc.idle →
          s1.world.d.output_queue_ = []
            ∧ ∃ evs : List Event, s1.world.trace = s.world.trace ++ evs
                ∧ evs.map Event.job = s.world.d.output_queue_
                    ++ publishedAlong X s
                        (Action.InstallOptimizedFunctions :: as ++ [Action.owner])
                ∧ ∀ e ∈ evs, e = Event.Dispose e.job false ∨ e = Event.Finalize e.job := by
  have hi0 := hreach.inv
  have hi : s.Inv := System.Inv.inv_run X ws hi0 hrun0
  have hcall : step X s Action.InstallOptimizedFunctions
      = some { s with owner := OwnerPc.InstallOptimizedFunctions } := by
    simp only [V8.step, hidle, if_true]
  have hrel0 : InstallRel s [] { s with owner := OwnerPc.InstallOptimizedFunctions } :=
    ⟨hi.inv_step X hcall, Or.inl rfl, [], by simp, by simp, by simp⟩
  refine ⟨(published_by_tasks X ws hws hrun0).1, ?_, ?_⟩
  · obtain ⟨as, s1, h1, h2, h3⟩ :=
      drain_install X _ { s with owner := OwnerPc.InstallOptimizedFunctions } rfl rfl
    rcases List.eq_nil_or_concat as with hnil | ⟨as1, a, hcons⟩
    · subst hnil
      simp only [V8.run, Option.some.injEq] at h2
      subst h2
      cases h3
    · subst hcons
      have ha : a = Action.owner := h1 a (by simp)
      subst ha
      refine ⟨as1, s1, fun b hb => h1 b (by simp [hb]), ?_, h3⟩
      simp only [List.cons_append, V8.run, hcall]
      simpa using h2
  · intro as s1 hint hrun hret
    obtain ⟨s2, hs, h2⟩ := run_cons_some (by simpa using hrun)
    rw [hcall, Option.some.injEq] at hs
    subst hs
    obtain ⟨s3, h3, h4⟩ := run_append_some X as [Action.owner] h2
    have hr3 := InstallRel.install_run X as hint hrel0 h3
    obtain ⟨s4, h5, h6⟩ := run_cons_some h4
    simp only [V8.run, Option.some.injEq] at h6
    subst h6
    have hr4 := hr3.install_step X (show Action.owner.isInternal = true from rfl) h5
    have hout : s4.world.d.output_queue_ = [] := by
      simp only [V8.step, System.ownerStep] at h5
      rcases hr3.owner with ho | ho
      · simp only [ho] at h5
        cases hw : InstallOptimizedFunctions_iter X s3.world with
        | none =>
          simp only [hw, Option.some.injEq] at h5
          subst h5
          exact InstallOptimizedFunctions_iter_none hw
        | some w =>
          simp only [hw, Option.some.injEq] at h5
          subst h5
          cases hret
      · simp only [ho] at h5
        cases h5
    obtain ⟨evs, ht, hq, hev⟩ := hr4.progress
    refine ⟨hout, evs, ht, ?_, hev⟩
    rw [hout, List.append_nil] at hq
    rw [hq]
    have hp : publishedAlong X s (Action.InstallOptimizedFunctions :: as ++ [Action.owner])
        = publishedAlong X { s with owner := OwnerPc.InstallOptimizedFunctions }
            (as ++ [Action.owner]) := by
      show publishedAlong X s (Action.InstallOptimizedFunctions :: (as ++ [Action.owner])) = _
      simp only [publishedAlong, hcall, System.publishes, List.nil_append]
    rw [hp]
    have hp2 : ∀ (l : List Action) (t t1 : System), run X t l = some t1 →
        publishedAlong X t (l ++ [Action.owner])
          = publishedAlong X t l ++ t1.publishes Action.owner := by
      intro l
      induction l with
      | nil =>
        intro t t1 h
        simp only [V8.run, Option.some.injEq] at h
        subst h
        simp only [List.nil_append, publishedAlong, System.publishes]
        cases V8.step X t Action.owner <;> rfl
      | cons b l ih =>
        intro t t1 h
        obtain ⟨t2, hb, h2⟩ := run_cons_some h
        show publishedAlong X t (b :: (l ++ [Action.owner])) = _
        simp only [publishedAlong, hb, ih t2 t1 h2, List.append_assoc]
    rw [hp2 as _ s3 h3]
    simp

/-- C9, with `job1` submitted before `job2` and `job2` published before
`job1`: the output queue is `[job2, job1]`, and `InstallOptimizedFunctions`
finalizes `job2`, then drops the stale `job1`. -/
theorem install_follows_completion_order_witness :
    (System.after X0 2 heap0 (schedule5 ++ publish5)).submitted = [job1, job2]
      ∧ (System.after X0 2 heap0 (schedule5 ++ publish5)).world.d.output_queue_ = [job2, job1]
      ∧ (System.after X0 2 heap0 (schedule5 ++ publish5 ++
            (Action.InstallOptimizedFunctions :: [Action.owner, Action.owner]
              ++ [Action.owner]))).world.trace
          = [Event.Finalize job2, Event.Dispose job1 false]
      ∧ (System.after X0 2 heap0 (schedule5 ++ publish5 ++
            (Action.InstallOptimizedFunctions :: [Action.owner, Action.owner]
              ++ [Action.owner]))).world.d.output_queue_ = [] :=
  ⟨by decide, by decide, by decide,
   ((install_follows_completion_order X0 (System.after X0 2 heap0 schedule5)
      (reachable_after X0 2 heap0 schedule5 (by decide) _ rfl) publish5 (by decide)
      (System.after X0 2 heap0 (schedule5 ++ publish5)) rfl rfl).2.2
      [Action.owner, Action.owner]
      (System.after X0 2 heap0 (schedule5 ++ publish5 ++
        (Action.InstallOptimizedFunctions :: [Action.owner, Action.owner] ++ [Action.owner])))
      (by decide) rfl rfl).1⟩

/-! ## C12 -/

/-- C12: disposal with reversion.  `DisposeCompilationJob` with
`restore_function_code = true` (the call of `FlushInputQueue`, and of the
output drain of `Flush`) sets the code of the target to the code of its shared
function info, leaves the target not marked as in the optimization queue, and
for an OSR job clears the OSR-pending flag of the shared function info of the
target; for a job that is not an OSR job every OSR-pending flag is left as it
was.  The job is recorded as disposed of with reversion. -/
theorem dispose_with_reversion (job : OptimizedCompilationJob) (w : World) :
    ((DisposeCompilationJob job true w).heap.functions job.compilation_info.closure).code
        = w.heap.GetCode job.compilation_info.closure
      ∧ (DisposeCompilationJob job true w).heap.GetCode job.compilation_info.closure
        = w.heap.GetCode job.compilation_info.closure
      ∧ (DisposeCompilationJob job true w).heap.IsInOptimizationQueue
          job.compilation_info.closure = false
      ∧ (job.compilation_info.is_osr = true →
          ((DisposeCompilationJob job true w).heap.shareds
            ((DisposeCompilationJob job true w).heap.functions
              job.compilation_info.closure).shared).osr_is_in_optimization_queue = false)
      ∧ (job.compilation_info.is_osr = false →
          ∀ sh, ((DisposeCompilationJob job true w).heap.shareds sh).osr_is_in_optimization_queue
            = (w.heap.shareds sh).osr_is_in_optimization_queue)
      ∧ (DisposeCompilationJob job true w).trace = w.trace ++ [Event.Dispose job true] := by
  refine ⟨?_, ?_, ?_, ?_, ?_, rfl⟩
  · simp only [DisposeCompilationJob, if_true]
    split <;> split <;>
      simp [Heap.set_code, Heap.ClearOptimizationMarker, Heap.set_osr_is_in_optimization_queue,
        Heap.GetCode]
  · simp only [DisposeCompilationJob, if_true]
    split <;> split <;>
      simp [Heap.set_code, Heap.ClearOptimizationMarker, Heap.set_osr_is_in_optimization_queue,
        Heap.GetCode]
  · simp only [DisposeCompilationJob, if_true]
    split <;> split <;>
      simp_all [Heap.set_code, Heap.ClearOptimizationMarker,
        Heap.set_osr_is_in_optimization_queue, Heap.IsInOptimizationQueue]
  · intro hosr
    simp only [DisposeCompilationJob, if_true, hosr]
    split <;>
      simp [Heap.set_code, Heap.ClearOptimizationMarker, Heap.set_osr_is_in_optimization_queue]
  · intro hosr sh
    simp only [DisposeCompilationJob, if_true, hosr, Bool.false_eq_true, if_false]
    split <;> rfl

/-- C12, at the OSR job `job3` (function 12) on the example heap, where the
marker and the OSR-pending flag are set before. -/
theorem dispose_with_reversion_witness :
    heap0.IsInOptimizationQueue 12 = true
      ∧ (heap0.shareds (heap0.functions 12).shared).osr_is_in_optimization_queue = true
      ∧ ((DisposeCompilationJob job3 true world0).heap.functions 12).code = 0
      ∧ (DisposeCompilationJob job3 true world0).heap.IsInOptimizationQueue
          job3.compilation_info.closure = false
      ∧ ((DisposeCompilationJob job3 true world0).heap.shareds
            ((DisposeCompilationJob job3 true world0).heap.functions
              job3.compilation_info.closure).shared).osr_is_in_optimization_queue = false :=
  ⟨by decide, by decide, by decide, (dispose_with_reversion job3 world0).2.2.1,
   (dispose_with_reversion job3 world0).2.2.2.1 rfl⟩

/-! ## The count of outstanding tasks -/

theorem scheduledCount_append (l1 l2 : List TaskPc) :
    scheduledCount (l1 ++ l2) = scheduledCount l1 + scheduledCount l2 := by
  induction l1 with
  | nil => simp [scheduledCount]
  | cons t l1 ih =>
    cases t <;> simp [scheduledCount, ih]
    omega

theorem scheduledCount_le (l : List TaskPc) : scheduledCount l ≤ l.length := by
  induction l with
  | nil => simp [scheduledCount]
  | cons t l ih => cases t <;> simp [scheduledCount] <;> omega

theorem OptimizingCompileDispatcher.NextInput_length (d : OptimizingCompileDispatcher) :
    d.NextInput.2.input_queue_length_
      = if d.input_queue_length_ = 0 then 0 else d.input_queue_length_ - 1 := by
  unfold OptimizingCompileDispatcher.NextInput
  split
  · rename_i h; simpa using h
  · rfl

theorem step_ref_count (X : Collaborators) {s s1 : System} {a : Action} (hi : s.Inv)
    (h : step X s a = some s1) :
    s1.world.d.ref_count_ = s.world.d.ref_count_ + s.refCountChange a := by
  cases a with
  | QueueForOptimization job =>
    simp only [V8.step] at h
    split at h
    · simp only [Option.some.injEq] at h
      subst h
      rfl
    · cases h
  | Flush b =>
    simp only [V8.step] at h
    split at h
    · obtain ⟨w1, h1, _, _, _, h5, _⟩ := FlushInputQueue_spec s.world hi.wf
      simp only [System.FlushQueues, h1, Option.some.injEq] at h
      subst h
      simpa [System.refCountChange] using h5
    · cases h
  | Stop =>
    simp only [V8.step] at h
    split at h
    · obtain ⟨w1, h1, _, _, _, h5, _⟩ := FlushInputQueue_spec s.world hi.wf
      simp only [System.FlushQueues, h1, Option.some.injEq] at h
      subst h
      simpa [System.refCountChange] using h5
    · cases h
  | InstallOptimizedFunctions =>
    simp only [V8.step] at h
    split at h
    · simp only [Option.some.injEq] at h
      subst h
      simp [System.refCountChange]
    · cases h
  | AwaitCompileTasks =>
    simp only [V8.step] at h
    split at h
    · simp only [Option.some.injEq] at h
      subst h
      simp [System.refCountChange]
    · cases h
  | owner =>
    simp only [V8.step, System.ownerStep] at h
    simp only [System.refCountChange, add_zero]
    split at h
    · cases h
    · split at h
      · cases h
      · simp only [Option.some.injEq] at h
        subst h
        rfl
    · rename_i r _
      cases hw : FlushOutputQueue_iter r s.world with
      | none =>
        simp only [hw, Option.some.injEq] at h
        subst h
        rfl
      | some w =>
        simp only [hw, Option.some.injEq] at h
        subst h
        obtain ⟨_, _, _, _, _, _, h6, _⟩ := FlushOutputQueue_iter_some hw
        exact h6
    · cases hw : InstallOptimizedFunctions_iter X s.world with
      | none =>
        simp only [hw, Option.some.injEq] at h
        subst h
        rfl
      | some w =>
        simp only [hw, Option.some.injEq] at h
        subst h
        obtain ⟨_, _, _, _, _, _, h6, _⟩ := InstallOptimizedFunctions_iter_some hw
        exact h6
    · split at h
      · cases h
      · simp only [Option.some.injEq] at h
        subst h
        rfl
  | worker i status =>
    simp only [V8.step, System.workerStep] at h
    split at h
    · cases h
    · rename_i hget
      simp only [Option.some.injEq] at h
      subst h
      simp only [System.refCountChange, hget, add_zero]
      exact (s.world.d.NextInput_other).1
    · rename_i job hget
      simp only [Option.some.injEq] at h
      subst h
      simp only [System.refCountChange, hget, add_zero]
      rfl
    · rename_i hget
      simp only [Option.some.injEq] at h
      subst h
      simp only [System.refCountChange, hget]
      rfl

theorem step_pending (X : Collaborators) {s s1 : System} {a : Action} (hi : s.Inv)
    (hp : s.world.d.input_queue_length_ ≤ (scheduledCount s.tasks : Int))
    (h : step X s a = some s1) :
    s1.world.d.input_queue_length_ ≤ (scheduledCount s1.tasks : Int) := by
  cases a with
  | QueueForOptimization job =>
    simp only [V8.step] at h
    split at h
    · simp only [Option.some.injEq] at h
      subst h
      simp only [OptimizingCompileDispatcher.QueueForOptimization,
        OptimizingCompileDispatcher.enqueue, scheduledCount_append, scheduledCount]
      push_cast
      omega
    · cases h
  | Flush b =>
    simp only [V8.step] at h
    split at h
    · obtain ⟨w1, h1, _, h3, _⟩ := FlushInputQueue_spec s.world hi.wf
      simp only [System.FlushQueues, h1, Option.some.injEq] at h
      subst h
      simp only [h3]
      omega
    · cases h
  | Stop =>
    simp only [V8.step] at h
    split at h
    · obtain ⟨w1, h1, _, h3, _⟩ := FlushInputQueue_spec s.world hi.wf
      simp only [System.FlushQueues, h1, Option.some.injEq] at h
      subst h
      simp only [h3]
      omega
    · cases h
  | InstallOptimizedFunctions =>
    simp only [V8.step] at h
    split at h
    · simp only [Option.some.injEq] at h
      subst h
      exact hp
    · cases h
  | AwaitCompileTasks =>
    simp only [V8.step] at h
    split at h
    · simp only [Option.some.injEq] at h
      subst h
      exact hp
    · cases h
  | owner =>
    simp only [V8.step, System.ownerStep] at h
    split at h
    · cases h
    · split at h
      · cases h
      · simp only [Option.some.injEq] at h
        subst h
        exact hp
    · rename_i r _
      cases hw : FlushOutputQueue_iter r s.world with
      | none =>
        simp only [hw, Option.some.injEq] at h
        subst h
        exact hp
      | some w =>
        simp only [hw, Option.some.injEq] at h
        subst h
        obtain ⟨_, _, _, _, h4, _⟩ := FlushOutputQueue_iter_some hw
        simp only [h4]
        exact hp
    · cases hw : InstallOptimizedFunctions_iter X s.world with
      | none =>
        simp only [hw, Option.some.injEq] at h
        subst h
        exact hp
      | some w =>
        simp only [hw, Option.some.injEq] at h
        subst h
        obtain ⟨_, _, _, _, h4, _⟩ := InstallOptimizedFunctions_iter_some hw
        simp only [h4]
        exact hp
    · split at h
      · cases h
      · simp only [Option.some.injEq] at h
        subst h
        exact hp
  | worker i status =>
    simp only [V8.step, System.workerStep] at h
    split at h
    · cases h
    · rename_i hget
      obtain ⟨l1, l2, e1, e2, _⟩ := tasks_split hget
      simp only [Option.some.injEq] at h
      subst h
      rw [e1] at hp
      simp only [e2, s.world.d.NextInput_length]
      have hl := hi.wf.length_nonneg
      cases hn : s.world.d.NextInput.1 <;>
      · simp only [scheduledCount_append, scheduledCount] at hp ⊢
        push_cast at hp ⊢
        split <;> omega
    · rename_i job hget
      obtain ⟨l1, l2, e1, e2, _⟩ := tasks_split hget
      simp only [Option.some.injEq] at h
      subst h
      rw [e1] at hp
      simp only [e2, OptimizingCompileDispatcher.CompileNext]
      simpa [scheduledCount_append, scheduledCount] using hp
    · rename_i hget
      obtain ⟨l1, l2, e1, _, e3⟩ := tasks_split hget
      simp only [Option.some.injEq] at h
      subst h
      rw [e1] at hp
      simp only [e3, OptimizingCompileDispatcher.releaseTask]
      simpa [scheduledCount_append, scheduledCount] using hp

theorem run_pending (X : Collaborators) (as : List Action) :
    ∀ {s s1 : System}, s.Inv →
      s.world.d.input_queue_length_ ≤ (scheduledCount s.tasks : Int) →
      run X s as = some s1 →
      s1.world.d.input_queue_length_ ≤ (scheduledCount s1.tasks : Int) := by
  induction as with
  | nil =>
    intro s s1 _ hp h
    simp only [V8.run, Option.some.injEq] at h
    subst h
    exact hp
  | cons a as ih =>
    intro s s1 hi hp h
    obtain ⟨s2, hs, h2⟩ := run_cons_some h
    exact ih (hi.inv_step X hs) (step_pending X hi hp hs) h2

theorem Reachable.pending {X : Collaborators} {s : System} (h : Reachable X s) :
    s.world.d.input_queue_length_ ≤ (scheduledCount s.tasks : Int) := by
  obtain ⟨capacity, heap, as, hcap, hrun⟩ := h
  exact run_pending X as (System.Inv.create capacity hcap heap)
    (by simp [System.create, OptimizingCompileDispatcher.create, scheduledCount]) hrun

/-! ## C16 -/

/-- C16: `ref_count_` counts the outstanding tasks.  In every reachable state
`ref_count_` is the number of tasks created and not yet finished, so it is
never negative; and a step changes it as follows: `QueueForOptimization` adds
one job at the back of the input queue and raises `ref_count_` by one, the last
step of a task lowers it by one, and no other step changes it. -/
theorem ref_count_counts_tasks (X : Collaborators) (s : System) (hreach : Reachable X s) :
    s.world.d.ref_count_ = (s.tasks.length : Int) ∧ 0 ≤ s.world.d.ref_count_
      ∧ ∀ a s1, step X s a = some s1 →
          s1.world.d.ref_count_ = s.world.d.ref_count_ + s.refCountChange a
            ∧ (s1.tasks.length : Int) = (s.tasks.length : Int) + s.refCountChange a
            ∧ ∀ job, a = Action.QueueForOptimization job →
                s1.world.d.inputJobs = s.world.d.inputJobs ++ [job]
                  ∧ s1.world.d.ref_count_ = s.world.d.ref_count_ + 1 := by
  have hi := hreach.inv
  refine ⟨hi.ref_count, by rw [hi.ref_count]; omega, ?_⟩
  intro a s1 h
  have h1 := step_ref_count X hi h
  have hi1 := hi.inv_step X h
  refine ⟨h1, ?_, ?_⟩
  · rw [← hi1.ref_count, ← hi.ref_count]
    exact h1
  · intro job ha
    subst ha
    simp only [V8.step] at h
    split at h
    · rename_i hg
      simp only [Option.some.injEq] at h
      subst h
      have hlt : s.world.d.input_queue_length_ < s.world.d.input_queue_capacity_ := by
        simpa [OptimizingCompileDispatcher.IsQueueAvailable] using hg.2
      exact ⟨(hi.wf.QueueForOptimization hlt job).2, rfl⟩
    · cases h

/-- C16, at the state `schedule2` reaches, with four tasks outstanding. -/
theorem ref_count_counts_tasks_witness :
    Reachable X0 (System.after X0 2 heap0 schedule2)
      ∧ (System.after X0 2 heap0 schedule2).tasks.length = 4
      ∧ (System.after X0 2 heap0 schedule2).world.d.ref_count_
          = ((System.after X0 2 heap0 schedule2).tasks.length : Int)
      ∧ 0 ≤ (System.after X0 2 heap0 schedule2).world.d.ref_count_ :=
  ⟨reachable_after X0 2 heap0 schedule2 (by decide) _ rfl, by decide,
   (ref_count_counts_tasks X0 _ (reachable_after X0 2 heap0 schedule2 (by decide) _ rfl)).1,
   (ref_count_counts_tasks X0 _ (reachable_after X0 2 heap0 schedule2 (by decide) _ rfl)).2.1⟩

/-! ## C17 -/

/-- C17: the debug assertion of `AwaitCompileTasks` cannot fail.  In every
reachable state `input_queue_length_` is at most the number of tasks that have
not yet called `NextInput`, so `input_queue_length_ <= ref_count_`, and the
input queue is empty whenever `ref_count_` is 0 (what the destructor checks).
Hence the input queue is empty when `AwaitCompileTasks` returns, and when
`FlushQueues` (so `Stop`) returns. -/
theorem await_assertion_holds (X : Collaborators) (s : System) (hreach : Reachable X s) :
    s.world.d.input_queue_length_ ≤ (scheduledCount s.tasks : Int)
      ∧ s.world.d.input_queue_length_ ≤ s.world.d.ref_count_
      ∧ (s.world.d.ref_count_ = 0 →
          s.world.d.input_queue_length_ = 0 ∧ s.world.d.inputJobs = [])
      ∧ (∀ s1, s.owner = OwnerPc.AwaitCompileTasks → step X s Action.owner = some s1 →
          s1.owner = OwnerPc.idle ∧ s1.world.d.input_queue_length_ = 0)
      ∧ (∀ r s1, s.owner = OwnerPc.FlushOutputQueue r → step X s Action.owner = some s1 →
          s1.owner = OwnerPc.idle → s1.world.d.input_queue_length_ = 0) := by
  have hi := hreach.inv
  have hp := hreach.pending
  have hle := scheduledCount_le s.tasks
  have hrc := hi.ref_count
  have hl := hi.wf.length_nonneg
  have h0 : s.world.d.ref_count_ ≤ 0 → s.world.d.input_queue_length_ = 0 := by
    intro h
    omega
  refine ⟨hp, by omega, ?_, ?_, ?_⟩
  · intro h
    have := h0 (by omega)
    exact ⟨this, hi.wf.inputJobs_nil this⟩
  · intro s1 ho h
    simp only [V8.step, System.ownerStep, ho] at h
    split at h
    · cases h
    · rename_i hrc0
      simp only [Option.some.injEq] at h
      subst h
      exact ⟨rfl, h0 (by omega)⟩
  · intro r s1 ho h _
    have hlen := hi.flushed r (Or.inr ho)
    have hi1 := hi.inv_step X h
    simp only [V8.step, System.ownerStep, ho] at h
    cases hw : FlushOutputQueue_iter r s.world with
    | none =>
      simp only [hw, Option.some.injEq] at h
      subst h
      exact hlen
    | some w =>
      simp only [hw, Option.some.injEq] at h
      subst h
      obtain ⟨_, _, _, _, h4, _⟩ := FlushOutputQueue_iter_some hw
      exact h4.trans hlen

/-- C17, at the state `schedule2` reaches: two jobs in the input queue, two
tasks that have not yet called `NextInput`, four tasks outstanding. -/
theorem await_assertion_holds_witness :
    Reachable X0 (System.after X0 2 heap0 schedule2)
      ∧ (System.after X0 2 heap0 schedule2).world.d.input_queue_length_ = 2
      ∧ scheduledCount (System.after X0 2 heap0 schedule2).tasks = 2
      ∧ (System.after X0 2 heap0 schedule2).world.d.ref_count_ = 4
      ∧ (System.after X0 2 heap0 schedule2).world.d.input_queue_length_
          ≤ (System.after X0 2 heap0 schedule2).world.d.ref_count_ :=
  ⟨reachable_after X0 2 heap0 schedule2 (by decide) _ rfl, by decide, by decide, by decide,
   (await_assertion_holds X0 _
     (reachable_after X0 2 heap0 schedule2 (by decide) _ rfl)).2.1⟩

/-! ## C15 -/

theorem tasks_at : ∀ (l1 : List TaskPc) (t : TaskPc) (l2 : List TaskPc) (i : Nat),
    l1.length = i →
    (l1 ++ t :: l2).get? i = some t ∧ (∀ t1, (l1 ++ t :: l2).set i t1 = l1 ++ t1 :: l2)
      ∧ (l1 ++ t :: l2).eraseIdx i = l1 ++ l2 := by
  intro l1
  induction l1 with
  | nil =>
    intro t l2 i h
    simp only [List.length_nil] at h
    subst h
    exact ⟨rfl, fun _ => rfl, rfl⟩
  | cons a l1 ih =>
    intro t l2 i h
    simp only [List.length_cons] at h
    subst h
    obtain ⟨h1, h2, h3⟩ := ih t l2 l1.length rfl
    refine ⟨?_, fun t1 => ?_, ?_⟩
    · simpa using h1
    · simp only [List.cons_append, List.set_cons_succ, h2 t1]
    · simp only [List.cons_append, List.eraseIdx_cons_succ, h3]

theorem tasks_split_at {ts : List TaskPc} {i : Nat} {t : TaskPc} (h : ts.get? i = some t) :
    ∃ l1 l2, ts = l1 ++ t :: l2 ∧ l1.length = i := by
  induction ts generalizing i with
  | nil => simp at h
  | cons a ts ih =>
    cases i with
    | zero =>
      simp only [List.get?_cons_zero, Option.some.injEq] at h
      subst h
      exact ⟨[], ts, rfl, rfl⟩
    | succ i =>
      simp only [List.get?_cons_succ] at h
      obtain ⟨l1, l2, h1, h2⟩ := ih h
      exact ⟨a :: l1, l2, by rw [h1]; rfl, by simp [h2]⟩

theorem taskRun_is_RunInternal (X : Collaborators) (s : System) (i : Nat) (status : Status)
    (h : s.tasks.get? i = some TaskPc.scheduled) :
    run X s (s.taskRun i status)
      = some { s with world := { s.world with d := s.world.d.RunInternal status }
                      tasks := s.tasks.eraseIdx i } := by
  obtain ⟨l1, l2, e1, e2⟩ := tasks_split_at h
  have hz : ∀ t, (l1 ++ t :: l2).get? i = some t ∧ (∀ t1, (l1 ++ t :: l2).set i t1 = l1 ++ t1 :: l2)
      ∧ (l1 ++ t :: l2).eraseIdx i = l1 ++ l2 := fun t => tasks_at l1 t l2 i e2
  have her : s.tasks.eraseIdx i = l1 ++ l2 := by rw [e1]; exact (hz _).2.2
  rw [her]
  unfold System.taskRun OptimizingCompileDispatcher.RunInternal
  cases hn : s.world.d.NextInput.1 with
  | none =>
    simp only [V8.run, V8.step, System.workerStep, h, hn, e1, (hz _).2.1, (hz _).1, (hz _).2.2,
      OptimizingCompileDispatcher.CompileNext]
  | some job =>
    simp only [V8.run, V8.step, System.workerStep, h, hn, e1, (hz _).2.1, (hz _).1, (hz _).2.2,
      OptimizingCompileDispatcher.CompileNext]

/-- C15: one run of a task moves at most one job.  In a reachable state, let
the task at position `i` not have called `NextInput` yet.  Its steps, run
without interruption, are one run of `RunInternal`, and the task is gone
afterwards.  `RunInternal` lowers `ref_count_` by exactly one; when the input
queue is not empty it removes exactly the oldest job and appends exactly that
job at the tail of the output queue; when the input queue is empty it leaves
both queues as they were; and the result does not depend on the status
`ExecuteJob` returns.  Also when other steps come in between, the step of a
task that is executing a job appends that job at the tail of the output queue
for every status. -/
theorem task_run_moves_one_job (X : Collaborators) (s : System) (hreach : Reachable X s)
    (i : Nat) (status : Status) (htask : s.tasks.get? i = some TaskPc.scheduled) :
    run X s (s.taskRun i status)
        = some { s with world := { s.world with d := s.world.d.RunInternal status }
                        tasks := s.tasks.eraseIdx i }
      ∧ (s.world.d.RunInternal status).ref_count_ = s.world.d.ref_count_ - 1
      ∧ (0 < s.world.d.input_queue_length_ →
          ∃ job, s.world.d.inputJobs = job :: (s.world.d.RunInternal status).inputJobs
            ∧ (s.world.d.RunInternal status).output_queue_ = s.world.d.output_queue_ ++ [job]
            ∧ (s.world.d.RunInternal status).input_queue_length_
                = s.world.d.input_queue_length_ - 1)
      ∧ (s.world.d.input_queue_length_ = 0 →
          s.world.d.RunInternal status = s.world.d.releaseTask
            ∧ (s.world.d.RunInternal status).inputJobs = s.world.d.inputJobs
            ∧ (s.world.d.RunInternal status).output_queue_ = s.world.d.output_queue_)
      ∧ (∀ status1, s.world.d.RunInternal status1 = s.world.d.RunInternal status)
      ∧ ∀ (t : System) (k : Nat) (job : OptimizedCompilationJob) (status1 : Status),
          t.tasks.get? k = some (TaskPc.executing job) →
          ∃ t1, step X t (Action.worker k status1) = some t1
            ∧ t1.world.d.output_queue_ = t.world.d.output_queue_ ++ [job]
            ∧ t1.world.d.inputJobs = t.world.d.inputJobs
            ∧ t1.tasks = t.tasks.set k TaskPc.finishing := by
  have hwf := hreach.inv.wf
  refine ⟨taskRun_is_RunInternal X s i status htask, ?_, ?_, ?_, ?_, ?_⟩
  · simp only [OptimizingCompileDispatcher.RunInternal, OptimizingCompileDispatcher.releaseTask]
    cases s.world.d.NextInput.1 <;>
      simp [OptimizingCompileDispatcher.CompileNext, (s.world.d.NextInput_other).1]
  · intro hpos
    obtain ⟨job, hj, _, hjobs⟩ := hwf.front hpos
    have hne : ¬ s.world.d.input_queue_length_ = 0 := by omega
    have hN : s.world.d.NextInput = (some job, s.world.d.dropFront) := by
      unfold OptimizingCompileDispatcher.NextInput
      rw [if_neg hne, hj]
    refine ⟨job, ?_, ?_, ?_⟩
    · rw [hjobs]
      simp only [OptimizingCompileDispatcher.RunInternal, hN,
        OptimizingCompileDispatcher.releaseTask_inputJobs,
        OptimizingCompileDispatcher.CompileNext_inputJobs]
    · simp only [OptimizingCompileDispatcher.RunInternal, hN,
        OptimizingCompileDispatcher.releaseTask, OptimizingCompileDispatcher.CompileNext,
        OptimizingCompileDispatcher.dropFront]
    · simp only [OptimizingCompileDispatcher.RunInternal, hN,
        OptimizingCompileDispatcher.releaseTask, OptimizingCompileDispatcher.CompileNext,
        OptimizingCompileDispatcher.dropFront]
  · intro h0
    have hN := s.world.d.NextInput_empty h0
    have e : s.world.d.RunInternal status = s.world.d.releaseTask := by
      simp only [OptimizingCompileDispatcher.RunInternal, hN,
        OptimizingCompileDispatcher.CompileNext]
    refine ⟨e, ?_, ?_⟩
    · rw [e, OptimizingCompileDispatcher.releaseTask_inputJobs]
    · rw [e]; rfl
  · intro status1
    simp only [OptimizingCompileDispatcher.RunInternal]
    cases s.world.d.NextInput.1 <;> rfl
  · intro t k job status1 hget
    simp only [V8.step, System.workerStep, hget]
    exact ⟨_, rfl, rfl, OptimizingCompileDispatcher.CompileNext_inputJobs _ _ _, rfl⟩

/-- C15, at the third task of the state `schedule2` reaches: its run takes
`job3`, the oldest job of the input queue, and publishes it behind `job2`. -/
theorem task_run_moves_one_job_witness :
    (System.after X0 2 heap0 schedule2).tasks.get? 2 = some TaskPc.scheduled
      ∧ (System.after X0 2 heap0 schedule2).world.d.inputJobs = [job3, job4]
      ∧ (System.after X0 2 heap0 schedule2).world.d.output_queue_ = [job2]
      ∧ ((System.after X0 2 heap0 schedule2).world.d.RunInternal Status.FAILED).inputJobs
          = [job4]
      ∧ ((System.after X0 2 heap0 schedule2).world.d.RunInternal Status.FAILED).output_queue_
          = [job2, job3]
      ∧ ((System.after X0 2 heap0 schedule2).world.d.RunInternal Status.FAILED).ref_count_
          = (System.after X0 2 heap0 schedule2).world.d.ref_count_ - 1 :=
  ⟨by decide, by decide, by decide, by decide, by decide,
   (task_run_moves_one_job X0 (System.after X0 2 heap0 schedule2)
     (reachable_after X0 2 heap0 schedule2 (by decide) _ rfl) 2 Status.FAILED
     (by decide)).2.1⟩

/-! ## C13 -/

/-- C13: no job is left stuck.  From every reachable state in which the owner
is outside the dispatcher, `Stop` and `Flush(kBlock)` can be run to their
return; and whenever such a call has returned, whatever the tasks did
meanwhile, no job is in the input queue, being executed or in the output queue,
and every job ever passed to `QueueForOptimization` has been disposed of or
handed to finalize, once for each submission: when no job was submitted twice,
each submitted job was either disposed of exactly once and never finalized, or
finalized exactly once and never disposed of. -/
theorem no_job_left_stuck (X : Collaborators) (s : System) (hreach : Reachable X s)
    (hidle : s.owner = OwnerPc.idle) (call : Action)
    (hcall : call = Action.Stop ∨ call = Action.Flush BlockingBehavior.kBlock) :
    (∃ as s1, (∀ a ∈ as, a.isInternal = true) ∧ run X s (call :: as) = some s1
        ∧ s1.owner = OwnerPc.idle)
      ∧ ∀ as s1, (∀ a ∈ as, a.isInternal = true) → run X s (call :: as) = some s1 →
          s1.owner = OwnerPc.idle →
          s1.submitted = s.submitted
            ∧ s1.world.d.inputJobs = [] ∧ s1.tasks = [] ∧ executingJobs s1.tasks = []
            ∧ s1.world.d.output_queue_ = []
            ∧ (disposedJobs s1.world.trace ++ finalizedJobs s1.world.trace).Perm s1.submitted
            ∧ (s1.submitted.Nodup → ∀ job ∈ s1.submitted,
                (List.count job (disposedJobs s1.world.trace) = 1
                    ∧ List.count job (finalizedJobs s1.world.trace) = 0)
                  ∨ (List.count job (disposedJobs s1.world.trace) = 0
                    ∧ List.count job (finalizedJobs s1.world.trace) = 1)) := by
  have hi := hreach.inv
  obtain ⟨r, hstepeq⟩ : ∃ r, ∀ s2, step X s call = some s2 ↔
      s.FlushQueues BlockingBehavior.kBlock r = some s2 := by
    rcases hcall with h | h
    · exact ⟨false, fun s2 => by simp only [h, V8.step, hidle, if_true]⟩
    · exact ⟨true, fun s2 => by simp only [h, V8.step, hidle, if_true]⟩
  constructor
  · obtain ⟨s2, hc⟩ := FlushQueues_enabled hi BlockingBehavior.kBlock r
    obtain ⟨as, s1, h1, h2, h3⟩ := FlushQueues_returns X hi _ _ hc
    refine ⟨as, s1, h1, ?_, h3⟩
    simp only [V8.run, (hstepeq s2).mpr hc]
    exact h2
  · intro as s1 hint hrun hret
    obtain ⟨s2, hstep, hrun2⟩ := run_cons_some hrun
    obtain ⟨hinv1, hsub, _, h2, h3, _, h5, _⟩ :=
      FlushQueues_block_post X hi ((hstepeq s2).mp hstep) hint hrun2 hret
    have hc := hinv1.conservation
    simp only [System.heldJobs, h2, h5, h3, executingJobs, List.nil_append] at hc
    refine ⟨hsub, h2, h5, by rw [h5]; rfl, h3, hc, ?_⟩
    intro hn job hjob
    have h1 : List.count job s1.submitted = 1 := List.count_eq_one_of_mem hn hjob
    have h4 := hc.count_eq job
    rw [List.count_append, h1] at h4
    omega

/-- C13, for `Stop` called in the state `schedule2` reaches: the four
submitted jobs are disposed of, once each, and nothing is held. -/
theorem no_job_left_stuck_witness :
    (System.after X0 2 heap0 (schedule2 ++ Action.Stop :: drain2)).submitted
        = [job1, job2, job3, job4]
      ∧ disposedJobs (System.after X0 2 heap0 (schedule2 ++ Action.Stop :: drain2)).world.trace
        = [job3, job4, job2, job1]
      ∧ (System.after X0 2 heap0 (schedule2 ++ Action.Stop :: drain2)).world.d.inputJobs = []
      ∧ (System.after X0 2 heap0 (schedule2 ++ Action.Stop :: drain2)).tasks = []
      ∧ (System.after X0 2 heap0 (schedule2 ++ Action.Stop :: drain2)).world.d.output_queue_
        = [] :=
  ⟨by decide, by decide,
   ((no_job_left_stuck X0 (System.after X0 2 heap0 schedule2)
      (reachable_after X0 2 heap0 schedule2 (by decide) _ rfl) rfl Action.Stop
      (Or.inl rfl)).2 drain2
      (System.after X0 2 heap0 (schedule2 ++ Action.Stop :: drain2))
      (by decide) rfl rfl).2.1,
   ((no_job_left_stuck X0 (System.after X0 2 heap0 schedule2)
      (reachable_after X0 2 heap0 schedule2 (by decide) _ rfl) rfl Action.Stop
      (Or.inl rfl)).2 drain2
      (System.after X0 2 heap0 (schedule2 ++ Action.Stop :: drain2))
      (by decide) rfl rfl).2.2.1,
   ((no_job_left_stuck X0 (System.after X0 2 heap0 schedule2)
      (reachable_after X0 2 heap0 schedule2 (by decide) _ rfl) rfl Action.Stop
      (Or.inl rfl)).2 drain2
      (System.after X0 2 heap0 (schedule2 ++ Action.Stop :: drain2))
      (by decide) rfl rfl).2.2.2.2.1⟩

/-! ## C14 -/

theorem FlushInputQueue_empty (w : World) (h : w.d.input_queue_length_ = 0) :
    FlushInputQueue w = some w := by
  simp [FlushInputQueue, h, FlushInputQueue_loop]

theorem quiet_step (X : Collaborators) {s s1 : System} {a : Action}
    (htasks : s.tasks = []) (hout : s.world.d.output_queue_ = [])
    (ha : a.isInternal = true) (h : step X s a = some s1) :
    s1.world = s.world ∧ s1.tasks = [] ∧ s1.submitted = s.submitted
      ∧ (s1.owner = OwnerPc.idle → s.owner ≠ OwnerPc.idle) := by
  cases a with
  | owner =>
    simp only [V8.step, System.ownerStep] at h
    split at h
    · cases h
    · split at h
      · cases h
      · simp only [Option.some.injEq] at h
        subst h
        exact ⟨rfl, htasks, rfl, fun h1 => by simp at h1⟩
    · rename_i r ho
      simp only [FlushOutputQueue_iter, hout, Option.some.injEq] at h
      subst h
      exact ⟨rfl, htasks, rfl, fun _ => by rw [ho]; simp⟩
    · rename_i ho
      simp only [InstallOptimizedFunctions_iter, hout, Option.some.injEq] at h
      subst h
      exact ⟨rfl, htasks, rfl, fun _ => by rw [ho]; simp⟩
    · rename_i ho
      split at h
      · cases h
      · simp only [Option.some.injEq] at h
        subst h
        exact ⟨rfl, htasks, rfl, fun _ => by rw [ho]; simp⟩
  | worker i status =>
    simp only [V8.step, System.workerStep, htasks] at h
    simp at h
  | QueueForOptimization job => cases ha
  | Flush b => cases ha
  | Stop => cases ha
  | InstallOptimizedFunctions => cases ha
  | AwaitCompileTasks => cases ha

theorem quiet_run (X : Collaborators) (as : List Action) :
    ∀ {s s1 : System}, s.tasks = [] → s.world.d.output_queue_ = [] →
      (∀ a ∈ as, a.isInternal = true) → run X s as = some s1 →
      s1.world = s.world ∧ s1.tasks = [] ∧ s1.submitted = s.submitted := by
  induction as with
  | nil =>
    intro s s1 ht _ _ h
    simp only [V8.run, Option.some.injEq] at h
    subst h
    exact ⟨rfl, ht, rfl⟩
  | cons a as ih =>
    intro s s1 ht ho hint h
    obtain ⟨s2, hs, h2⟩ := run_cons_some h
    obtain ⟨h3, h4, h5, _⟩ := quiet_step X ht ho (hint a (List.mem_cons_self _ _)) hs
    obtain ⟨h6, h7, h8⟩ := ih h4 (by rw [h3]; exact ho)
      (fun b hb => hint b (List.mem_cons_of_mem _ hb)) h2
    exact ⟨h6.trans h3, h7, h8.trans h5⟩

theorem quiet_call (X : Collaborators) {s : System} (hi : s.Inv)
    (hidle : s.owner = OwnerPc.idle) (hin : s.world.d.input_queue_length_ = 0)
    (hout : s.world.d.output_queue_ = []) (hrc : s.world.d.ref_count_ = 0)
    (call : Action)
    (hcall : call = Action.Flush BlockingBehavior.kBlock
      ∨ call = Action.Flush BlockingBehavior.kDontBlock ∨ call = Action.Stop
      ∨ call = Action.InstallOptimizedFunctions) :
    (∃ as, (∀ a ∈ as, a.isInternal = true) ∧ run X s (call :: as) = some s)
      ∧ ∀ as s1, (∀ a ∈ as, a.isInternal = true) → run X s (call :: as) = some s1 →
          s1.owner = OwnerPc.idle → s1 = s := by
  have htasks : s.tasks = [] := by
    have := hi.ref_count
    rw [hrc] at this
    exact List.length_eq_zero.mp (by exact_mod_cast this.symm)
  have hflush := FlushInputQueue_empty s.world hin
  have hidem : { s with owner := OwnerPc.idle } = s := by
    cases s
    simp only at hidle
    subst hidle
    rfl
  obtain ⟨pc, hstep⟩ : ∃ pc, step X s call = some { s with owner := pc } := by
    rcases hcall with h | h | h | h <;> subst h
    · simp only [V8.step, hidle, if_true, System.FlushQueues, hflush]
      exact ⟨_, rfl⟩
    · simp only [V8.step, hidle, if_true, System.FlushQueues, hflush]
      exact ⟨_, rfl⟩
    · simp only [V8.step, hidle, if_true, System.FlushQueues, hflush]
      exact ⟨_, rfl⟩
    · simp only [V8.step, hidle, if_true]
      exact ⟨_, rfl⟩
  constructor
  · rcases hcall with h | h | h | h <;> subst h
    · refine ⟨[Action.owner, Action.owner], by simp [Action.isInternal], ?_⟩
      simp [V8.run, V8.step, hidle, System.FlushQueues, hflush, System.ownerStep, hrc,
        FlushOutputQueue_iter, hout, hidem]
    · refine ⟨[Action.owner], by simp [Action.isInternal], ?_⟩
      simp [V8.run, V8.step, hidle, System.FlushQueues, hflush, System.ownerStep,
        FlushOutputQueue_iter, hout, hidem]
    · refine ⟨[Action.owner, Action.owner], by simp [Action.isInternal], ?_⟩
      simp [V8.run, V8.step, hidle, System.FlushQueues, hflush, System.ownerStep, hrc,
        FlushOutputQueue_iter, hout, hidem]
    · refine ⟨[Action.owner], by simp [Action.isInternal], ?_⟩
      simp [V8.run, V8.step, hidle, System.ownerStep,
        InstallOptimizedFunctions_iter, hout, hidem]
  · intro as s1 hint hrun hret
    obtain ⟨s2, hs, h2⟩ := run_cons_some hrun
    rw [hstep, Option.some.injEq] at hs
    subst hs
    obtain ⟨h3, h4, h5⟩ := @quiet_run X as { s with owner := pc } s1 htasks hout hint h2
    cases s1
    cases s
    simp only [System.mk.injEq]
    exact ⟨h3, h4.trans htasks.symm, hret.trans hidle.symm, h5⟩

/-- C14: re-draining is a no-op.  In a reachable state in which the owner is
outside the dispatcher, the input queue and the output queue are empty and
`ref_count_` is 0, each of `Flush(kBlock)`, `Flush(kDontBlock)`, `Stop` and
`InstallOptimizedFunctions` can be run to its return, and whenever it has
returned the whole state is as it was: the dispatcher, the heap, and the trace
(no job disposed of, none finalized).  So from any reachable state, a second
`Flush(kBlock)` right after a first leaves the state the first one left. -/
theorem redrain_is_noop (X : Collaborators) (s : System) (hreach : Reachable X s)
    (hidle : s.owner = OwnerPc.idle) :
    (s.world.d.input_queue_length_ = 0 → s.world.d.output_queue_ = [] →
        s.world.d.ref_count_ = 0 →
        ∀ call, (call = Action.Flush BlockingBehavior.kBlock
            ∨ call = Action.Flush BlockingBehavior.kDontBlock ∨ call = Action.Stop
            ∨ call = Action.InstallOptimizedFunctions) →
          (∃ as, (∀ a ∈ as, a.isInternal = true) ∧ run X s (call :: as) = some s)
            ∧ ∀ as s1, (∀ a ∈ as, a.isInternal = true) → run X s (call :: as) = some s1 →
                s1.owner = OwnerPc.idle →
                s1 = s ∧ s1.world.d = s.world.d ∧ s1.world.trace = s.world.trace
                  ∧ s1.world.heap = s.world.heap)
      ∧ ∀ as1 s1, (∀ a ∈ as1, a.isInternal = true) →
          run X s (Action.Flush BlockingBehavior.kBlock :: as1) = some s1 →
          s1.owner = OwnerPc.idle →
          ∀ as2 s2, (∀ a ∈ as2, a.isInternal = true) →
            run X s1 (Action.Flush BlockingBehavior.kBlock :: as2) = some s2 →
            s2.owner = OwnerPc.idle → s2 = s1 := by
  have hi := hreach.inv
  constructor
  · intro hin hout hrc call hcall
    obtain ⟨h1, h2⟩ := quiet_call X hi hidle hin hout hrc call hcall
    refine ⟨h1, ?_⟩
    intro as s1 hint hrun hret
    have := h2 as s1 hint hrun hret
    subst this
    exact ⟨rfl, rfl, rfl, rfl⟩
  · intro as1 s1 hint1 hrun1 hret1 as2 s2 hint2 hrun2 hret2
    obtain ⟨s3, hstep, hrun3⟩ := run_cons_some hrun1
    simp only [V8.step, hidle, if_true] at hstep
    obtain ⟨hinv1, _, h1, _, h3, h4, _, _⟩ :=
      FlushQueues_block_post X hi hstep hint1 hrun3 hret1
    exact (quiet_call X hinv1 hret1 h1 h3 h4 _ (Or.inl rfl)).2 as2 s2 hint2 hrun2 hret2

/-- C14, at the state a blocking `Flush` leaves after `schedule2`: a second
blocking `Flush` returns in the same state. -/
theorem redrain_is_noop_witness :
    (System.after X0 2 heap0
        (schedule2 ++ Action.Flush BlockingBehavior.kBlock :: drain2)).world.d.output_queue_ = []
      ∧ System.after X0 2 heap0
          (schedule2 ++ Action.Flush BlockingBehavior.kBlock :: drain2
            ++ [Action.Flush BlockingBehavior.kBlock, Action.owner, Action.owner])
        = System.after X0 2 heap0
            (schedule2 ++ Action.Flush BlockingBehavior.kBlock :: drain2) :=
  ⟨by decide,
   ((redrain_is_noop X0
      (System.after X0 2 heap0 (schedule2 ++ Action.Flush BlockingBehavior.kBlock :: drain2))
      (reachable_after X0 2 heap0 _ (by decide) _ rfl) rfl).1 rfl rfl rfl
      (Action.Flush BlockingBehavior.kBlock) (Or.inl rfl)).2
      [Action.owner, Action.owner]
      (System.after X0 2 heap0
        (schedule2 ++ Action.Flush BlockingBehavior.kBlock :: drain2
          ++ [Action.Flush BlockingBehavior.kBlock, Action.owner, Action.owner]))
      (by decide) rfl rfl |>.1⟩

/-! ## C18 -/

/-- C18: `Stop` drains the pending jobs as a blocking `Flush` does.  In a
reachable state in which the owner is outside the dispatcher, `Stop` and
`Flush(kBlock)` both start with the same `FlushInputQueue`, which leaves the
same world: every job of the input queue, in queue order, is disposed of with
`restore_function_code = true`.  The two calls differ only in the flag the
owner carries to the output drain: whenever `Stop` has returned, the jobs that
were being executed or in the output queue have been disposed of without
reversion, behind the pending ones; whenever `Flush(kBlock)` has returned, with
reversion. -/
theorem stop_reverts_pending_jobs (X : Collaborators) (s : System) (hreach : Reachable X s)
    (hidle : s.owner = OwnerPc.idle) :
    ∃ w, FlushInputQueue s.world = some w
      ∧ step X s Action.Stop = some { s with world := w, owner := OwnerPc.FlushQueues_wait false }
      ∧ step X s (Action.Flush BlockingBehavior.kBlock)
          = some { s with world := w, owner := OwnerPc.FlushQueues_wait true }
      ∧ w.trace = s.world.trace ++ s.world.d.inputJobs.map (fun j => Event.Dispose j true)
      ∧ w.heap = (disposeAll true s.world.d.inputJobs s.world).heap
      ∧ w.d.inputJobs = [] ∧ w.d.output_queue_ = s.world.d.output_queue_
      ∧ (∀ as s1, (∀ a ∈ as, a.isInternal = true) → run X s (Action.Stop :: as) = some s1 →
          s1.owner = OwnerPc.idle →
          ∃ order : List OptimizedCompilationJob,
            order.Perm (executingJobs s.tasks ++ s.world.d.output_queue_)
              ∧ s1.world.trace = s.world.trace
                  ++ s.world.d.inputJobs.map (fun j => Event.Dispose j true)
                  ++ order.map (fun j => Event.Dispose j false)
              ∧ s1.world.heap = (disposeAll true s.world.d.inputJobs s.world).heap)
      ∧ (∀ as s1, (∀ a ∈ as, a.isInternal = true) →
          run X s (Action.Flush BlockingBehavior.kBlock :: as) = some s1 →
          s1.owner = OwnerPc.idle →
          ∃ order : List OptimizedCompilationJob,
            order.Perm (executingJobs s.tasks ++ s.world.d.output_queue_)
              ∧ s1.world.trace = s.world.trace
                  ++ s.world.d.inputJobs.map (fun j => Event.Dispose j true)
                  ++ order.map (fun j => Event.Dispose j true)
              ∧ s1.world.heap
                  = (disposeAll true order (disposeAll true s.world.d.inputJobs s.world)).heap) := by
  have hi := hreach.inv
  obtain ⟨w, h1, h2, h3, h4, _, _, h7, h8⟩ := FlushInputQueue_spec s.world hi.wf
  refine ⟨w, h1, ?_, ?_, h8, h7, h2.inputJobs_nil h3, h4, ?_, ?_⟩
  · simp only [V8.step, hidle, if_true, System.FlushQueues, h1]
  · simp only [V8.step, hidle, if_true, System.FlushQueues, h1]
  · intro as s1 hint hrun hret
    obtain ⟨s2, hstep, hrun2⟩ := run_cons_some hrun
    simp only [V8.step, hidle, if_true] at hstep
    obtain ⟨_, _, _, _, _, _, _, order, hp, ht, hh⟩ :=
      FlushQueues_block_post X hi hstep hint hrun2 hret
    exact ⟨order, hp, ht, by rw [hh, disposeAll_false_heap]⟩
  · intro as s1 hint hrun hret
    obtain ⟨s2, hstep, hrun2⟩ := run_cons_some hrun
    simp only [V8.step, hidle, if_true] at hstep
    obtain ⟨_, _, _, _, _, _, _, order, hp, ht, hh⟩ :=
      FlushQueues_block_post X hi hstep hint hrun2 hret
    exact ⟨order, hp, ht, hh⟩

/-- C18, at the state `schedule2` reaches: `Stop` reverts the targets of the
pending `job3` and `job4` (function 12 loses its marker and its OSR-pending
flag, function 10 falls back to code 0), as `Flush(kBlock)` does. -/
theorem stop_reverts_pending_jobs_witness :
    (System.after X0 2 heap0 schedule2).world.d.inputJobs = [job3, job4]
      ∧ (System.after X0 2 heap0 (schedule2 ++ [Action.Stop])).world.trace
          = [Event.Dispose job3 true, Event.Dispose job4 true]
      ∧ (System.after X0 2 heap0 (schedule2 ++ [Action.Flush BlockingBehavior.kBlock])).world.trace
          = [Event.Dispose job3 true, Event.Dispose job4 true]
      ∧ ((System.after X0 2 heap0 (schedule2 ++ [Action.Stop])).world.heap.functions
          12).optimization_marker = OptimizationMarker.kNone
      ∧ ((System.after X0 2 heap0 (schedule2 ++ [Action.Stop])).world.heap.shareds
          12).osr_is_in_optimization_queue = false
      ∧ ((System.after X0 2 heap0 schedule2).world.heap.functions 10).code = 1
      ∧ ((System.after X0 2 heap0 (schedule2 ++ [Action.Stop])).world.heap.functions 10).code = 0
      ∧ ∃ w, FlushInputQueue (System.after X0 2 heap0 schedule2).world = some w
          ∧ step X0 (System.after X0 2 heap0 schedule2) Action.Stop
              = some { System.after X0 2 heap0 schedule2 with
                        world := w, owner := OwnerPc.FlushQueues_wait false }
          ∧ step X0 (System.after X0 2 heap0 schedule2) (Action.Flush BlockingBehavior.kBlock)
              = some { System.after X0 2 heap0 schedule2 with
                        world := w, owner := OwnerPc.FlushQueues_wait true } := by
  obtain ⟨w, h1, h2, h3, _⟩ := stop_reverts_pending_jobs X0 (System.after X0 2 heap0 schedule2)
    (reachable_after X0 2 heap0 schedule2 (by decide) _ rfl) rfl
  exact ⟨by decide, by decide, by decide, by decide, by decide, by decide, by decide,
    w, h1, h2, h3⟩

/-! ## The output drain, in order -/

theorem DrainRel.drain_step (X : Collaborators) {r : Bool} {s0 s s1 : System} {a : Action}
    {later : List OptimizedCompilationJob}
    (hr : DrainRel r s0 later s) (ha : a.isInternal = true) (h : step X s a = some s1) :
    DrainRel r s0 (later ++ s.publishes a) s1 := by
  have hinv := hr.inv.inv_step X h
  obtain ⟨order, ht, hq⟩ := hr.progress
  cases a with
  | owner =>
    simp only [V8.step, System.ownerStep] at h
    simp only [System.publishes, List.append_nil]
    rcases hr.owner with ho | ho | ho
    · simp only [ho] at h
      split at h
      · cases h
      · simp only [Option.some.injEq] at h
        subst h
        exact ⟨hinv, Or.inr (Or.inl rfl), order, ht, hq⟩
    · simp only [ho] at h
      cases hw : FlushOutputQueue_iter r s.world with
      | none =>
        simp only [hw, Option.some.injEq] at h
        subst h
        exact ⟨hinv, Or.inr (Or.inr rfl), order, ht, hq⟩
      | some w =>
        simp only [hw, Option.some.injEq] at h
        subst h
        obtain ⟨job, h1, _, _, _, _, _, h7, _⟩ := FlushOutputQueue_iter_some hw
        rw [h1] at hq
        refine ⟨hinv, Or.inr (Or.inl rfl), order ++ [job], ?_, ?_⟩
        · simp only [h7, ht, List.map_append, List.map_cons, List.map_nil, List.append_assoc]
        · rw [← hq]
          simp
    · simp only [ho] at h
      cases h
  | worker i status =>
    simp only [V8.step] at h
    obtain ⟨h1, _, _, h4, h5, _⟩ := workerStep_frame h
    refine ⟨hinv, ?_, order, h1.trans ht, ?_⟩
    · rw [h4]; exact hr.owner
    · rw [h5, ← List.append_assoc, hq, List.append_assoc]
  | QueueForOptimization job => cases ha
  | Flush b => cases ha
  | Stop => cases ha
  | InstallOptimizedFunctions => cases ha
  | AwaitCompileTasks => cases ha

theorem DrainRel.drain_run (X : Collaborators) {r : Bool} {s0 : System} (as : List Action) :
    ∀ {s s1 : System} {later : List OptimizedCompilationJob},
      (∀ a ∈ as, a.isInternal = true) → DrainRel r s0 later s →
      run X s as = some s1 → DrainRel r s0 (later ++ publishedAlong X s as) s1 := by
  induction as with
  | nil =>
    intro s s1 later _ hr h
    simp only [V8.run, Option.some.injEq] at h
    subst h
    simpa [publishedAlong] using hr
  | cons a as ih =>
    intro s s1 later hint hr h
    obtain ⟨s2, hs, h2⟩ := run_cons_some h
    have := ih (fun b hb => hint b (List.mem_cons_of_mem _ hb))
      (hr.drain_step X (hint a (List.mem_cons_self _ _)) hs) h2
    simpa only [publishedAlong, hs, List.append_assoc] using this

theorem DrainRel.drain_start {s s1 : System} (hi : s.Inv) (b : BlockingBehavior) (r : Bool)
    (h : s.FlushQueues b r = some s1) : DrainRel r s [] s1 := by
  obtain ⟨hrel, _, _⟩ := FlushRel.start hi b r h
  obtain ⟨w1, h1, _, _, h4, _, _, _, h8⟩ := FlushInputQueue_spec s.world hi.wf
  simp only [System.FlushQueues, h1, Option.some.injEq] at h
  subst h
  refine ⟨hrel.inv, ?_, [], ?_, ?_⟩
  · simp only
    split
    · exact Or.inl rfl
    · exact Or.inr (Or.inl rfl)
  · simp only [h8, List.map_nil, List.append_nil]
  · simp only [h4, List.nil_append, List.append_nil]

theorem publishedAlong_concat (X : Collaborators) (a : Action) :
    ∀ (l : List Action) (t t1 : System), run X t l = some t1 →
      publishedAlong X t (l ++ [a]) = publishedAlong X t l ++ t1.publishes a := by
  intro l
  induction l with
  | nil =>
    intro t t1 h
    simp only [V8.run, Option.some.injEq] at h
    subst h
    simp only [List.nil_append, publishedAlong]
    cases V8.step X t a <;> simp [publishedAlong]
  | cons b l ih =>
    intro t t1 h
    obtain ⟨t2, hb, h2⟩ := run_cons_some h
    show publishedAlong X t (b :: (l ++ [a])) = _
    simp only [publishedAlong, hb, ih t2 t1 h2, List.append_assoc]

theorem step_trace_grows (X : Collaborators) {s s1 : System} {a : Action} (hi : s.Inv)
    (h : step X s a = some s1) : ∃ evs, s1.world.trace = s.world.trace ++ evs := by
  cases a with
  | QueueForOptimization job =>
    simp only [V8.step] at h
    split at h
    · simp only [Option.some.injEq] at h
      subst h
      exact ⟨[], by simp⟩
    · cases h
  | Flush b =>
    simp only [V8.step] at h
    split at h
    · obtain ⟨w1, h1, _, _, _, _, _, _, h8⟩ := FlushInputQueue_spec s.world hi.wf
      simp only [System.FlushQueues, h1, Option.some.injEq] at h
      subst h
      exact ⟨_, h8⟩
    · cases h
  | Stop =>
    simp only [V8.step] at h
    split at h
    · obtain ⟨w1, h1, _, _, _, _, _, _, h8⟩ := FlushInputQueue_spec s.world hi.wf
      simp only [System.FlushQueues, h1, Option.some.injEq] at h
      subst h
      exact ⟨_, h8⟩
    · cases h
  | InstallOptimizedFunctions =>
    simp only [V8.step] at h
    split at h
    · simp only [Option.some.injEq] at h
      subst h
      exact ⟨[], by simp⟩
    · cases h
  | AwaitCompileTasks =>
    simp only [V8.step] at h
    split at h
    · simp only [Option.some.injEq] at h
      subst h
      exact ⟨[], by simp⟩
    · cases h
  | owner =>
    simp only [V8.step, System.ownerStep] at h
    split at h
    · cases h
    · split at h
      · cases h
      · simp only [Option.some.injEq] at h
        subst h
        exact ⟨[], by simp⟩
    · rename_i r _
      cases hw : FlushOutputQueue_iter r s.world with
      | none =>
        simp only [hw, Option.some.injEq] at h
        subst h
        exact ⟨[], by simp⟩
      | some w =>
        simp only [hw, Option.some.injEq] at h
        subst h
        obtain ⟨job, _, _, _, _, _, _, h7, _⟩ := FlushOutputQueue_iter_some hw
        exact ⟨_, h7⟩
    · cases hw : InstallOptimizedFunctions_iter X s.world with
      | none =>
        simp only [hw, Option.some.injEq] at h
        subst h
        exact ⟨[], by simp⟩
      | some w =>
        simp only [hw, Option.some.injEq] at h
        subst h
        obtain ⟨job, _, _, _, _, _, _, h7⟩ := InstallOptimizedFunctions_iter_some hw
        rcases h7 with ⟨_, h7, _⟩ | ⟨_, h7, _⟩
        · exact ⟨_, h7⟩
        · exact ⟨_, h7⟩
    · split at h
      · cases h
      · simp only [Option.some.injEq] at h
        subst h
        exact ⟨[], by simp⟩
  | worker i status =>
    simp only [V8.step] at h
    exact ⟨[], by simp [(workerStep_frame h).1]⟩

theorem run_trace_grows (X : Collaborators) (as : List Action) :
    ∀ {s s1 : System}, s.Inv → run X s as = some s1 →
      ∃ evs, s1.world.trace = s.world.trace ++ evs := by
  induction as with
  | nil =>
    intro s s1 _ h
    simp only [V8.run, Option.some.injEq] at h
    subst h
    exact ⟨[], by simp⟩
  | cons a as ih =>
    intro s s1 hi h
    obtain ⟨s2, hs, h2⟩ := run_cons_some h
    obtain ⟨e1, h3⟩ := step_trace_grows X hi hs
    obtain ⟨e2, h4⟩ := ih (hi.inv_step X hs) h2
    exact ⟨e1 ++ e2, by rw [h4, h3, List.append_assoc]⟩

theorem drain_output_owner (X : Collaborators) (r : Bool) :
    ∀ (q : List OptimizedCompilationJob) (s : System), s.world.d.output_queue_ = q →
      s.owner = OwnerPc.FlushOutputQueue r →
      ∃ as s1, (∀ a ∈ as, a = Action.owner) ∧ run X s (as ++ [Action.owner]) = some s1
        ∧ s1.owner = OwnerPc.idle := by
  intro q
  induction q with
  | nil =>
    intro s hq ho
    refine ⟨[], { s with owner := OwnerPc.idle }, by simp, ?_, rfl⟩
    simp [V8.run, V8.step, System.ownerStep, ho, FlushOutputQueue_iter, hq]
  | cons job rest ih =>
    intro s hq ho
    obtain ⟨s2, hstep, hq2, ho2⟩ : ∃ s2, V8.step X s Action.owner = some s2
        ∧ s2.world.d.output_queue_ = rest ∧ s2.owner = OwnerPc.FlushOutputQueue r := by
      simp only [V8.step, System.ownerStep, ho, FlushOutputQueue_iter, hq]
      exact ⟨_, rfl, rfl, rfl⟩
    obtain ⟨as, s1, h1, h2, h3⟩ := ih s2 hq2 ho2
    refine ⟨Action.owner :: as, s1, ?_, ?_, h3⟩
    · intro a ha
      rcases List.mem_cons.mp ha with h | h
      · exact h
      · exact h1 a h
    · simp only [List.cons_append, V8.run, hstep]
      exact h2

theorem publishedAlong_no_worker (X : Collaborators) (as : List Action) :
    ∀ s : System, (∀ a ∈ as, a.isWorker = false) → publishedAlong X s as = [] := by
  induction as with
  | nil => intro s _; rfl
  | cons a as ih =>
    intro s h
    have ha := h a (List.mem_cons_self _ _)
    have hrest : ∀ b ∈ as, b.isWorker = false := fun b hb => h b (List.mem_cons_of_mem _ hb)
    have hp : s.publishes a = [] := by
      cases a <;> first | rfl | cases ha
    simp only [publishedAlong, hp, List.nil_append]
    cases V8.step X s a with
    | none => rfl
    | some s1 => exact ih s1 hrest

theorem disposed_stays_out (X : Collaborators) {s1 s2 : System} (more : List Action)
    (hi : s1.Inv) (hrun : run X s1 more = some s2) (hn : s2.submitted.Nodup)
    (job : OptimizedCompilationJob) (hjob : job ∈ disposedJobs s1.world.trace) :
    job ∉ s2.world.d.inputJobs ∧ job ∉ executingJobs s2.tasks
      ∧ job ∉ s2.world.d.output_queue_ ∧ job ∉ finalizedJobs s2.world.trace := by
  have hi2 := System.Inv.inv_run X more hi hrun
  obtain ⟨evs, ht⟩ := run_trace_grows X more hi hrun
  have hjob2 : job ∈ disposedJobs s2.world.trace := by
    rw [ht, disposedJobs_append]
    exact List.mem_append_left _ hjob
  have hnd := hi2.conservation.nodup_iff.mpr hn
  rw [List.nodup_append] at hnd
  obtain ⟨hnd1, _, hdF⟩ := hnd
  rw [List.nodup_append] at hnd1
  obtain ⟨_, _, hdD⟩ := hnd1
  have hheld : job ∉ s2.heldJobs := fun h => hdD h hjob2
  have hF : job ∉ finalizedJobs s2.world.trace :=
    fun h => hdF (List.mem_append_right _ hjob2) h
  simp only [System.heldJobs, List.mem_append, not_or] at hheld
  exact ⟨hheld.1.1, hheld.1.2, hheld.2, hF⟩

/-! ## C19 -/

/-- C19: a non-blocking `Flush` still discards the results already completed.
From every reachable state in which the owner is outside the dispatcher,
`Flush(kDontBlock)` can be run to its return by the owner alone; and whenever
it has returned, the output queue is empty and the output drain has disposed
of, with `restore_function_code = true` and in queue order, every job of the
output queue of the call, then the jobs published during the call.  So when no
task publishes during the call, exactly the jobs of the output queue of the
call are disposed of by the drain.  These jobs are disposed of, and, when no
job is submitted twice, none of them is ever in the output queue again or
handed to finalize, whatever happens after the return. -/
theorem nonblocking_flush_discards_completed (X : Collaborators) (s : System)
    (hreach : Reachable X s) (hidle : s.owner = OwnerPc.idle) :
    (∃ as s1, (∀ a ∈ as, a = Action.owner)
        ∧ run X s (Action.Flush BlockingBehavior.kDontBlock :: as ++ [Action.owner]) = some s1
        ∧ s1.owner = OwnerPc.idle
        ∧ publishedAlong X s
            (Action.Flush BlockingBehavior.kDontBlock :: as ++ [Action.owner]) = [])
      ∧ ∀ as s1, (∀ a ∈ as, a.isInternal = true) →
          run X s (Action.Flush BlockingBehavior.kDontBlock :: as ++ [Action.owner]) = some s1 →
          s1.owner = OwnerPc.idle →
          s1.world.d.output_queue_ = []
            ∧ s1.world.trace = s.world.trace
                ++ s.world.d.inputJobs.map (fun j => Event.Dispose j true)
                ++ (s.world.d.output_queue_ ++ publishedAlong X s
                      (Action.Flush BlockingBehavior.kDontBlock :: as ++ [Action.owner])).map
                    (fun j => Event.Dispose j true)
            ∧ (publishedAlong X s
                  (Action.Flush BlockingBehavior.kDontBlock :: as ++ [Action.owner]) = [] →
                s1.world.trace = s.world.trace
                  ++ s.world.d.inputJobs.map (fun j => Event.Dispose j true)
                  ++ s.world.d.output_queue_.map (fun j => Event.Dispose j true))
            ∧ (∀ job ∈ s.world.d.output_queue_, job ∈ disposedJobs s1.world.trace)
            ∧ ∀ more s2, run X s1 more = some s2 → s2.submitted.Nodup →
                ∀ job ∈ s.world.d.output_queue_,
                  job ∉ s2.world.d.output_queue_ ∧ job ∉ finalizedJobs s2.world.trace := by
  have hi := hreach.inv
  obtain ⟨s0, hcall⟩ := FlushQueues_enabled hi BlockingBehavior.kDontBlock true
  have hstep : step X s (Action.Flush BlockingBehavior.kDontBlock) = some s0 := by
    simp only [V8.step, hidle, if_true, hcall]
  have hrel0 := DrainRel.drain_start hi BlockingBehavior.kDontBlock true hcall
  have ho0 : s0.owner = OwnerPc.FlushOutputQueue true := by
    have := (FlushRel.start hi BlockingBehavior.kDontBlock true hcall).2.2
    simpa using this
  have hpub : ∀ as, publishedAlong X s
      (Action.Flush BlockingBehavior.kDontBlock :: as ++ [Action.owner])
        = publishedAlong X s0 (as ++ [Action.owner]) := by
    intro as
    show publishedAlong X s (Action.Flush BlockingBehavior.kDontBlock :: (as ++ [Action.owner])) = _
    simp only [publishedAlong, hstep, System.publishes, List.nil_append]
  constructor
  · obtain ⟨as, s1, h1, h2, h3⟩ := drain_output_owner X true _ s0 rfl ho0
    refine ⟨as, s1, h1, ?_, h3, ?_⟩
    · simp only [List.cons_append, V8.run, hstep]
      exact h2
    · rw [hpub]
      apply publishedAlong_no_worker
      intro a ha
      rcases List.mem_append.mp ha with h | h
      · rw [h1 a h]; rfl
      · simp only [List.mem_singleton] at h
        rw [h]; rfl
  · intro as s1 hint hrun hret
    obtain ⟨s2, hs, h2⟩ := run_cons_some (by simpa using hrun)
    rw [hstep, Option.some.injEq] at hs
    subst hs
    obtain ⟨s3, h3, h4⟩ := run_append_some X as [Action.owner] h2
    have hr3 := DrainRel.drain_run X as hint hrel0 h3
    obtain ⟨s4, h5, h6⟩ := run_cons_some h4
    simp only [V8.run, Option.some.injEq] at h6
    subst h6
    have hr4 := hr3.drain_step X (show Action.owner.isInternal = true from rfl) h5
    have hout : s4.world.d.output_queue_ = [] := by
      simp only [V8.step, System.ownerStep] at h5
      rcases hr3.owner with ho | ho | ho
      · simp only [ho] at h5
        split at h5
        · cases h5
        · simp only [Option.some.injEq] at h5
          subst h5
          cases hret
      · simp only [ho] at h5
        cases hw : FlushOutputQueue_iter true s3.world with
        | none =>
          simp only [hw, Option.some.injEq] at h5
          subst h5
          exact FlushOutputQueue_iter_none hw
        | some w =>
          simp only [hw, Option.some.injEq] at h5
          subst h5
          cases hret
      · simp only [ho] at h5
        cases h5
    obtain ⟨order, ht, hq⟩ := hr4.progress
    rw [hout, List.append_nil] at hq
    have hord : order = s.world.d.output_queue_ ++ publishedAlong X s
        (Action.Flush BlockingBehavior.kDontBlock :: as ++ [Action.owner]) := by
      rw [hq, hpub, publishedAlong_concat X Action.owner as _ s3 h3]
      simp
    have htrace := ht
    rw [hord] at htrace
    have hdisp : ∀ job ∈ s.world.d.output_queue_, job ∈ disposedJobs s4.world.trace := by
      intro job hjob
      rw [htrace, disposedJobs_append, disposedJobs_map_Dispose]
      exact List.mem_append_right _ (List.mem_append_left _ hjob)
    refine ⟨hout, htrace, ?_, hdisp, ?_⟩
    · intro hnone
      rw [htrace, hnone, List.append_nil]
    · intro more s5 hmore hn job hjob
      obtain ⟨_, _, h7, h8⟩ := disposed_stays_out X more hr4.inv hmore hn job (hdisp job hjob)
      exact ⟨h7, h8⟩

/-- C19, at the state `schedule2` reaches, where `job2` is in the output queue
and `job1` is being executed: the drain disposes of `job2` with reversion, and
`job1` is still being executed at the return. -/
theorem nonblocking_flush_discards_completed_witness :
    (System.after X0 2 heap0 schedule2).world.d.output_queue_ = [job2]
      ∧ (System.after X0 2 heap0
          (schedule2 ++ Action.Flush BlockingBehavior.kDontBlock :: [Action.owner]
            ++ [Action.owner])).world.trace
        = [Event.Dispose job3 true, Event.Dispose job4 true, Event.Dispose job2 true]
      ∧ executingJobs (System.after X0 2 heap0
          (schedule2 ++ Action.Flush BlockingBehavior.kDontBlock :: [Action.owner]
            ++ [Action.owner])).tasks = [job1]
      ∧ (System.after X0 2 heap0
          (schedule2 ++ Action.Flush BlockingBehavior.kDontBlock :: [Action.owner]
            ++ [Action.owner])).world.d.output_queue_ = [] :=
  ⟨by decide, by decide, by decide,
   ((nonblocking_flush_discards_completed X0 (System.after X0 2 heap0 schedule2)
      (reachable_after X0 2 heap0 schedule2 (by decide) _ rfl) rfl).2 [Action.owner]
      (System.after X0 2 heap0
        (schedule2 ++ Action.Flush BlockingBehavior.kDontBlock :: [Action.owner]
          ++ [Action.owner]))
      (by decide) rfl rfl).1⟩

/-! ## C11 -/

theorem install_post (X : Collaborators) {s s1 : System} {as : List Action} (hi : s.Inv)
    (hidle : s.owner = OwnerPc.idle) (hint : ∀ a ∈ as, a.isInternal = true)
    (hrun : run X s (Action.InstallOptimizedFunctions :: as ++ [Action.owner]) = some s1)
    (hret : s1.owner = OwnerPc.idle) :
    s1.world.d.output_queue_ = []
      ∧ ∃ evs : List Event, ∃ later : List OptimizedCompilationJob,
          s1.world.trace = s.world.trace ++ evs
            ∧ evs.map Event.job = s.world.d.output_queue_ ++ later
            ∧ ∀ e ∈ evs, e = Event.Dispose e.job false ∨ e = Event.Finalize e.job := by
  have hcall : step X s Action.InstallOptimizedFunctions
      = some { s with owner := OwnerPc.InstallOptimizedFunctions } := by
    simp only [V8.step, hidle, if_true]
  have hrel0 : InstallRel s [] { s with owner := OwnerPc.InstallOptimizedFunctions } :=
    ⟨hi.inv_step X hcall, Or.inl rfl, [], by simp, by simp, by simp⟩
  obtain ⟨s2, hs, h2⟩ := run_cons_some (by simpa using hrun)
  rw [hcall, Option.some.injEq] at hs
  subst hs
  obtain ⟨s3, h3, h4⟩ := run_append_some X as [Action.owner] h2
  have hr3 := InstallRel.install_run X as hint hrel0 h3
  obtain ⟨s4, h5, h6⟩ := run_cons_some h4
  simp only [V8.run, Option.some.injEq] at h6
  subst h6
  have hr4 := hr3.install_step X (show Action.owner.isInternal = true from rfl) h5
  have hout : s4.world.d.output_queue_ = [] := by
    simp only [V8.step, System.ownerStep] at h5
    rcases hr3.owner with ho | ho
    · simp only [ho] at h5
      cases hw : InstallOptimizedFunctions_iter X s3.world with
      | none =>
        simp only [hw, Option.some.injEq] at h5
        subst h5
        exact InstallOptimizedFunctions_iter_none hw
      | some w =>
        simp only [hw, Option.some.injEq] at h5
        subst h5
        cases hret
    · simp only [ho] at h5
      cases h5
  obtain ⟨evs, ht, hq, hev⟩ := hr4.progress
  rw [hout, List.append_nil] at hq
  exact ⟨hout, evs, _, ht, hq, hev⟩

/-- C11 as stated fails: in the state `schedule5` reaches, `job1` is being
executed by a task when the owner calls `Flush(kDontBlock)`; the task publishes
it before the output drain looks at the output queue, and the flush disposes of
it, with reversion, before it returns. -/
theorem nonblocking_flush_spares_executing_counterexample :
    ¬ ∀ (X : Collaborators) (s s1 : System) (as : List Action),
        Reachable X s → s.owner = OwnerPc.idle → (∀ a ∈ as, a.isInternal = true) →
        run X s (Action.Flush BlockingBehavior.kDontBlock :: as) = some s1 →
        s1.owner = OwnerPc.idle →
        ∀ job ∈ executingJobs s.tasks, ∀ evs, s1.world.trace = s.world.trace ++ evs →
          job ∉ disposedJobs evs := by
  intro h
  exact h X0 (System.after X0 2 heap0 schedule5)
    (System.after X0 2 heap0 (schedule5 ++ Action.Flush BlockingBehavior.kDontBlock :: raceDrain))
    raceDrain (reachable_after X0 2 heap0 schedule5 (by decide) _ rfl) rfl (by decide) rfl rfl
    job1 (by decide) [Event.Dispose job1 true] (by decide) (by decide)

/-- C11, amended: a non-blocking `Flush` does not wait for the tasks, and its
own steps leave `ref_count_` as it is: the call goes on to the output drain at
once, and the owner is never blocked in the drain.  Let no job be submitted
twice.  Whenever the flush has returned, a job that a task is still executing
has not been disposed of; a job that a task was executing at the call is still
being executed, or is in the output queue, or was published before the drain
ended and disposed of with reversion.  The step of a task that is executing a
job puts it at the tail of the output queue; and a job of the output queue is
processed by the next `InstallOptimizedFunctions` (disposed of without
reversion or finalized) and by the next `Stop` (disposed of without
reversion). -/
theorem nonblocking_flush_leaves_unfinished (X : Collaborators) (s : System)
    (hreach : Reachable X s) (hidle : s.owner = OwnerPc.idle) (hn : s.submitted.Nodup) :
    (∃ s0, step X s (Action.Flush BlockingBehavior.kDontBlock) = some s0
        ∧ s0.owner = OwnerPc.FlushOutputQueue true ∧ s0.tasks = s.tasks
        ∧ s0.world.d.ref_count_ = s.world.d.ref_count_)
      ∧ (∀ t : System, t.owner = OwnerPc.FlushOutputQueue true →
          ∃ t1, step X t Action.owner = some t1
            ∧ t1.world.d.ref_count_ = t.world.d.ref_count_ ∧ t1.tasks = t.tasks)
      ∧ (∀ as s1, (∀ a ∈ as, a.isInternal = true) →
          run X s (Action.Flush BlockingBehavior.kDontBlock :: as) = some s1 →
          s1.owner = OwnerPc.idle →
          (∀ job ∈ executingJobs s1.tasks,
              job ∉ disposedJobs s1.world.trace ∧ job ∉ finalizedJobs s1.world.trace)
            ∧ (∀ job ∈ executingJobs s.tasks,
                job ∈ executingJobs s1.tasks ∨ job ∈ s1.world.d.output_queue_
                  ∨ Event.Dispose job true ∈ s1.world.trace)
            ∧ ∀ k job status, s1.tasks.get? k = some (TaskPc.executing job) →
                ∃ s2, step X s1 (Action.worker k status) = some s2
                  ∧ s2.world.d.output_queue_ = s1.world.d.output_queue_ ++ [job]
                  ∧ s2.owner = OwnerPc.idle)
      ∧ ∀ t, Reachable X t → t.owner = OwnerPc.idle → ∀ job ∈ t.world.d.output_queue_,
          (∀ as t1, (∀ a ∈ as, a.isInternal = true) →
              run X t (Action.InstallOptimizedFunctions :: as ++ [Action.owner]) = some t1 →
              t1.owner = OwnerPc.idle →
              ∃ evs, t1.world.trace = t.world.trace ++ evs
                ∧ (Event.Dispose job false ∈ evs ∨ Event.Finalize job ∈ evs))
            ∧ ∀ as t1, (∀ a ∈ as, a.isInternal = true) →
                run X t (Action.Stop :: as) = some t1 → t1.owner = OwnerPc.idle →
                ∃ evs, t1.world.trace = t.world.trace ++ evs
                  ∧ Event.Dispose job false ∈ evs := by
  have hi := hreach.inv
  obtain ⟨s0, hcall⟩ := FlushQueues_enabled hi BlockingBehavior.kDontBlock true
  have hstep : step X s (Action.Flush BlockingBehavior.kDontBlock) = some s0 := by
    simp only [V8.step, hidle, if_true, hcall]
  obtain ⟨hrel0, ht0, ho0⟩ := FlushRel.start hi BlockingBehavior.kDontBlock true hcall
  refine ⟨⟨s0, hstep, by simpa using ho0, ht0, ?_⟩, ?_, ?_, ?_⟩
  · rw [hrel0.inv.ref_count, hi.ref_count, ht0]
  · intro t ho
    simp only [V8.step, System.ownerStep, ho]
    cases hw : FlushOutputQueue_iter true t.world with
    | none => exact ⟨_, rfl, rfl, rfl⟩
    | some w =>
      obtain ⟨_, _, _, _, _, _, h6, _⟩ := FlushOutputQueue_iter_some hw
      exact ⟨_, rfl, h6, rfl⟩
  · intro as s1 hint hrun hret
    obtain ⟨s2, hs, h2⟩ := run_cons_some hrun
    rw [hstep, Option.some.injEq] at hs
    subst hs
    obtain ⟨hrel1, _⟩ := FlushRel.flush_run X as hint hrel0 h2
    obtain ⟨order, hp, ht, _⟩ := hrel1.progress
    have hnd := hrel1.inv.conservation.nodup_iff.mpr (by rw [hrel1.submitted]; exact hn)
    rw [List.nodup_append] at hnd
    obtain ⟨hnd1, _, hdF⟩ := hnd
    rw [List.nodup_append] at hnd1
    obtain ⟨_, _, hdD⟩ := hnd1
    refine ⟨?_, ?_, ?_⟩
    · intro job hjob
      have hheld : job ∈ s1.heldJobs := by
        simp only [System.heldJobs, List.mem_append]
        exact Or.inl (Or.inr hjob)
      exact ⟨fun h => hdD hheld h, fun h => hdF (List.mem_append_left _ hheld) h⟩
    · intro job hjob
      have hmem : job ∈ order ++ executingJobs s1.tasks ++ s1.world.d.output_queue_ :=
        hp.mem_iff.mpr (List.mem_append_left _ hjob)
      simp only [List.mem_append] at hmem
      rcases hmem with (h | h) | h
      · right; right
        rw [ht]
        exact List.mem_append_right _ (List.mem_map.mpr ⟨job, h, rfl⟩)
      · exact Or.inl h
      · exact Or.inr (Or.inl h)
    · intro k job status hget
      simp only [V8.step, System.workerStep, hget]
      exact ⟨_, rfl, rfl, hret⟩
  · intro t htreach htidle job hjob
    have hti := htreach.inv
    constructor
    · intro as t1 hint hrun hret
      obtain ⟨_, evs, later, ht, hq, hev⟩ := install_post X hti htidle hint hrun hret
      refine ⟨evs, ht, ?_⟩
      have hmem : job ∈ evs.map Event.job := by
        rw [hq]
        exact List.mem_append_left _ hjob
      obtain ⟨e, he, hej⟩ := List.mem_map.mp hmem
      rcases hev e he with h | h
      · left
        rw [hej] at h
        rw [← h]
        exact he
      · right
        rw [hej] at h
        rw [← h]
        exact he
    · intro as t1 hint hrun hret
      obtain ⟨t2, hstep2, hrun2⟩ := run_cons_some hrun
      simp only [V8.step, htidle, if_true] at hstep2
      obtain ⟨_, _, _, _, _, _, _, order, hp, ht, _⟩ :=
        FlushQueues_block_post X hti hstep2 hint hrun2 hret
      refine ⟨_, by rw [ht, List.append_assoc], ?_⟩
      have hmem : job ∈ order := hp.mem_iff.mpr (List.mem_append_right _ hjob)
      exact List.mem_append_right _ (List.mem_map.mpr ⟨job, hmem, rfl⟩)

/-- C11 amended, at the non-blocking `Flush` of the counterexample: `job1`,
published before the drain ended, is disposed of with reversion; `job2`, still
being executed at the return, is not disposed of. -/
theorem nonblocking_flush_leaves_unfinished_witness :
    executingJobs (System.after X0 2 heap0 schedule5).tasks = [job1, job2]
      ∧ executingJobs (System.after X0 2 heap0
          (schedule5 ++ Action.Flush BlockingBehavior.kDontBlock :: raceDrain)).tasks = [job2]
      ∧ (System.after X0 2 heap0
          (schedule5 ++ Action.Flush BlockingBehavior.kDontBlock :: raceDrain)).world.trace
        = [Event.Dispose job1 true]
      ∧ ∀ job ∈ executingJobs (System.after X0 2 heap0
            (schedule5 ++ Action.Flush BlockingBehavior.kDontBlock :: raceDrain)).tasks,
          job ∉ disposedJobs (System.after X0 2 heap0
              (schedule5 ++ Action.Flush BlockingBehavior.kDontBlock :: raceDrain)).world.trace
            ∧ job ∉ finalizedJobs (System.after X0 2 heap0
              (schedule5 ++ Action.Flush BlockingBehavior.kDontBlock :: raceDrain)).world.trace :=
  ⟨by decide, by decide, by decide,
   ((nonblocking_flush_leaves_unfinished X0 (System.after X0 2 heap0 schedule5)
      (reachable_after X0 2 heap0 schedule5 (by decide) _ rfl) rfl (by decide)).2.2.1
      raceDrain
      (System.after X0 2 heap0
        (schedule5 ++ Action.Flush BlockingBehavior.kDontBlock :: raceDrain))
      (by decide) rfl rfl).1⟩

end V8
